import Mathlib

/-!
# kubelogin-poc test client: a verification development

Shallow embedding of `client/test-client.go`.

* Go strings are byte sequences (`len` counts bytes, `s[:n]` slices bytes).
* Calls into the Go standard library (`strings`, `encoding/base64`, `time`) are
  modelled from the documented behaviour of those packages.
* `encoding/json`, the filesystem, the environment, the clock and the OAuth2
  token endpoint are inputs of the model.
-/

namespace TestClient

/-- Results of fallible calls can be compared. -/
instance instDecidableEqExcept {ε α : Type} [DecidableEq ε] [DecidableEq α] :
    DecidableEq (Except ε α)
  | .ok a, .ok b => if h : a = b then isTrue (by rw [h]) else isFalse (by intro e; cases e; exact h rfl)
  | .error a, .error b =>
    if h : a = b then isTrue (by rw [h]) else isFalse (by intro e; cases e; exact h rfl)
  | .ok _, .error _ => isFalse (by intro e; cases e)
  | .error _, .ok _ => isFalse (by intro e; cases e)

/-! ## Go strings -/

/-- A Go `byte`. -/
abbrev Byte := Fin 256

/-- A Go `string`: an immutable sequence of bytes. -/
abbrev GoString := List Byte

/-- The bytes of an ASCII string literal. -/
def bytes (s : String) : GoString := s.data.map (fun c => Fin.ofNat c.toNat)

/-- The byte `'.'`. -/
def dot : Byte := 46

/-- The byte `'='`, the padding character of `base64.URLEncoding`. -/
def padChar : Byte := 61

/-- The byte `'\n'`. -/
def newline : Byte := 10

/-- The byte `'\r'`. -/
def carriageReturn : Byte := 13

/-- `strings.Split(s, sep)` for a one-byte separator: the maximal separator-free
runs of `s`, in order; `Count(s, sep) + 1` parts. -/
def stringsSplit (sep : Byte) : GoString → List GoString
  | [] => [[]]
  | c :: cs =>
    if c = sep then [] :: stringsSplit sep cs
    else
      match stringsSplit sep cs with
      | [] => [[c]]
      | p :: ps => (c :: p) :: ps

/-- `strings.Repeat(s, count)` for a one-byte string. -/
def stringsRepeat (c : Byte) (count : Nat) : GoString := List.replicate count c

/-- `strings.HasPrefix(s, p)`. -/
def startsWith : GoString → GoString → Bool
  | _, [] => true
  | [], _ :: _ => false
  | c :: cs, d :: ds => c = d && startsWith cs ds

/-- `strings.Index(s, substr)` counted from offset `i`: the index of the first
occurrence of `substr`, or `-1`. -/
def indexFrom (substr : GoString) : Nat → GoString → Int
  | i, [] => if startsWith [] substr then (i : Int) else -1
  | i, c :: cs => if startsWith (c :: cs) substr then (i : Int) else indexFrom substr (i + 1) cs

/-- `strings.Index(s, substr)`. -/
def stringsIndex (s substr : GoString) : Int := indexFrom substr 0 s

/-- `strings.Contains(s, substr)`, which Go defines as `Index(s, substr) >= 0`. -/
def stringsContains (s substr : GoString) : Bool := decide (0 ≤ stringsIndex s substr)

/-! ## `encoding/base64`, `URLEncoding` (padded, non-strict) -/

/-- The alphabet of `base64.URLEncoding`. -/
def encodeURL : GoString :=
  bytes "ABCDEFGHIJKLMNOPQRSTUVWXYZabcdefghijklmnopqrstuvwxyz0123456789-_"

/-- The table `enc.decodeMap`: the index of a byte in the alphabet, `0xff` for
every byte outside it. -/
def decodeMap (c : Byte) : Nat :=
  let i := encodeURL.indexOf c
  if i < 64 then i else 255

/-- Truncation of an unsigned integer to a `byte`. -/
def mkByte (n : Nat) : Byte := Fin.ofNat n

/-- The tail of `decodeQuantum`: the collected 6-bit values are packed into one
word and `dlen - 1` bytes of it are written to the destination. -/
def quantumBytes (dbuf : List Nat) (dlen : Nat) : List Byte :=
  let val := dbuf.getD 0 0 <<< 18 ||| dbuf.getD 1 0 <<< 12 ||| dbuf.getD 2 0 <<< 6 ||| dbuf.getD 3 0
  ([val >>> 16, val >>> 8, val >>> 0].map mkByte).take (dlen - 1)

/-- The loops `for si < len(src) && (src[si] == '\n' || src[si] == '\r') { si++ }`
of `decodeQuantum`: the unread input and the new `si`. -/
def skipNewlines : GoString → Nat → GoString × Nat
  | [], si => ([], si)
  | c :: cs, si =>
    if c = newline ∨ c = carriageReturn then skipNewlines cs (si + 1) else (c :: cs, si)

/-- After the padding of the last quantum: newlines are skipped, anything else
is trailing garbage (`CorruptInputError(si)`). -/
def finishPadding (rest : GoString) (si : Nat) (dbuf : List Nat) (j : Nat)
    (dst : List Byte) : Except Nat (List Byte) :=
  match skipNewlines rest si with
  | ([], _) => .ok (dst ++ quantumBytes dbuf j)
  | (_ :: _, si1) => .error si1

/-- `Encoding.Decode` of `base64.URLEncoding`, as the loop over `decodeQuantum`
it is: `src` is the unread input, `si` the index of its first byte, `j` the
number of 6-bit values of the current quantum read so far (`dbuf`), `dst` the
bytes decoded by the finished quanta. A finished quantum of four values is
written out and the next one starts at `j = 0`. The error is the offset of
`CorruptInputError`. (The 8- and 4-byte fast paths of `Decode` compute the same
function and fall back to `decodeQuantum` on any byte outside the alphabet.) -/
def decodeLoop : GoString → Nat → Nat → List Nat → List Byte → Except Nat (List Byte)
  | [], si, j, _, dst => if j = 0 then .ok dst else .error (si - j)
  | c :: rest, si, j, dbuf, dst =>
    if decodeMap c ≠ 255 then
      if j = 3 then decodeLoop rest (si + 1) 0 [] (dst ++ quantumBytes (dbuf ++ [decodeMap c]) 4)
      else decodeLoop rest (si + 1) (j + 1) (dbuf ++ [decodeMap c]) dst
    else if c = newline ∨ c = carriageReturn then decodeLoop rest (si + 1) j dbuf dst
    else if c ≠ padChar then .error si
    else if j = 0 ∨ j = 1 then .error si
    else if j = 2 then
      match skipNewlines rest (si + 1) with
      | ([], si1) => .error si1
      | (c2 :: rest2, si1) =>
        if c2 ≠ padChar then .error (si1 - 1)
        else finishPadding rest2 (si1 + 1) dbuf j dst
    else finishPadding rest (si + 1) dbuf j dst

/-- `base64.URLEncoding.DecodeString(s)`. -/
def decodeString (s : GoString) : Except Nat (List Byte) := decodeLoop s 0 0 [] []

/-- One character of the encoder: `enc.encode[i]`. -/
def encodeChar (i : Nat) : Byte := encodeURL.getD i 0

/-- `Encoding.Encode`: three bytes become four characters; a remainder of one
or two bytes becomes two or three characters, followed by padding when the
encoding is padded (`URLEncoding`) and by nothing when it is not
(`RawURLEncoding`). -/
def encodeToString (padded : Bool) : List Byte → GoString
  | [] => []
  | [b0] =>
    let val := b0.val <<< 16
    [encodeChar (val >>> 18 &&& 0x3F), encodeChar (val >>> 12 &&& 0x3F)]
      ++ (if padded then [padChar, padChar] else [])
  | [b0, b1] =>
    let val := b0.val <<< 16 ||| b1.val <<< 8
    [encodeChar (val >>> 18 &&& 0x3F), encodeChar (val >>> 12 &&& 0x3F),
      encodeChar (val >>> 6 &&& 0x3F)] ++ (if padded then [padChar] else [])
  | b0 :: b1 :: b2 :: rest =>
    let val := b0.val <<< 16 ||| b1.val <<< 8 ||| b2.val
    encodeChar (val >>> 18 &&& 0x3F) :: encodeChar (val >>> 12 &&& 0x3F) ::
      encodeChar (val >>> 6 &&& 0x3F) :: encodeChar (val &&& 0x3F) ::
      encodeToString padded rest

/-! ## `decodeJWT` -/

/-- The three errors of `decodeJWT`: `"invalid JWT format"`,
`"failed to decode JWT payload: %v"` with the base64 error (its offset), and
`"failed to unmarshal JWT claims: %v"` with the JSON error. -/
inductive JWTError
  | invalidFormat
  | decodePayload (offset : Nat)
  | unmarshalClaims (msg : GoString)
  deriving DecidableEq, Repr

/-- The padding step of `decodeJWT`:
`if len(payload)%4 != 0 { payload += strings.Repeat("=", 4-len(payload)%4) }`. -/
def padPayload (payload : GoString) : GoString :=
  if payload.length % 4 ≠ 0 then payload ++ stringsRepeat padChar (4 - payload.length % 4)
  else payload

/-- `decodeJWT(token)`. `unmarshal` is `json.Unmarshal` into a
`map[string]interface{}`; `γ` is the type of the decoded claims. -/
def decodeJWT {γ : Type} (unmarshal : GoString → Except GoString γ) (token : GoString) :
    Except JWTError γ :=
  match stringsSplit dot token with
  | [_, payload, _] =>
    match decodeString (padPayload payload) with
    | .error off => .error (.decodePayload off)
    | .ok decoded =>
      match unmarshal decoded with
      | .error msg => .error (.unmarshalClaims msg)
      | .ok claims => .ok claims
  | _ => .error .invalidFormat

/-- `isJWT(token)`. -/
def isJWT (token : GoString) : Bool := decide ((stringsSplit dot token).length = 3)

/-- `truncateToken(token, length)`; `none` is the run-time panic of a slice
expression out of range. -/
def truncateToken (token : GoString) (length : Int) : Option GoString :=
  if (token.length : Int) ≤ length then some token
  else if 0 ≤ length then some (token.take length.toNat)
  else none

/-! ## JSON values and `time` -/

/-- The dynamic values `json.Unmarshal` stores in an `interface{}`: `nil`, `bool`,
`float64`, `string`, `[]interface{}` and `map[string]interface{}`. A `float64`
is modelled by the rational number it denotes (JSON decoding never yields NaN or
an infinity). -/
inductive JSONValue
  | null
  | bool (b : Bool)
  | number (f : ℚ)
  | string (s : GoString)
  | array (xs : List JSONValue)
  | object (kvs : List (GoString × JSONValue))

/-- A `map[string]interface{}` of claims, listed in the order in which `range`
visits it (an order Go leaves unspecified). -/
abbrev Claims := List (GoString × JSONValue)

/-- The map index expression `claims[key]`; `none` is the `nil` interface that a
missing key yields. -/
def claimsGet (claims : Claims) (key : GoString) : Option JSONValue :=
  (claims.find? (fun kv => kv.1 = key)).map (fun kv => kv.2)

/-- The type assertion `v.(float64)` in its comma-ok form. -/
def asFloat64 : Option JSONValue → Option ℚ
  | some (.number f) => some f
  | _ => none

/-- The conversion `int64(f)` of a `float64`: the fraction is discarded
(truncation towards zero). Go defines the result only for values that fit an
`int64`. -/
def float64ToInt64 (f : ℚ) : Int := if 0 ≤ f then ⌊f⌋ else ⌈f⌉

/-- A `time.Time`, as the instant it denotes: nanoseconds since the Unix epoch. -/
abbrev Time := Int

/-- A `time.Duration`: a signed 64-bit count of nanoseconds. -/
abbrev Duration := Int

/-- `time.Millisecond`. -/
def millisecond : Duration := 1000000

/-- `time.Second`. -/
def second : Duration := 1000000000

/-- The largest `Duration`, `1<<63 - 1`. -/
def maxDuration : Duration := 2 ^ 63 - 1

/-- The smallest `Duration`, `-1 << 63`. -/
def minDuration : Duration := -(2 ^ 63)

/-- Two's-complement wrap-around of `int64` arithmetic. -/
def wrapInt64 (x : Int) : Int := (x + 2 ^ 63) % 2 ^ 64 - 2 ^ 63

/-- `time.Unix(sec, 0)`. -/
def timeUnix (sec : Int) : Time := sec * second

/-- `t.After(u)`. -/
def timeAfter (t u : Time) : Bool := decide (u < t)

/-- `t.Add(d)`. -/
def timeAdd (t : Time) (d : Duration) : Time := t + d

/-- `t.Sub(u)`: the difference, or the smallest or largest `Duration` when the
difference does not fit. -/
def timeSub (t u : Time) : Duration :=
  if t - u < minDuration then minDuration
  else if maxDuration < t - u then maxDuration
  else t - u

/-- `time.Until(t)` when the clock reads `now`: `t.Sub(time.Now())`. -/
def timeUntil (now t : Time) : Duration := timeSub t now

/-- `time.Since(t)` when the clock reads `now`: `time.Now().Sub(t)`. -/
def timeSince (now t : Time) : Duration := timeSub now t

/-- `lessThanHalf(x, y)` of package `time`: `uint64(x)+uint64(x) < uint64(y)`. -/
def lessThanHalf (x y : Duration) : Bool :=
  decide ((x % 2 ^ 64 + x % 2 ^ 64) % 2 ^ 64 < y % 2 ^ 64)

/-- `d.Round(m)`: `d` rounded to the nearest multiple of `m`, halfway values
away from zero; the smallest or largest `Duration` when the result does not
fit. -/
def durationRound (d m : Duration) : Duration :=
  if m ≤ 0 then d
  else
    let r := Int.tmod d m
    if d < 0 then
      if lessThanHalf (-r) m then d + -r
      else if wrapInt64 (d - m + -r) < d then wrapInt64 (d - m + -r)
      else minDuration
    else
      if lessThanHalf r m then d - r
      else if d < wrapInt64 (d + m - r) then wrapInt64 (d + m - r)
      else maxDuration

/-! ## `encoding/json`: `Unmarshal` into a `map[string]interface{}` -/

/-- The number of binary digits of `n`, computed in at most `fuel` halvings. -/
def bitLength : Nat → Nat → Nat
  | 0, _ => 0
  | fuel + 1, n => if n = 0 then 0 else bitLength fuel (n / 2) + 1

/-- The `float64` nearest to the positive rational `n / d`, halfway cases to the
even mantissa (IEEE 754 round-to-nearest-even, as `strconv.ParseFloat` rounds):
the pair `(m, s)` stands for `m * 2 ^ s`, with `s ≥ -1074` and `m ≤ 2 ^ 53`;
`none` when the nearest value is not finite. -/
def roundPos (n d : Nat) : Option (Nat × Int) :=
  let e0 : Int := (bitLength n n : Int) - (bitLength d d : Int)
  let e : Int := if d * 2 ^ e0.toNat ≤ n * 2 ^ (-e0).toNat then e0 else e0 - 1
  let s : Int := max e (-1022) - 52
  let num := n * 2 ^ (-s).toNat
  let den := d * 2 ^ s.toNat
  let m := num / den
  let r := num % den
  let m1 := if den < 2 * r ∨ (2 * r = den ∧ m % 2 = 1) then m + 1 else m
  if 971 < s ∨ (s = 971 ∧ m1 = 2 ^ 53) then none else some (m1, s)

/-- `strconv.ParseFloat(s, 64)` on the value `q` of a number literal: the nearest
`float64`, or `none` for the range error. -/
def roundFloat64 (q : ℚ) : Option ℚ :=
  if q = 0 then some 0
  else
    match roundPos q.num.natAbs q.den with
    | none => none
    | some (m, s) => some ((if q < 0 then -1 else 1) * (m : ℚ) * (2 : ℚ) ^ s)

/-- JSON white space: space, tab, carriage return, line feed. -/
def isSpace (c : Byte) : Bool := c = 32 || c = 9 || c = 13 || c = 10

/-- The input after its leading white space. -/
def skipSpace : GoString → GoString
  | [] => []
  | c :: cs => if isSpace c then skipSpace cs else c :: cs

/-- Whether a byte is a decimal digit. -/
def isDigit (c : Byte) : Bool := decide (48 ≤ c.val ∧ c.val ≤ 57)

/-- A maximal run of digits: its value continuing from `acc`, how many digits
it has, and the input after it. -/
def lexDigits : GoString → Nat → Nat → Nat × Nat × GoString
  | [], acc, count => (acc, count, [])
  | c :: cs, acc, count =>
    if isDigit c then lexDigits cs (acc * 10 + (c.val - 48)) (count + 1)
    else (acc, count, c :: cs)

/-- The optional fraction of a number literal: `.` and at least one digit. The
result is the digits as a number, their count, and the input after them;
`none` is the syntax error of a `.` without a digit. -/
def lexFraction : GoString → Option (Nat × Nat × GoString)
  | c :: cs =>
    if c = 46 then
      match lexDigits cs 0 0 with
      | (_, 0, _) => none
      | (frac, count + 1, rest) => some (frac, count + 1, rest)
    else some (0, 0, c :: cs)
  | [] => some (0, 0, [])

/-- The optional exponent of a number literal: `e` or `E`, an optional sign and
at least one digit. -/
def lexExponent : GoString → Option (Int × GoString)
  | c :: cs =>
    if c = 101 ∨ c = 69 then
      match cs with
      | s :: ds =>
        if s = 45 then
          match lexDigits ds 0 0 with
          | (_, 0, _) => none
          | (e, _ + 1, rest) => some (-(e : Int), rest)
        else if s = 43 then
          match lexDigits ds 0 0 with
          | (_, 0, _) => none
          | (e, _ + 1, rest) => some ((e : Int), rest)
        else
          match lexDigits (s :: ds) 0 0 with
          | (_, 0, _) => none
          | (e, _ + 1, rest) => some ((e : Int), rest)
      | [] => none
    else some (0, c :: cs)
  | [] => some (0, [])

/-- The integer part of a number literal: `0` alone, or a digit `1`-`9` and any
digits. -/
def lexInteger : GoString → Option (Nat × GoString)
  | c :: cs =>
    if c = 48 then some (0, cs)
    else if isDigit c then
      match lexDigits (c :: cs) 0 0 with
      | (n, _, rest) => some (n, rest)
    else none
  | [] => none

/-- The parts of a number literal at the head of the input: whether it has a
minus sign, its integer part, the digits of its fraction as a number and their
count, its exponent, and the input after it. -/
def lexNumberParts (input : GoString) : Option (Bool × Nat × Nat × Nat × Int × GoString) :=
  match lexInteger (if input.head? = some 45 then input.tail else input) with
  | none => none
  | some (int, rest0) =>
    match lexFraction rest0 with
    | none => none
    | some (frac, fracLen, rest1) =>
      match lexExponent rest1 with
      | none => none
      | some (exp, rest2) => some (decide (input.head? = some 45), int, frac, fracLen, exp, rest2)

/-- The rational a number literal denotes. -/
def numberValue (neg : Bool) (int frac fracLen : Nat) (exp : Int) : ℚ :=
  (if neg then -1 else 1) * ((int : ℚ) + (frac : ℚ) / (10 : ℚ) ^ fracLen) * (10 : ℚ) ^ exp

/-- A number literal at the head of the input: the rational it denotes and the
input after it. -/
def lexNumber (input : GoString) : Option (ℚ × GoString) :=
  match lexNumberParts input with
  | none => none
  | some (neg, int, frac, fracLen, exp, rest) => some (numberValue neg int frac fracLen exp, rest)

/-- The value of a hexadecimal digit. -/
def hexVal (c : Byte) : Option Nat :=
  if 48 ≤ c.val ∧ c.val ≤ 57 then some (c.val - 48)
  else if 97 ≤ c.val ∧ c.val ≤ 102 then some (c.val - 97 + 10)
  else if 65 ≤ c.val ∧ c.val ≤ 70 then some (c.val - 65 + 10)
  else none

/-- `getu4`: the code unit of an escape `\uXXXX` at the head of the input. -/
def getu4 : GoString → Option Nat
  | b :: u :: h0 :: h1 :: h2 :: h3 :: _ =>
    if b = 92 ∧ u = 117 then
      match hexVal h0, hexVal h1, hexVal h2, hexVal h3 with
      | some a, some b, some c, some d => some (a * 4096 + b * 256 + c * 16 + d)
      | _, _, _, _ => none
    else none
  | _ => none

/-- The bytes of `unicode.ReplacementChar`, U+FFFD. -/
def replacementChar : GoString := [0xEF, 0xBF, 0xBD]

/-- `utf8.AppendRune`: the UTF-8 encoding of a code point, the replacement
character for a surrogate or a value beyond U+10FFFF. -/
def appendRune (r : Nat) : GoString :=
  if r < 0x80 then [Fin.ofNat r]
  else if r < 0x800 then [Fin.ofNat (0xC0 + r / 64), Fin.ofNat (0x80 + r % 64)]
  else if (0xD800 ≤ r ∧ r < 0xE000) ∨ 0x10FFFF < r then replacementChar
  else if r < 0x10000 then
    [Fin.ofNat (0xE0 + r / 4096), Fin.ofNat (0x80 + r / 64 % 64), Fin.ofNat (0x80 + r % 64)]
  else
    [Fin.ofNat (0xF0 + r / 262144), Fin.ofNat (0x80 + r / 4096 % 64),
      Fin.ofNat (0x80 + r / 64 % 64), Fin.ofNat (0x80 + r % 64)]

/-- Whether a byte is a UTF-8 continuation byte. -/
def isCont (c : Byte) : Bool := decide (0x80 ≤ c.val ∧ c.val ≤ 0xBF)

/-- The size `utf8.DecodeRune` reports for a valid encoding at the head of the
input; `0` stands for the invalid case (`RuneError` with size 1). -/
def utf8Size : GoString → Nat
  | [] => 0
  | b0 :: rest =>
    if b0.val < 0x80 then 1
    else if 0xC2 ≤ b0.val ∧ b0.val ≤ 0xDF then
      match rest with
      | b1 :: _ => if isCont b1 then 2 else 0
      | _ => 0
    else if 0xE0 ≤ b0.val ∧ b0.val ≤ 0xEF then
      match rest with
      | b1 :: b2 :: _ =>
        if (if b0.val = 0xE0 then 0xA0 else 0x80) ≤ b1.val ∧
            b1.val ≤ (if b0.val = 0xED then 0x9F else 0xBF) ∧ isCont b2 then 3
        else 0
      | _ => 0
    else if 0xF0 ≤ b0.val ∧ b0.val ≤ 0xF4 then
      match rest with
      | b1 :: b2 :: b3 :: _ =>
        if (if b0.val = 0xF0 then 0x90 else 0x80) ≤ b1.val ∧
            b1.val ≤ (if b0.val = 0xF4 then 0x8F else 0xBF) ∧ isCont b2 ∧ isCont b3 then 4
        else 0
      | _ => 0
    else 0

/-- The one-letter escapes of a JSON string. -/
def simpleEscape (c : Byte) : Option Byte :=
  if c = 34 then some 34
  else if c = 92 then some 92
  else if c = 47 then some 47
  else if c = 98 then some 8
  else if c = 102 then some 12
  else if c = 110 then some 10
  else if c = 114 then some 13
  else if c = 116 then some 9
  else none

/-- A string literal after its opening quote: the decoded string (`acc` is what
has been decoded so far) and the input after the closing quote, as the scanner
and `unquote` produce them. An invalid UTF-8 byte and an unpaired surrogate
escape become U+FFFD; a control character, an unknown escape or a missing
closing quote is a syntax error (`none`). Every step consumes input, so
`fuel` beyond the length of the input is never used up. -/
def lexString : Nat → GoString → GoString → Option (GoString × GoString)
  | 0, _, _ => none
  | _ + 1, _, [] => none
  | fuel + 1, acc, c :: rest =>
    if c = 34 then some (acc, rest)
    else if c = 92 then
      match rest with
      | [] => none
      | e :: rest1 =>
        if e = 117 then
          match getu4 (c :: rest) with
          | none => none
          | some rr =>
            if 0xD800 ≤ rr ∧ rr < 0xE000 then
              match getu4 (rest1.drop 4) with
              | some rr1 =>
                if rr < 0xDC00 ∧ 0xDC00 ≤ rr1 ∧ rr1 < 0xE000 then
                  lexString fuel
                    (acc ++ appendRune ((rr - 0xD800) * 1024 + (rr1 - 0xDC00) + 0x10000))
                    (rest1.drop 10)
                else lexString fuel (acc ++ replacementChar) (rest1.drop 4)
              | none => lexString fuel (acc ++ replacementChar) (rest1.drop 4)
            else lexString fuel (acc ++ appendRune rr) (rest1.drop 4)
        else
          match simpleEscape e with
          | some b => lexString fuel (acc ++ [b]) rest1
          | none => none
    else if c.val < 0x20 then none
    else if c.val < 0x80 then lexString fuel (acc ++ [c]) rest
    else if utf8Size (c :: rest) = 0 then lexString fuel (acc ++ replacementChar) rest
    else
      lexString fuel (acc ++ (c :: rest).take (utf8Size (c :: rest)))
        ((c :: rest).drop (utf8Size (c :: rest)))

/-- The assignment `m[key] = value` on a map kept as a list: the value of an
existing key is replaced, a new key is added at the end. -/
def claimsSet : Claims → GoString → JSONValue → Claims
  | [], key, value => [(key, value)]
  | (k, v) :: rest, key, value =>
    if k = key then (k, value) :: rest else (k, v) :: claimsSet rest key value

/-- An array or an object whose closing bracket has not been read: the elements
so far, or the members so far and the key whose value is being read. -/
inductive Frame
  | arr (elems : List JSONValue)
  | obj (members : Claims) (key : GoString)

/-- Where the decoder stands between two tokens: before a value, or after the
value `v`. -/
inductive Mode
  | value
  | after (v : JSONValue)

/-- `maxNestingDepth` of the scanner. -/
def maxNestingDepth : Nat := 10000

/-- A member key and its colon: `"key" :`, white space allowed around both. The
result is the key and the input after the colon. -/
def lexKey (input : GoString) : Option (GoString × GoString) :=
  match skipSpace input with
  | c :: rest =>
    if c = 34 then
      match lexString (rest.length + 1) [] rest with
      | none => none
      | some (key, rest1) =>
        match skipSpace rest1 with
        | d :: rest2 => if d = 58 then some (key, rest2) else none
        | [] => none
    else none
  | [] => none

/-- The decoder of one JSON value, token by token. `stack` holds the arrays and
objects that are open, innermost first. The result is the value and the input
after it; `none` is any error: a syntax error, nesting beyond `maxNestingDepth`,
or a number that `float64` cannot hold. Every step consumes input, so `fuel`
beyond the length of the input is never used up. -/
def decodeValue : Nat → Mode → List Frame → GoString → Option (JSONValue × GoString)
  | 0, _, _, _ => none
  | fuel + 1, .value, stack, input =>
    match skipSpace input with
    | [] => none
    | c :: rest =>
      if c = 123 then
        if maxNestingDepth < stack.length + 1 then none
        else
          match skipSpace rest with
          | d :: rest1 =>
            if d = 125 then decodeValue fuel (.after (.object [])) stack rest1
            else
              match lexKey (d :: rest1) with
              | none => none
              | some (key, rest2) => decodeValue fuel .value (.obj [] key :: stack) rest2
          | [] => none
      else if c = 91 then
        if maxNestingDepth < stack.length + 1 then none
        else
          match skipSpace rest with
          | d :: rest1 =>
            if d = 93 then decodeValue fuel (.after (.array [])) stack rest1
            else decodeValue fuel .value (.arr [] :: stack) (d :: rest1)
          | [] => none
      else if c = 34 then
        match lexString (rest.length + 1) [] rest with
        | none => none
        | some (s, rest1) => decodeValue fuel (.after (.string s)) stack rest1
      else if c = 45 ∨ isDigit c then
        match lexNumber (c :: rest) with
        | none => none
        | some (q, rest1) =>
          match roundFloat64 q with
          | none => none
          | some f => decodeValue fuel (.after (.number f)) stack rest1
      else if (c :: rest).take 4 = bytes "true" then
        decodeValue fuel (.after (.bool true)) stack (rest.drop 3)
      else if (c :: rest).take 5 = bytes "false" then
        decodeValue fuel (.after (.bool false)) stack (rest.drop 4)
      else if (c :: rest).take 4 = bytes "null" then
        decodeValue fuel (.after .null) stack (rest.drop 3)
      else none
  | _ + 1, .after v, [], input => some (v, input)
  | fuel + 1, .after v, .arr elems :: stack, input =>
    match skipSpace input with
    | c :: rest =>
      if c = 44 then decodeValue fuel .value (.arr (elems ++ [v]) :: stack) rest
      else if c = 93 then decodeValue fuel (.after (.array (elems ++ [v]))) stack rest
      else none
    | [] => none
  | fuel + 1, .after v, .obj members key :: stack, input =>
    match skipSpace input with
    | c :: rest =>
      if c = 44 then
        match lexKey rest with
        | none => none
        | some (key1, rest1) =>
          decodeValue fuel .value (.obj (claimsSet members key v) key1 :: stack) rest1
      else if c = 125 then
        decodeValue fuel (.after (.object (claimsSet members key v))) stack rest
      else none
    | [] => none

/-- `json.Unmarshal(data, &claims)` for a nil `claims` of type
`map[string]interface{}`. The input must be one JSON value between optional
white space; an object becomes the map, `null` leaves the map nil (here: empty),
any other value is a type error. The texts of the errors are not modelled. -/
def jsonUnmarshal (data : GoString) : Except GoString Claims :=
  match decodeValue (data.length + 1) .value [] data with
  | none => .error (bytes "json: invalid input")
  | some (v, rest) =>
    if skipSpace rest ≠ [] then .error (bytes "json: invalid input")
    else
      match v with
      | .object members => .ok members
      | .null => .ok []
      | _ => .error (bytes "json: cannot unmarshal into map")

/-! ## A JSON encoder -/

/-- The character of a decimal digit. -/
def digitChar (d : Nat) : Byte := Fin.ofNat (48 + d)

/-- The decimal digits of `n` in front of `acc`, in at most `fuel` divisions. -/
def natDigitsAux : Nat → Nat → GoString → GoString
  | 0, _, acc => acc
  | fuel + 1, n, acc =>
    if n < 10 then digitChar n :: acc
    else natDigitsAux fuel (n / 10) (digitChar (n % 10) :: acc)

/-- The decimal digits of `n`, without leading zeros. -/
def natDigits (n : Nat) : GoString := natDigitsAux (n + 1) n []

/-- A number as a JSON number literal that denotes it exactly: an integer is
written in decimal digits; a fraction `a / 2 ^ k` (every `float64` is of this
form) is written as the integer `a * 5 ^ k` with the exponent `e-k`. -/
def encodeNumber (q : ℚ) : GoString :=
  (if q < 0 then [45] else []) ++
  natDigits (q.num.natAbs * 5 ^ (bitLength q.den q.den - 1)) ++
  (if bitLength q.den q.den - 1 = 0 then []
   else [101, 45] ++ natDigits (bitLength q.den q.den - 1))

/-- A hexadecimal digit, in lower case. -/
def hexDigit (n : Nat) : Byte := if n < 10 then Fin.ofNat (48 + n) else Fin.ofNat (87 + n)

/-- The body of a JSON string literal: `"` and `\` are escaped with a backslash,
a control character is written `\u00XX`, every other byte is written as it is. -/
def encodeStringBody : GoString → GoString
  | [] => []
  | c :: cs =>
    (if c = 34 then [92, 34]
     else if c = 92 then [92, 92]
     else if c.val < 0x20 then [92, 117, 48, 48, hexDigit (c.val / 16), hexDigit (c.val % 16)]
     else [c]) ++ encodeStringBody cs

/-- A JSON string literal. -/
def encodeString (s : GoString) : GoString := 34 :: (encodeStringBody s ++ [34])

mutual
/-- The compact JSON text of a value: no white space, the members of an object
in the order of the list. -/
def jsonEncode : JSONValue → GoString
  | .null => bytes "null"
  | .bool b => if b then bytes "true" else bytes "false"
  | .number q => encodeNumber q
  | .string s => encodeString s
  | .array xs => 91 :: encodeElems true xs
  | .object kvs => 123 :: encodeMembers true kvs
/-- The elements of an array, from some element on, and the closing bracket. -/
def encodeElems : Bool → List JSONValue → GoString
  | _, [] => [93]
  | first, x :: xs => (if first then [] else [44]) ++ (jsonEncode x ++ encodeElems false xs)
/-- The members of an object, from some member on, and the closing brace. -/
def encodeMembers : Bool → List (GoString × JSONValue) → GoString
  | _, [] => [125]
  | first, (k, v) :: kvs =>
    (if first then [] else [44]) ++
      (encodeString k ++ 58 :: (jsonEncode v ++ encodeMembers false kvs))
end

/-- What may follow a number literal: the end of the input, or a byte that is
no digit, `.`, `e` or `E`. -/
def NumberEnd (rest : GoString) : Prop :=
  ∀ c cs, rest = c :: cs → isDigit c = false ∧ c ≠ 46 ∧ c ≠ 101 ∧ c ≠ 69

/-- Valid UTF-8: the string is a sequence of encodings that `utf8.DecodeRune`
accepts. -/
inductive ValidUTF8 : GoString → Prop
  | nil : ValidUTF8 []
  | rune (s : GoString) (h : utf8Size s ≠ 0) (tail : ValidUTF8 (s.drop (utf8Size s))) :
      ValidUTF8 s

/-- A rational that is a `float64` value: a fraction of a power of two that the
rounding to `float64` leaves as it is. -/
def IsFloat64 (q : ℚ) : Prop :=
  q.den = 2 ^ (bitLength q.den q.den - 1) ∧ roundFloat64 q = some q

mutual
/-- A JSON value that `json.Unmarshal` can return: every number is a `float64`
value, every string and key is valid UTF-8, the keys of an object are
distinct. -/
def WellFormed : JSONValue → Prop
  | .null => True
  | .bool _ => True
  | .number q => IsFloat64 q
  | .string s => ValidUTF8 s
  | .array xs => WellFormedElems xs
  | .object kvs => WellFormedMembers kvs
/-- Every element is well formed. -/
def WellFormedElems : List JSONValue → Prop
  | [] => True
  | x :: xs => WellFormed x ∧ WellFormedElems xs
/-- Every member is well formed and no key occurs twice. -/
def WellFormedMembers : List (GoString × JSONValue) → Prop
  | [] => True
  | (k, v) :: kvs =>
    ValidUTF8 k ∧ k ∉ kvs.map Prod.fst ∧ WellFormed v ∧ WellFormedMembers kvs
end

mutual
/-- How deep the arrays and objects of a value nest. -/
def nesting : JSONValue → Nat
  | .array xs => nestingElems xs + 1
  | .object kvs => nestingMembers kvs + 1
  | _ => 0
/-- The deepest nesting among the elements. -/
def nestingElems : List JSONValue → Nat
  | [] => 0
  | x :: xs => max (nesting x) (nestingElems xs)
/-- The deepest nesting among the members. -/
def nestingMembers : List (GoString × JSONValue) → Nat
  | [] => 0
  | (_, v) :: kvs => max (nesting v) (nestingMembers kvs)
end

/-! ## Output and tokens -/

/-- The struct `TokenCache`. -/
structure TokenCache where
  IDToken : GoString
  RefreshToken : GoString
  deriving DecidableEq

/-- The errors of `readTokenFromCache`: `"failed to get home directory: %v"`,
`"failed to read cache directory: %v"` (each with the error it wraps) and
`"no valid token cache file found"`. -/
inductive CacheError
  | homeDir (err : GoString)
  | readCacheDir (err : GoString)
  | noValidFile
  deriving DecidableEq

/-- The fields of an `oauth2.Token` the program uses. `idTokenExtra` is the
outcome of `token.Extra("id_token").(string)`: the string when the assertion
holds. -/
structure Token where
  AccessToken : GoString
  TokenType : GoString
  RefreshToken : GoString
  Expiry : Time
  idTokenExtra : Option GoString

/-- The fields of the `oauth2.Config` that `main` builds. -/
structure Config where
  ClientID : GoString
  ClientSecret : GoString
  AuthURL : GoString
  TokenURL : GoString
  Scopes : List GoString

/-- An operand of a `Printf` call. -/
inductive Arg
  | str (s : GoString)
  | int (n : Int)
  | duration (d : Duration)
  | rfc3339 (t : Time)
  | value (v : JSONValue)
  | strs (l : List GoString)
  | cacheError (e : CacheError)
  | sprintf (format : String) (args : List Arg)

/-- What the program does to the outside world, in order: a `Printf` or a
`Println` call, a `time.Sleep`, a call of `config.TokenSource(ctx, token).Token()`. -/
inductive Event
  | printf (format : String) (args : List Arg)
  | println (text : String)
  | sleep (d : Duration)
  | refresh (config : Config) (token : Token)

/-- Whether an event is a call of the token endpoint. -/
def Event.isRefresh : Event → Bool
  | .refresh _ _ => true
  | _ => false

/-- Whether an event is the first line of `printTokenInfo`, `Printf("%s:\n", label)`. -/
def Event.isTokenInfoHeader : Event → Bool
  | .printf format _ => format = "%s:\n"
  | _ => false

/-- Whether an event is a `Printf` call with the given format string. -/
def Event.hasFormat (format : String) : Event → Bool
  | .printf f _ => f = format
  | _ => false

/-- The body of the two `for key, value := range claims` loops of
`printTokenInfo`, for one entry. -/
def claimLine (key : GoString) (value : JSONValue) : List Event :=
  if key ∈ [bytes "iss", bytes "sub", bytes "aud", bytes "email", bytes "name",
      bytes "preferred_username"] then
    [.printf "    %s: %v\n" [.str key, .value value]]
  else if key ∈ [bytes "exp", bytes "iat", bytes "nbf"] then
    match asFloat64 (some value) with
    | some timestamp =>
      [.printf "    %s: %v (%s)\n" [.str key, .int (float64ToInt64 timestamp),
        .rfc3339 (timeUnix (float64ToInt64 timestamp))]]
    | none => []
  else if key = bytes "groups" then
    [.printf "    %s: %v\n" [.str key, .value value]]
  else []

/-- A `for key, value := range claims` loop of `printTokenInfo`. -/
def claimLines (claims : Claims) : List Event :=
  claims.flatMap (fun kv => claimLine kv.1 kv.2)

/-- The block of `printTokenInfo` under `if isJWT(token.RefreshToken)`, when the
clock reads `now`. -/
def refreshTokenJWTLines (unmarshal : GoString → Except GoString Claims) (now : Time)
    (refreshToken : GoString) : List Event :=
  [.printf "    Format: JWT\n" []] ++
  match decodeJWT unmarshal refreshToken with
  | .ok claims =>
    (match asFloat64 (claimsGet claims (bytes "exp")) with
      | some exp =>
        let expiry := timeUnix (float64ToInt64 exp)
        [.printf "    Expires: %s\n" [.rfc3339 expiry]] ++
        (if timeAfter now expiry then [.printf "    Status: EXPIRED\n" []]
         else [.printf "    Valid for: %v\n" [.duration (durationRound (timeUntil now expiry) second)]])
      | none => []) ++
    (match asFloat64 (claimsGet claims (bytes "iat")) with
      | some iat =>
        let issued := timeUnix (float64ToInt64 iat)
        [.printf "    Issued: %s\n" [.rfc3339 issued],
         .printf "    Age: %v\n" [.duration (durationRound (timeSince now issued) second)]]
      | none => [])
  | .error _ => []

/-- `printTokenInfo(label, token)` when the clock reads `now` throughout the
call: the calls it makes, in order. The label is a string or the `Sprintf` call
that builds it. The two `truncateToken` calls pass the length 30 and so cannot
panic. -/
def printTokenInfo (unmarshal : GoString → Except GoString Claims) (now : Time)
    (label : Arg) (token : Token) : List Event :=
  [.printf "%s:\n" [label],
   .printf "  Token Type: %s\n" [.str token.TokenType],
   .printf "  Access Token (first 30 chars): %s...\n"
     [.str ((truncateToken token.AccessToken 30).getD [])],
   .printf "  Refresh Token (first 30 chars): %s...\n"
     [.str ((truncateToken token.RefreshToken 30).getD [])],
   .printf "  Expiry: %s\n" [.rfc3339 token.Expiry],
   .printf "  Time until expiry: %v\n" [.duration (durationRound (timeUntil now token.Expiry) second)],
   .printf "  Refresh Token Details:\n" [],
   .printf "    Length: %d characters\n" [.int token.RefreshToken.length]] ++
  (if isJWT token.RefreshToken then refreshTokenJWTLines unmarshal now token.RefreshToken
   else [.printf "    Format: Opaque (no expiry info available)\n" []]) ++
  (match decodeJWT unmarshal token.AccessToken with
    | .ok claims => .printf "  Access Token Claims:\n" [] :: claimLines claims
    | .error _ => []) ++
  (match token.idTokenExtra with
    | some idToken =>
      if idToken ≠ [] then
        match decodeJWT unmarshal idToken with
        | .ok claims => .printf "  ID Token Claims:\n" [] :: claimLines claims
        | .error _ => []
      else []
    | none => []) ++
  [.println ""]

/-! ## The token cache -/

/-- What the program reads from outside: `json.Unmarshal` into a
`map[string]interface{}` and into a fresh `TokenCache`, `os.UserHomeDir`,
`filepath.Join`, `os.ReadDir` (the entry names, in the order returned),
`os.ReadFile` and `os.Getenv`. -/
structure World where
  unmarshalClaims : GoString → Except GoString Claims
  unmarshalTokenCache : GoString → Except GoString TokenCache
  userHomeDir : Except GoString GoString
  filepathJoin : List GoString → GoString
  readDir : GoString → Except GoString (List GoString)
  readFile : GoString → Except GoString GoString
  getenv : GoString → GoString

/-- The path `filepath.Join(homeDir, ".kube", "cache", "oidc-login")`. -/
def cachePath (w : World) (homeDir : GoString) : GoString :=
  w.filepathJoin [homeDir, bytes ".kube", bytes "cache", bytes "oidc-login"]

/-- What one directory entry yields: the token pair when its bytes can be read
and parse, nothing when either step fails. -/
def loadEntry (w : World) (cacheDir file : GoString) : Option TokenCache :=
  match w.readFile (w.filepathJoin [cacheDir, file]) with
  | .error _ => none
  | .ok data =>
    match w.unmarshalTokenCache data with
    | .error _ => none
    | .ok tokenCache => some tokenCache

/-- The loop `for _, file := range files` of `readTokenFromCache`: what it
prints and what the function returns. -/
def scanCacheFiles (w : World) (cacheDir : GoString) :
    List GoString → List Event × Except CacheError TokenCache
  | [] => ([], .error .noValidFile)
  | file :: files =>
    match w.readFile (w.filepathJoin [cacheDir, file]) with
    | .error _ =>
      (.printf "Checking file: %s\n" [.str file] :: (scanCacheFiles w cacheDir files).1,
        (scanCacheFiles w cacheDir files).2)
    | .ok data =>
      match w.unmarshalTokenCache data with
      | .error _ =>
        (.printf "Checking file: %s\n" [.str file] :: (scanCacheFiles w cacheDir files).1,
          (scanCacheFiles w cacheDir files).2)
      | .ok tokenCache =>
        ([.printf "Checking file: %s\n" [.str file],
          .printf "Successfully loaded tokens from: %s\n" [.str file]], .ok tokenCache)

/-- `readTokenFromCache()`: what it prints and what it returns. -/
def readTokenFromCache (w : World) : List Event × Except CacheError TokenCache :=
  match w.userHomeDir with
  | .error err => ([.println "Looking for kubelogin token cache..."], .error (.homeDir err))
  | .ok homeDir =>
    let cacheDir := w.filepathJoin [homeDir, bytes ".kube", bytes "cache", bytes "oidc-login"]
    match w.readDir cacheDir with
    | .error err =>
      ([.println "Looking for kubelogin token cache...",
        .printf "Searching cache directory: %s\n" [.str cacheDir]], .error (.readCacheDir err))
    | .ok files =>
      ([.println "Looking for kubelogin token cache...",
        .printf "Searching cache directory: %s\n" [.str cacheDir]] ++
        (scanCacheFiles w cacheDir files).1, (scanCacheFiles w cacheDir files).2)

/-! ## `main` -/

/-- The three branches of the `if` / `else if` / `else` chain on `errorStr` in
the loop of `main`. -/
inductive Diagnosis
  | refreshTokenConsumed
  | invalidClient
  | general
  deriving DecidableEq

/-- The conditions of that chain: which branch a refresh error takes. -/
def errorBranch (errorStr : GoString) : Diagnosis :=
  if stringsContains errorStr (bytes "invalid_request") &&
      stringsContains errorStr (bytes "Refresh token") then .refreshTokenConsumed
  else if stringsContains errorStr (bytes "invalid_client") then .invalidClient
  else .general

/-- The bodies of that chain: what each branch prints. -/
def guidance : Diagnosis → List Event
  | .refreshTokenConsumed =>
    [.println "\nDiagnosis: Refresh token has been consumed or expired",
     .println "Common causes:",
     .println "1. Another client (like kubectl) already used this refresh token",
     .println "2. Refresh token has expired (check Dex configuration)",
     .println "3. Dex server was restarted, invalidating tokens",
     .println "\nSolutions:",
     .println "1. Re-authenticate with kubectl to get fresh tokens:",
     .println "   kubectl --user oidc get pods -A",
     .println "2. Clear token cache and re-authenticate:",
     .println "   rm -rf ~/.kube/cache/oidc-login && kubectl --user oidc get pods -A"]
  | .invalidClient =>
    [.println "\nDiagnosis: Client credentials are invalid",
     .println "Solutions:",
     .println "1. Check if using correct flow type (set DEX_FLOW=device-code if needed)",
     .println "2. Verify Dex client configuration matches test client settings"]
  | .general =>
    [.println "\nGeneral troubleshooting:",
     .println "1. Check Dex server logs: make logs",
     .println "2. Verify network connectivity to Dex",
     .println "3. Check if certificates are trusted"]

/-- The loop `for i := n; i > 0; i-- { Printf(...); time.Sleep(1 * time.Second) }`. -/
def countdown : Nat → List Event
  | 0 => []
  | i + 1 =>
    .printf "\rCountdown: %2d seconds remaining" [.int (i + 1)] :: .sleep (1 * second) ::
      countdown i

/-- The variables of the refresh loop. `cycle` is a Go `int`; it grows by one per
iteration of at least 38 seconds, and its overflow is not modelled. -/
structure LoopState where
  cycle : Int
  token : Token

/-- One answer of `config.TokenSource(ctx, token).Token()`: the new token or the
text of the error (`err.Error()`), the time the call took
(`time.Since(startTime)`), and the reading of the clock after it. -/
structure RefreshOutcome where
  result : Except GoString Token
  refreshDuration : Duration
  now : Time

/-- Where the loop stands: about to run a cycle, or left through `break`. -/
inductive LoopStatus
  | running (st : LoopState)
  | halted (st : LoopState)

/-- One iteration of the `for` loop of `main`, given the answer of the refresh
call: what it does and where it leaves the loop. -/
def refreshCycle (w : World) (config : Config) (st : LoopState) (o : RefreshOutcome) :
    List Event × LoopStatus :=
  let attempt : List Event :=
    [.printf "=== REFRESH CYCLE %d ===\n" [.int st.cycle],
     .printf "Waiting 35 seconds for token to expire...\n" []] ++
    countdown 35 ++
    [.printf "Attempting token refresh (cycle %d)...\n" [.int st.cycle],
     .refresh config st.token]
  match o.result with
  | .error errorStr =>
    (attempt ++
      [.printf "Refresh failed after %v: %v\n"
        [.duration (durationRound o.refreshDuration millisecond), .str errorStr]] ++
      guidance (errorBranch errorStr) ++
      [.printf "\nCompleted %d successful refresh cycles.\n" [.int (st.cycle - 1)]],
     .halted st)
  | .ok newToken =>
    (attempt ++
      [.printf "Refresh successful! (took %v)\n"
        [.duration (durationRound o.refreshDuration millisecond)]] ++
      printTokenInfo w.unmarshalClaims o.now
        (.sprintf "Refreshed Token Information (Cycle %d)" [.int st.cycle]) newToken ++
      [.println "Starting next refresh cycle in 3 seconds...", .sleep (3 * second)],
     .running
      { cycle := st.cycle + 1,
        token := { newToken with Expiry := timeAdd o.now (30 * second) } })

/-- The `for` loop of `main` run against the answers of the successive refresh
calls: it consumes one answer per iteration and stops at `break`; when the
answers run out the loop is still running. -/
def refreshLoop (w : World) (config : Config) :
    LoopState → List RefreshOutcome → List Event × LoopStatus
  | st, [] => ([], .running st)
  | st, o :: os =>
    match refreshCycle w config st o with
    | (events, .halted st1) => (events, .halted st1)
    | (events, .running st1) =>
      (events ++ (refreshLoop w config st1 os).1, (refreshLoop w config st1 os).2)

/-- The `oauth2.Config` of `main`, from the value of `DEX_FLOW`. -/
def mkConfig (dexFlow : GoString) : Config :=
  { ClientID := bytes "kubelogin-test",
    ClientSecret := if dexFlow = bytes "device-code" then [] else bytes "kubelogin-test-secret",
    AuthURL := bytes "https://dex.127.0.0.1.nip.io:32000/auth",
    TokenURL := bytes "https://dex.127.0.0.1.nip.io:32000/token",
    Scopes := [bytes "openid", bytes "profile", bytes "email"] }

/-- The start of `main`, up to the call of `readTokenFromCache`: the banner and
the configuration. -/
def configLines (dexFlow : GoString) : List Event :=
  let flowType := if dexFlow = bytes "device-code" then bytes "device-code" else bytes "password"
  let config := mkConfig dexFlow
  [.println "Starting OAuth2 Token Refresh Test",
   .println "===================================",
   .printf "OAuth2 Config:\n" [],
   .printf "  Flow Type: %s\n" [.str flowType],
   .printf "  TLS Verification: DISABLED (trusting self-signed certificates)\n" [],
   .printf "  Client ID: %s\n" [.str config.ClientID]] ++
  (if config.ClientSecret ≠ [] then [.printf "  Client Secret: %s\n" [.str config.ClientSecret]]
   else [.printf "  Client Type: Public (no secret)\n" []]) ++
  [.printf "  Auth URL: %s\n" [.str config.AuthURL],
   .printf "  Token URL: %s\n" [.str config.TokenURL],
   .printf "  Scopes: %v\n" [.strs config.Scopes],
   .println ""]

/-- The part of `main` between the validation of the cached tokens and the
loop: the warnings, the token lengths, the expiry of the ID token. -/
def validationLines (w : World) (now : Time) (tokenCache : TokenCache) : List Event :=
  (if ¬ stringsContains tokenCache.IDToken (bytes ".") then
    [.println "Warning: ID token doesn't appear to be a JWT"] else []) ++
  (if ¬ stringsContains tokenCache.RefreshToken (bytes ".") ∧ tokenCache.RefreshToken.length < 10
    then [.println "Warning: Refresh token appears to be very short"] else []) ++
  [.printf "Token validation:\n" [],
   .printf "  ID Token length: %d characters\n" [.int tokenCache.IDToken.length],
   .printf "  Refresh Token length: %d characters\n" [.int tokenCache.RefreshToken.length]] ++
  (match decodeJWT w.unmarshalClaims tokenCache.IDToken with
    | .ok claims =>
      (match asFloat64 (claimsGet claims (bytes "exp")) with
        | some exp =>
          let expiry := timeUnix (float64ToInt64 exp)
          [.printf "  ID Token expires: %s\n" [.rfc3339 expiry]] ++
          (if timeAfter now expiry then [.printf "  WARNING: ID token is already expired!\n" []]
           else [.printf "  ID Token valid for: %v\n"
              [.duration (durationRound (timeUntil now expiry) second)]])
        | none => [])
    | .error _ => []) ++
  [.println ""]

/-- How a run of `main` stands after the given answers of the refresh calls:
returned before the loop, inside the loop (the answers have run out), or
returned after the loop. -/
inductive RunStatus
  | returnedBeforeLoop
  | inLoop (st : LoopState)
  | returnedAfterLoop (st : LoopState)

/-- `main()`, when the clock reads `now` before the loop and the refresh calls
answer with `outcomes`: what the program does, in order, and how the run
stands. -/
def main (w : World) (now : Time) (outcomes : List RefreshOutcome) :
    List Event × RunStatus :=
  let dexFlow := w.getenv (bytes "DEX_FLOW")
  let config := mkConfig dexFlow
  match (readTokenFromCache w).2 with
  | .error err =>
    (configLines dexFlow ++ (readTokenFromCache w).1 ++
      [.printf "Failed to read token cache: %v\n" [.cacheError err],
       .println "\nTroubleshooting tips:",
       .println "1. Make sure you've authenticated with kubectl using kubelogin first:",
       .println "   kubectl --user oidc get pods -A",
       .println "2. Check if cache directory exists:",
       .println "   ls -la ~/.kube/cache/oidc-login/"],
     .returnedBeforeLoop)
  | .ok tokenCache =>
    if tokenCache.IDToken = [] then
      (configLines dexFlow ++ (readTokenFromCache w).1 ++
        [.println "Error: ID token is empty in cache"], .returnedBeforeLoop)
    else if tokenCache.RefreshToken = [] then
      (configLines dexFlow ++ (readTokenFromCache w).1 ++
        [.println "Error: Refresh token is empty in cache",
         .println "Note: Some OIDC configurations may not provide refresh tokens"],
       .returnedBeforeLoop)
    else
      let token : Token :=
        { AccessToken := tokenCache.IDToken,
          TokenType := [],
          RefreshToken := tokenCache.RefreshToken,
          Expiry := timeAdd now (30 * second),
          idTokenExtra := none }
      let before : List Event :=
        configLines dexFlow ++ (readTokenFromCache w).1 ++ validationLines w now tokenCache ++
        printTokenInfo w.unmarshalClaims now (.str (bytes "Initial Token Information")) token
      match refreshLoop w config { cycle := 1, token := token } outcomes with
      | (events, .running st) => (before ++ events, .inLoop st)
      | (events, .halted st) =>
        (before ++ events ++ [.println "Token refresh loop completed."], .returnedAfterLoop st)

/-! ## Sample inputs -/

/-- A world with no home directory, no files and no JSON that decodes. -/
def emptyWorld : World :=
  { unmarshalClaims := fun _ => .error [],
    unmarshalTokenCache := fun _ => .error [],
    userHomeDir := .error [],
    filepathJoin := fun parts => parts.flatten,
    readDir := fun _ => .error [],
    readFile := fun _ => .error [],
    getenv := fun _ => [] }

/-- A world whose cache directory lists three files, of which only the second,
`b`, holds a token pair: `a` cannot be read and `c` does not parse. -/
def cacheWorld : World :=
  { unmarshalClaims := fun _ => .error [],
    unmarshalTokenCache := fun data =>
      if data = bytes "pair" then .ok { IDToken := bytes "id-1", RefreshToken := bytes "rt-1" }
      else .error (bytes "invalid character"),
    userHomeDir := .ok (bytes "/home/u"),
    filepathJoin := fun parts => (bytes "/").intercalate parts,
    readDir := fun dir =>
      if dir = bytes "/home/u/.kube/cache/oidc-login" then .ok [bytes "a", bytes "b", bytes "c"]
      else .error (bytes "no such file or directory"),
    readFile := fun path =>
      if path = bytes "/home/u/.kube/cache/oidc-login/b" then .ok (bytes "pair")
      else if path = bytes "/home/u/.kube/cache/oidc-login/c" then .ok (bytes "junk")
      else .error (bytes "permission denied"),
    getenv := fun _ => [] }

/-- A token that is not a JWT. -/
def sampleToken : Token :=
  { AccessToken := bytes "at-1", TokenType := bytes "bearer", RefreshToken := bytes "rt-1",
    Expiry := 0, idTokenExtra := none }

/-- A refresh call that succeeds after 5 ms, with the clock at 40 s. -/
def sampleSuccess : RefreshOutcome :=
  { result := .ok sampleToken, refreshDuration := 5 * millisecond, now := 40 * second }

/-- The decoder `json.Unmarshal` on two payloads: the object with the one
member `exp`, 1000.5 or 2000. Every other input is taken to be rejected. -/
def sampleUnmarshal (data : GoString) : Except GoString Claims :=
  if data = bytes "\x7b\"exp\":1000.5\x7d" then .ok [(bytes "exp", .number (2001 / 2))]
  else if data = bytes "\x7b\"exp\":2000\x7d" then .ok [(bytes "exp", .number 2000)]
  else .error (bytes "invalid character")

/-- A token whose refresh token is a JWT with the payload `exp = 1000.5`; its
access token is not a JWT. -/
def fractionalToken : Token :=
  { AccessToken := bytes "at-1", TokenType := bytes "bearer",
    RefreshToken := bytes "h.eyJleHAiOjEwMDAuNX0.s", Expiry := 0, idTokenExtra := none }

/-- A token whose refresh token is a JWT with the payload `exp = 2000`. -/
def wholeToken : Token :=
  { AccessToken := bytes "at-1", TokenType := bytes "bearer",
    RefreshToken := bytes "h.eyJleHAiOjIwMDB9.s", Expiry := 0, idTokenExtra := none }

/-- The value that nests `n` arrays: `null` inside `n` pairs of brackets. -/
def deepValue : Nat → JSONValue
  | 0 => .null
  | n + 1 => .array [deepValue n]

/-! ## Theorems -/

theorem stringsSplit_ne_nil (sep : Byte) (s : GoString) : stringsSplit sep s ≠ [] := by
  induction s with
  | nil => simp [stringsSplit]
  | cons c cs ih =>
    unfold stringsSplit
    split
    · simp
    · split <;> simp

theorem stringsSplit_length (sep : Byte) (s : GoString) :
    (stringsSplit sep s).length = s.count sep + 1 := by
  induction s with
  | nil => simp [stringsSplit]
  | cons c cs ih =>
    unfold stringsSplit
    by_cases h : c = sep
    · subst h
      simp [ih]
    · have hne : (c == sep) = false := by simpa using h
      rw [if_neg h, List.count_cons, hne]
      cases hs : stringsSplit sep cs with
      | nil => exact absurd hs (stringsSplit_ne_nil sep cs)
      | cons p ps =>
        rw [hs] at ih
        simpa using ih

theorem stringsSplit_of_not_mem (sep : Byte) (s : GoString) (h : sep ∉ s) :
    stringsSplit sep s = [s] := by
  induction s with
  | nil => simp [stringsSplit]
  | cons c cs ih =>
    have hc : c ≠ sep := fun e => h (by simp [e])
    have hcs : sep ∉ cs := fun e => h (by simp [e])
    unfold stringsSplit
    rw [if_neg hc, ih hcs]

theorem stringsSplit_append_sep (sep : Byte) (h t : GoString) (hh : sep ∉ h) :
    stringsSplit sep (h ++ sep :: t) = h :: stringsSplit sep t := by
  induction h with
  | nil => simp [stringsSplit]
  | cons c cs ih =>
    have hc : c ≠ sep := fun e => hh (by simp [e])
    have hcs : sep ∉ cs := fun e => hh (by simp [e])
    rw [List.cons_append]
    conv_lhs => unfold stringsSplit
    rw [if_neg hc, ih hcs]

theorem stringsSplit_three (sep : Byte) (h p s : GoString) (hh : sep ∉ h) (hp : sep ∉ p)
    (hs : sep ∉ s) : stringsSplit sep (h ++ sep :: (p ++ sep :: s)) = [h, p, s] := by
  rw [stringsSplit_append_sep sep h _ hh, stringsSplit_append_sep sep p _ hp,
    stringsSplit_of_not_mem sep s hs]

/-- C1. `decodeJWT` returns the `invalid JWT format` error exactly for the strings
that do not split on `.` into three parts, that is, that do not hold exactly
two `.` bytes, whatever the segments hold and whatever the JSON decoder does. -/
theorem decodeJWT_invalidFormat_iff {γ : Type} (unmarshal : GoString → Except GoString γ)
    (token : GoString) :
    ((stringsSplit dot token).length = 3 ↔ token.count dot = 2) ∧
    (decodeJWT unmarshal token = .error .invalidFormat ↔ token.count dot ≠ 2) := by
  have hlen := stringsSplit_length dot token
  refine ⟨by omega, ?_⟩
  unfold decodeJWT
  rcases hsp : stringsSplit dot token with _ | ⟨a, _ | ⟨b, _ | ⟨c, _ | ⟨d, l⟩⟩⟩⟩
  · exact absurd hsp (stringsSplit_ne_nil dot token)
  · rw [hsp] at hlen; simp at hlen ⊢; omega
  · rw [hsp] at hlen; simp at hlen ⊢; omega
  · rw [hsp] at hlen
    have h2 : token.count dot = 2 := by simp at hlen; omega
    simp only [h2, ne_eq, not_true_eq_false, iff_false]
    cases decodeString (padPayload b) with
    | error off => simp
    | ok decoded =>
      cases hu : unmarshal decoded with
      | error msg => simp [hu]
      | ok claims => simp [hu]
  · rw [hsp] at hlen; simp at hlen ⊢; omega

theorem padPayload_length (p : GoString) : (padPayload p).length % 4 = 0 := by
  unfold padPayload stringsRepeat
  split
  · simp only [List.length_append, List.length_replicate]; omega
  · omega

theorem padPayload_of_aligned (p : GoString) (h : p.length % 4 = 0) : padPayload p = p := by
  unfold padPayload
  simp [h]

theorem padPayload_eq_append (p : GoString) (k : Nat) (hk : k < 4) (h : (p.length + k) % 4 = 0) :
    padPayload p = p ++ List.replicate k padChar := by
  unfold padPayload stringsRepeat
  split
  · have : 4 - p.length % 4 = k := by omega
    rw [this]
  · have : k = 0 := by omega
    simp [this]

theorem skipNewlines_pad_ne_nil (rest : GoString) (si : Nat) (h : padChar ∈ rest) :
    ∃ c r si1, skipNewlines rest si = (c :: r, si1) := by
  induction rest generalizing si with
  | nil => simp at h
  | cons c cs ih =>
    unfold skipNewlines
    split
    · rename_i hc
      have hne : c ≠ padChar := by
        rcases hc with hc | hc <;> rw [hc] <;> decide
      have hcs : padChar ∈ cs := by
        rcases List.mem_cons.mp h with h1 | h1
        · exact absurd h1.symm hne
        · exact h1
      exact ih (si + 1) hcs
    · exact ⟨c, cs, si, rfl⟩

theorem skipNewlines_suffix (rest : GoString) (si : Nat) :
    ∃ pre, rest = pre ++ (skipNewlines rest si).1 := by
  induction rest generalizing si with
  | nil => exact ⟨[], by simp [skipNewlines]⟩
  | cons c cs ih =>
    unfold skipNewlines
    split
    · obtain ⟨pre, hpre⟩ := ih (si + 1)
      exact ⟨c :: pre, by rw [List.cons_append, ← hpre]⟩
    · exact ⟨[], rfl⟩

theorem finishPadding_error (rest : GoString) (si : Nat) (dbuf : List Nat) (j : Nat)
    (dst : List Byte) (h : padChar ∈ rest) :
    ∃ off, finishPadding rest si dbuf j dst = .error off := by
  obtain ⟨c, r, si1, hs⟩ := skipNewlines_pad_ne_nil rest si h
  exact ⟨si1, by simp [finishPadding, hs]⟩

theorem skipNewlines_append_pad (xs : GoString) (si : Nat) :
    ∃ ys si1, skipNewlines (xs ++ [padChar, padChar, padChar]) si =
      (ys ++ [padChar, padChar, padChar], si1) := by
  induction xs generalizing si with
  | nil => exact ⟨[], si, by simp [skipNewlines, padChar, newline, carriageReturn]⟩
  | cons c cs ih =>
    rw [List.cons_append]
    unfold skipNewlines
    split
    · exact ih (si + 1)
    · exact ⟨c :: cs, si, rfl⟩

theorem decodeMap_padChar : decodeMap padChar = 255 := by decide

theorem padChar_not_newline : ¬ (padChar = newline ∨ padChar = carriageReturn) := by decide

/-- No input that ends in three padding characters decodes. -/
theorem decodeLoop_triple_pad (xs : GoString) (si j : Nat) (dbuf : List Nat) (dst : List Byte) :
    ∃ off, decodeLoop (xs ++ [padChar, padChar, padChar]) si j dbuf dst = .error off := by
  induction xs generalizing si j dbuf dst with
  | nil =>
    rw [List.nil_append]
    unfold decodeLoop
    rw [if_neg (by simp [decodeMap_padChar]), if_neg padChar_not_newline, if_neg (by simp)]
    by_cases h01 : j = 0 ∨ j = 1
    · rw [if_pos h01]; exact ⟨si, rfl⟩
    · rw [if_neg h01]
      by_cases h2 : j = 2
      · rw [if_pos h2]
        have hs : skipNewlines [padChar, padChar] (si + 1) = ([padChar, padChar], si + 1) := by
          simp [skipNewlines, padChar, newline, carriageReturn]
        rw [hs]
        simp only [ne_eq, not_true_eq_false, if_false]
        exact finishPadding_error _ _ _ _ _ (by simp)
      · rw [if_neg h2]
        exact finishPadding_error _ _ _ _ _ (by simp)
  | cons c cs ih =>
    rw [List.cons_append]
    unfold decodeLoop
    by_cases hv : decodeMap c ≠ 255
    · rw [if_pos hv]
      split
      · exact ih _ _ _ _
      · exact ih _ _ _ _
    · rw [if_neg hv]
      by_cases hn : c = newline ∨ c = carriageReturn
      · rw [if_pos hn]; exact ih _ _ _ _
      · rw [if_neg hn]
        by_cases hp : c ≠ padChar
        · rw [if_pos hp]; exact ⟨si, rfl⟩
        · rw [if_neg hp]
          by_cases h01 : j = 0 ∨ j = 1
          · rw [if_pos h01]; exact ⟨si, rfl⟩
          · rw [if_neg h01]
            by_cases h2 : j = 2
            · rw [if_pos h2]
              obtain ⟨ys, si1, hs⟩ := skipNewlines_append_pad cs (si + 1)
              rw [hs]
              cases ys with
              | nil =>
                simp only [List.nil_append, ne_eq, not_true_eq_false, if_false]
                exact finishPadding_error _ _ _ _ _ (by simp)
              | cons y ys =>
                simp only [List.cons_append]
                split
                · exact ⟨si1 - 1, rfl⟩
                · exact finishPadding_error _ _ _ _ _ (by simp)
            · rw [if_neg h2]
              exact finishPadding_error _ _ _ _ _ (by simp)

theorem decodeString_padPayload_mod4_one (p : GoString) (h : p.length % 4 = 1) :
    ∃ off, decodeString (padPayload p) = .error off := by
  have hp : padPayload p = p ++ [padChar, padChar, padChar] := by
    rw [padPayload_eq_append p 3 (by omega) (by omega)]
    rfl
  rw [hp]
  exact decodeLoop_triple_pad p 0 0 [] []

/-- C10. A token of three segments whose middle segment has a length congruent
to 1 modulo 4 is rejected by `decodeJWT` with the payload-decode error, whatever
the segments hold: the padding step appends three `=`, and no input that ends in
three `=` is accepted by the base64 decoder. -/
theorem decodeJWT_mod4_one_fails {γ : Type} (unmarshal : GoString → Except GoString γ)
    (token h p s : GoString) (hsplit : stringsSplit dot token = [h, p, s])
    (hlen : p.length % 4 = 1) :
    ∃ off, decodeJWT unmarshal token = .error (.decodePayload off) := by
  obtain ⟨off, hoff⟩ := decodeString_padPayload_mod4_one p hlen
  exact ⟨off, by simp [decodeJWT, hsplit, hoff]⟩

/-- C10, at the token `a.e30ab.c`, whose payload has five bytes. -/
theorem decodeJWT_mod4_one_fails_witness :
    stringsSplit dot (bytes "a.e30ab.c") = [bytes "a", bytes "e30ab", bytes "c"] ∧
    (bytes "e30ab").length % 4 = 1 ∧
    ∃ off, decodeJWT (fun b => (Except.ok b : Except GoString GoString)) (bytes "a.e30ab.c") =
      .error (.decodePayload off) :=
  ⟨by decide, by decide,
    decodeJWT_mod4_one_fails _ (bytes "a.e30ab.c") (bytes "a") (bytes "e30ab") (bytes "c")
      (by decide) (by decide)⟩

theorem dot_not_mem_replicate_pad (k : Nat) : dot ∉ List.replicate k padChar := by
  intro h
  have := List.eq_of_mem_replicate h
  exact absurd this (by decide)

/-- C3. Padding normalisation: with `k` the number of `=` that brings the payload
segment `p` to a length that is a multiple of 4, the token `h.p.s` and the token
whose payload is already padded, `h.p=…=.s`, give the same result of
`decodeJWT`, claims or error; and a payload whose length is a multiple of 4
already is passed to the decoder unchanged. -/
theorem decodeJWT_padding_normalization {γ : Type} (unmarshal : GoString → Except GoString γ)
    (h p s : GoString) (k : Nat) (hh : dot ∉ h) (hp : dot ∉ p) (hs : dot ∉ s)
    (hk : k < 4) (hmul : (p.length + k) % 4 = 0) :
    decodeJWT unmarshal (h ++ dot :: (p ++ dot :: s)) =
      decodeJWT unmarshal (h ++ dot :: ((p ++ List.replicate k padChar) ++ dot :: s)) ∧
    (k = 0 → padPayload p = p) := by
  have hp2 : dot ∉ p ++ List.replicate k padChar := by
    intro hmem
    rcases List.mem_append.mp hmem with h1 | h1
    · exact hp h1
    · exact dot_not_mem_replicate_pad k h1
  have hpad : padPayload (p ++ List.replicate k padChar) = padPayload p := by
    rw [padPayload_eq_append p k hk hmul]
    apply padPayload_of_aligned
    simpa using hmul
  refine ⟨?_, ?_⟩
  · unfold decodeJWT
    rw [stringsSplit_three dot h p s hh hp hs, stringsSplit_three dot h _ s hh hp2 hs]
    simp only [hpad]
  · intro hk0
    subst hk0
    exact padPayload_of_aligned p (by simpa using hmul)

/-- C3, at the token `a.e30.c`, whose payload needs one `=`. -/
theorem decodeJWT_padding_normalization_witness :
    decodeJWT (fun b => (Except.ok b : Except GoString GoString)) (bytes "a.e30.c") =
      decodeJWT (fun b => (Except.ok b : Except GoString GoString)) (bytes "a.e30=.c") :=
  (decodeJWT_padding_normalization _ (bytes "a") (bytes "e30") (bytes "c") 1
    (by decide) (by decide) (by decide) (by decide) (by decide)).1

/-- C9. For a length `n ≥ 0`, `truncateToken(token, n)` does not go out of range
and returns the first `min(len(token), n)` bytes of the token: a prefix of that
length, the token itself when `len(token) ≤ n`. -/
theorem truncateToken_spec (token : GoString) (n : Int) (hn : 0 ≤ n) :
    ∃ r, truncateToken token n = some r ∧ r = token.take n.toNat ∧ r <+: token ∧
      r.length = min token.length n.toNat ∧ ((token.length : Int) ≤ n → r = token) := by
  refine ⟨token.take n.toNat, ?_, rfl, List.take_prefix _ _, by simp [Nat.min_comm], ?_⟩
  · unfold truncateToken
    split
    · rename_i hle
      congr 1
      symm
      apply List.take_of_length_le
      omega
    · simp [hn]
  · intro hle
    apply List.take_of_length_le
    omega

/-- C9, at the preview length 30 used by `printTokenInfo`. -/
theorem truncateToken_spec_witness :
    ∃ r, truncateToken (bytes "abcdefghijklmnopqrstuvwxyz0123456789") 30 = some r ∧
      r = (bytes "abcdefghijklmnopqrstuvwxyz0123456789").take (30 : Int).toNat ∧
      r <+: bytes "abcdefghijklmnopqrstuvwxyz0123456789" ∧
      r.length = min (bytes "abcdefghijklmnopqrstuvwxyz0123456789").length (30 : Int).toNat ∧
      (((bytes "abcdefghijklmnopqrstuvwxyz0123456789").length : Int) ≤ 30 →
        r = bytes "abcdefghijklmnopqrstuvwxyz0123456789") :=
  truncateToken_spec (bytes "abcdefghijklmnopqrstuvwxyz0123456789") 30 (by decide)

theorem startsWith_iff (s p : GoString) : startsWith s p = true ↔ p <+: s := by
  induction s generalizing p with
  | nil =>
    cases p with
    | nil => simp [startsWith]
    | cons d ds => simp [startsWith]
  | cons c cs ih =>
    cases p with
    | nil => simp [startsWith]
    | cons d ds =>
      simp only [startsWith, Bool.and_eq_true, decide_eq_true_eq, ih, List.cons_prefix_cons]
      constructor
      · rintro ⟨h1, h2⟩; exact ⟨h1.symm, h2⟩
      · rintro ⟨h1, h2⟩; exact ⟨h1.symm, h2⟩

theorem indexFrom_nonneg_iff (substr s : GoString) (i : Nat) :
    0 ≤ indexFrom substr i s ↔ substr <:+: s := by
  induction s generalizing i with
  | nil =>
    unfold indexFrom
    by_cases h : startsWith [] substr = true
    · rw [if_pos h]
      have := (startsWith_iff [] substr).mp h
      simp only [Int.natCast_nonneg, true_iff]
      exact this.isInfix
    · rw [if_neg h]
      have hn : ¬ substr <+: [] := fun hp => h ((startsWith_iff [] substr).mpr hp)
      simp only [List.prefix_nil] at hn
      simp [hn]
  | cons c cs ih =>
    unfold indexFrom
    rw [List.infix_cons_iff]
    by_cases h : startsWith (c :: cs) substr = true
    · rw [if_pos h]
      simp only [Int.natCast_nonneg, true_iff]
      exact Or.inl ((startsWith_iff _ _).mp h)
    · rw [if_neg h, ih]
      have hn : ¬ substr <+: c :: cs := fun hp => h ((startsWith_iff _ _).mpr hp)
      simp [hn]

/-- `strings.Contains(s, substr)` holds exactly when `substr` occurs in `s` as a
contiguous block. -/
theorem stringsContains_iff (s substr : GoString) :
    stringsContains s substr = true ↔ substr <:+: s := by
  simp [stringsContains, stringsIndex, indexFrom_nonneg_iff]

theorem println_not_mem_countdown (n : Nat) (t : String) : Event.println t ∉ countdown n := by
  induction n with
  | zero => simp [countdown]
  | succ i ih => simp [countdown, ih]

theorem mem_guidance_println (b : Diagnosis) (e : Event) (h : e ∈ guidance b) :
    ∃ t, e = .println t := by
  cases b <;> simp only [guidance, List.mem_cons, List.mem_singleton, List.not_mem_nil,
    or_false] at h <;> repeat (first | exact ⟨_, h⟩ | rcases h with h | h)

/-- C4. Classification of a refresh error in the loop of `main`: the branch taken
is "refresh token consumed or expired" exactly when the message contains both
`invalid_request` and `Refresh token`; otherwise it is "invalid client" exactly
when the message contains `invalid_client`; otherwise it is the general one. The
three cases exclude one another and cover every message, so a message with
`invalid_request` and `Refresh token` never takes the invalid-client branch,
also when it contains `invalid_client`; and the failing cycle prints the
guidance of that branch. -/
theorem errorBranch_spec (errorStr : GoString) :
    (errorBranch errorStr = .refreshTokenConsumed ↔
      bytes "invalid_request" <:+: errorStr ∧ bytes "Refresh token" <:+: errorStr) ∧
    (errorBranch errorStr = .invalidClient ↔
      ¬ (bytes "invalid_request" <:+: errorStr ∧ bytes "Refresh token" <:+: errorStr) ∧
        bytes "invalid_client" <:+: errorStr) ∧
    (errorBranch errorStr = .general ↔
      ¬ (bytes "invalid_request" <:+: errorStr ∧ bytes "Refresh token" <:+: errorStr) ∧
        ¬ bytes "invalid_client" <:+: errorStr) ∧
    (∀ (w : World) (config : Config) (st : LoopState) (d : Duration) (now : Time),
      ∃ pre post, (refreshCycle w config st ⟨.error errorStr, d, now⟩).1 =
        pre ++ guidance (errorBranch errorStr) ++ post ∧
        (∀ e ∈ pre ++ post, ∀ b, e ∉ guidance b)) := by
  have h1 := stringsContains_iff errorStr (bytes "invalid_request")
  have h2 := stringsContains_iff errorStr (bytes "Refresh token")
  have h3 := stringsContains_iff errorStr (bytes "invalid_client")
  refine ⟨?_, ?_, ?_, ?_⟩
  · unfold errorBranch
    rw [← h1, ← h2]
    by_cases a : stringsContains errorStr (bytes "invalid_request") = true <;>
    by_cases b : stringsContains errorStr (bytes "Refresh token") = true <;>
    by_cases c : stringsContains errorStr (bytes "invalid_client") = true <;>
    simp [a, b, c]
  · unfold errorBranch
    rw [← h1, ← h2, ← h3]
    by_cases a : stringsContains errorStr (bytes "invalid_request") = true <;>
    by_cases b : stringsContains errorStr (bytes "Refresh token") = true <;>
    by_cases c : stringsContains errorStr (bytes "invalid_client") = true <;>
    simp [a, b, c]
  · unfold errorBranch
    rw [← h1, ← h2, ← h3]
    by_cases a : stringsContains errorStr (bytes "invalid_request") = true <;>
    by_cases b : stringsContains errorStr (bytes "Refresh token") = true <;>
    by_cases c : stringsContains errorStr (bytes "invalid_client") = true <;>
    simp [a, b, c]
  · intro w config st d now
    refine ⟨_, _, rfl, ?_⟩
    intro e he b hb
    obtain ⟨t, rfl⟩ := mem_guidance_println b e hb
    simp [println_not_mem_countdown] at he

theorem countdown_noRefresh (n : Nat) : ∀ e ∈ countdown n, e.isRefresh = false := by
  induction n with
  | zero => simp [countdown]
  | succ i ih =>
    intro e he
    simp only [countdown, List.mem_cons] at he
    rcases he with rfl | rfl | he
    · rfl
    · rfl
    · exact ih e he

theorem claimLine_noRefresh (key : GoString) (value : JSONValue) :
    ∀ e ∈ claimLine key value, e.isRefresh = false := by
  intro e he
  unfold claimLine at he
  split at he
  · simp at he; subst he; rfl
  · split at he
    · split at he
      · simp at he; subst he; rfl
      · simp at he
    · split at he
      · simp at he; subst he; rfl
      · simp at he

theorem claimLines_noRefresh (claims : Claims) : ∀ e ∈ claimLines claims, e.isRefresh = false := by
  intro e he
  simp only [claimLines, List.mem_flatMap] at he
  obtain ⟨kv, _, hkv⟩ := he
  exact claimLine_noRefresh kv.1 kv.2 e hkv

theorem refreshTokenJWTLines_noRefresh (unmarshal : GoString → Except GoString Claims)
    (now : Time) (rt : GoString) :
    ∀ e ∈ refreshTokenJWTLines unmarshal now rt, e.isRefresh = false := by
  intro e he
  unfold refreshTokenJWTLines at he
  simp only [List.mem_append, List.mem_singleton] at he
  rcases he with rfl | he
  · rfl
  · split at he
    · simp only [List.mem_append] at he
      rcases he with he | he
      · split at he
        · simp only [List.mem_append, List.mem_singleton] at he
          rcases he with rfl | he
          · rfl
          · split at he <;> simp at he <;> subst he <;> rfl
        · simp at he
      · split at he
        · simp at he
          rcases he with rfl | rfl <;> rfl
        · simp at he
    · simp at he

theorem printTokenInfo_noRefresh (unmarshal : GoString → Except GoString Claims) (now : Time)
    (label : Arg) (token : Token) :
    ∀ e ∈ printTokenInfo unmarshal now label token, e.isRefresh = false := by
  intro e he
  unfold printTokenInfo at he
  simp only [List.mem_append, List.mem_cons, List.mem_singleton, List.not_mem_nil,
    or_false] at he
  rcases he with (((he | he) | he) | he) | he
  · rcases he with rfl | rfl | rfl | rfl | rfl | rfl | rfl | rfl <;> rfl
  · split at he
    · exact refreshTokenJWTLines_noRefresh _ _ _ e he
    · simp at he; subst he; rfl
  · split at he
    · simp only [List.mem_cons] at he
      rcases he with rfl | he
      · rfl
      · exact claimLines_noRefresh _ e he
    · simp at he
  · split at he
    · split at he
      · split at he
        · simp only [List.mem_cons] at he
          rcases he with rfl | he
          · rfl
          · exact claimLines_noRefresh _ e he
        · simp at he
      · simp at he
    · simp at he
  · subst he; rfl

theorem countP_noRefresh (l : List Event) (h : ∀ e ∈ l, e.isRefresh = false) :
    l.countP Event.isRefresh = 0 := by
  rw [List.countP_eq_zero]
  intro e he
  simp [h e he]

theorem guidance_noRefresh (b : Diagnosis) : ∀ e ∈ guidance b, e.isRefresh = false := by
  intro e he
  obtain ⟨t, rfl⟩ := mem_guidance_println b e he
  rfl

theorem refreshCycle_ok (w : World) (config : Config) (st : LoopState) (o : RefreshOutcome)
    (t : Token) (h : o.result = .ok t) :
    ∃ ev, refreshCycle w config st o =
        (ev, .running { cycle := st.cycle + 1,
                        token := { t with Expiry := timeAdd o.now (30 * second) } }) ∧
      ev.countP Event.isRefresh = 1 := by
  unfold refreshCycle
  rw [h]
  refine ⟨_, rfl, ?_⟩
  simp only [List.countP_append, List.countP_cons, List.countP_nil,
    countP_noRefresh _ (countdown_noRefresh 35),
    countP_noRefresh _ (printTokenInfo_noRefresh _ _ _ _), Event.isRefresh]
  simp

theorem refreshCycle_error (w : World) (config : Config) (st : LoopState) (msg : GoString)
    (d : Duration) (now : Time) :
    ∃ pre, refreshCycle w config st ⟨.error msg, d, now⟩ =
        (pre ++ [.printf "\nCompleted %d successful refresh cycles.\n" [.int (st.cycle - 1)]],
          .halted st) ∧
      pre.countP Event.isRefresh = 1 := by
  unfold refreshCycle
  refine ⟨_, rfl, ?_⟩
  simp only [List.countP_append, List.countP_cons, List.countP_nil,
    countP_noRefresh _ (countdown_noRefresh 35),
    countP_noRefresh _ (guidance_noRefresh _), Event.isRefresh]
  simp

/-- After a run of successful refreshes the loop is at the start of a new cycle:
the counter has grown by their number, one call of the endpoint was made for
each, and the loop goes on with what follows. -/
theorem refreshLoop_successes (w : World) (config : Config) (succs tail : List RefreshOutcome)
    (hs : ∀ o ∈ succs, ∃ t, o.result = .ok t) (st : LoopState) :
    ∃ ev st1, st1.cycle = st.cycle + succs.length ∧ ev.countP Event.isRefresh = succs.length ∧
      refreshLoop w config st (succs ++ tail) =
        (ev ++ (refreshLoop w config st1 tail).1, (refreshLoop w config st1 tail).2) := by
  induction succs generalizing st with
  | nil => exact ⟨[], st, by simp, by simp, by simp⟩
  | cons o os ih =>
    obtain ⟨t, ht⟩ := hs o (by simp)
    obtain ⟨ev0, hev0, hc0⟩ := refreshCycle_ok w config st o t ht
    obtain ⟨ev, st1, hcy, hcnt, hrun⟩ := ih (fun o1 ho1 => hs o1 (by simp [ho1]))
      { cycle := st.cycle + 1, token := { t with Expiry := timeAdd o.now (30 * second) } }
    refine ⟨ev0 ++ ev, st1, ?_, ?_, ?_⟩
    · rw [hcy]; simp; omega
    · rw [List.countP_append, hc0, hcnt]; simp; omega
    · rw [List.cons_append]
      conv_lhs => unfold refreshLoop
      rw [hev0]
      simp only [hrun, List.append_assoc]

/-- C6. The refresh loop of `main`, started with `cycle := 1`, over the answers of
the successive refresh calls. While every answer so far is a success the loop
is still running, and at the start of the next cycle the counter is the number
of successes plus one (so no number of successes ends the loop). At the first
failure, after `n` successes, the loop halts whatever answers would follow: the
last thing it prints is the count `n` of successful cycles, and `n + 1` calls of
the endpoint were made in all. -/
theorem refreshLoop_halts_at_first_failure (w : World) (config : Config) (token : Token)
    (succs : List RefreshOutcome) (hs : ∀ o ∈ succs, ∃ t, o.result = .ok t) :
    (∃ st, (refreshLoop w config { cycle := 1, token := token } succs).2 = .running st ∧
      st.cycle = succs.length + 1 ∧
      (refreshLoop w config { cycle := 1, token := token } succs).1.countP Event.isRefresh =
        succs.length) ∧
    (∀ (msg : GoString) (d : Duration) (now : Time) (rest : List RefreshOutcome),
      ∃ pre st,
        refreshLoop w config { cycle := 1, token := token }
            (succs ++ ⟨.error msg, d, now⟩ :: rest) =
          (pre ++ [.printf "\nCompleted %d successful refresh cycles.\n" [.int succs.length]],
            .halted st) ∧
        st.cycle = succs.length + 1 ∧
        pre.countP Event.isRefresh = succs.length + 1) := by
  constructor
  · obtain ⟨ev, st1, hcy, hcnt, hrun⟩ :=
      refreshLoop_successes w config succs [] hs { cycle := 1, token := token }
    rw [List.append_nil] at hrun
    refine ⟨st1, ?_, ?_, ?_⟩
    · rw [hrun]; simp [refreshLoop]
    · rw [hcy]; simp; omega
    · rw [hrun]; simp [refreshLoop, hcnt]
  · intro msg d now rest
    obtain ⟨ev, st1, hcy, hcnt, hrun⟩ :=
      refreshLoop_successes w config succs (⟨.error msg, d, now⟩ :: rest) hs
        { cycle := 1, token := token }
    obtain ⟨pre, hpre, hc⟩ := refreshCycle_error w config st1 msg d now
    have hfail : refreshLoop w config st1 (⟨.error msg, d, now⟩ :: rest) =
        (pre ++ [.printf "\nCompleted %d successful refresh cycles.\n" [.int (st1.cycle - 1)]],
          .halted st1) := by
      conv_lhs => unfold refreshLoop
      rw [hpre]
    have hn : st1.cycle - 1 = succs.length := by rw [hcy]; simp
    refine ⟨ev ++ pre, st1, ?_, ?_, ?_⟩
    · rw [hrun, hfail, hn]; simp
    · rw [hcy]; simp; omega
    · rw [List.countP_append, hcnt, hc]

/-- C6, for one successful refresh. -/
theorem refreshLoop_halts_at_first_failure_witness :
    (∀ o ∈ [sampleSuccess], ∃ t, o.result = .ok t) ∧
    ∃ st, (refreshLoop emptyWorld (mkConfig []) { cycle := 1, token := sampleToken }
        [sampleSuccess]).2 = .running st ∧
      st.cycle = ([sampleSuccess].length : Int) + 1 ∧
      (refreshLoop emptyWorld (mkConfig []) { cycle := 1, token := sampleToken }
        [sampleSuccess]).1.countP Event.isRefresh = [sampleSuccess].length :=
  ⟨fun o ho => ⟨sampleToken, by rw [List.mem_singleton.mp ho]; rfl⟩,
    (refreshLoop_halts_at_first_failure emptyWorld (mkConfig []) sampleToken [sampleSuccess]
      (fun o ho => ⟨sampleToken, by rw [List.mem_singleton.mp ho]; rfl⟩)).1⟩

theorem configLines_quiet (dexFlow : GoString) :
    ∀ e ∈ configLines dexFlow, e.isRefresh = false ∧ e.isTokenInfoHeader = false := by
  intro e he
  unfold configLines at he
  simp only [List.mem_append, List.mem_cons, List.mem_singleton, List.not_mem_nil,
    or_false] at he
  rcases he with (he | he) | he
  · rcases he with rfl | rfl | rfl | rfl | rfl | rfl <;> exact ⟨rfl, by simp [Event.isTokenInfoHeader]⟩
  · split at he <;> simp at he <;> subst he <;> exact ⟨rfl, by simp [Event.isTokenInfoHeader]⟩
  · rcases he with rfl | rfl | rfl | rfl <;> exact ⟨rfl, by simp [Event.isTokenInfoHeader]⟩

theorem scanCacheFiles_quiet (w : World) (cacheDir : GoString) (files : List GoString) :
    ∀ e ∈ (scanCacheFiles w cacheDir files).1,
      e.isRefresh = false ∧ e.isTokenInfoHeader = false := by
  induction files with
  | nil => simp [scanCacheFiles]
  | cons file files ih =>
    intro e he
    unfold scanCacheFiles at he
    split at he
    · simp only [List.mem_cons] at he
      rcases he with rfl | he
      · exact ⟨rfl, by simp [Event.isTokenInfoHeader]⟩
      · exact ih e he
    · split at he
      · simp only [List.mem_cons] at he
        rcases he with rfl | he
        · exact ⟨rfl, by simp [Event.isTokenInfoHeader]⟩
        · exact ih e he
      · simp only [List.mem_cons, List.mem_singleton, List.not_mem_nil, or_false] at he
        rcases he with rfl | rfl <;> exact ⟨rfl, by simp [Event.isTokenInfoHeader]⟩

theorem readTokenFromCache_quiet (w : World) :
    ∀ e ∈ (readTokenFromCache w).1, e.isRefresh = false ∧ e.isTokenInfoHeader = false := by
  intro e he
  unfold readTokenFromCache at he
  split at he
  · simp at he; subst he; exact ⟨rfl, by simp [Event.isTokenInfoHeader]⟩
  · dsimp only at he
    split at he
    · simp only [List.mem_cons, List.mem_singleton, List.not_mem_nil, or_false] at he
      rcases he with rfl | rfl <;> exact ⟨rfl, by simp [Event.isTokenInfoHeader]⟩
    · simp only [List.mem_append, List.mem_cons, List.mem_singleton, List.not_mem_nil,
        or_false] at he
      rcases he with (rfl | rfl) | he
      · exact ⟨rfl, by simp [Event.isTokenInfoHeader]⟩
      · exact ⟨rfl, by simp [Event.isTokenInfoHeader]⟩
      · exact scanCacheFiles_quiet _ _ _ e he

theorem refreshCycle_mem_refresh (w : World) (config : Config) (st : LoopState)
    (o : RefreshOutcome) : .refresh config st.token ∈ (refreshCycle w config st o).1 := by
  unfold refreshCycle
  split <;> simp

theorem refreshLoop_mem_refresh (w : World) (config : Config) (st : LoopState)
    (o : RefreshOutcome) (os : List RefreshOutcome) :
    .refresh config st.token ∈ (refreshLoop w config st (o :: os)).1 := by
  have h := refreshCycle_mem_refresh w config st o
  unfold refreshLoop
  split
  · rename_i heq; rw [heq] at h; exact h
  · rename_i heq; rw [heq] at h; exact List.mem_append_left _ h

theorem main_cache_error (w : World) (now : Time) (outcomes : List RefreshOutcome)
    (err : CacheError) (hc : (readTokenFromCache w).2 = .error err) :
    main w now outcomes =
      (configLines (w.getenv (bytes "DEX_FLOW")) ++ (readTokenFromCache w).1 ++
        [.printf "Failed to read token cache: %v\n" [.cacheError err],
         .println "\nTroubleshooting tips:",
         .println "1. Make sure you've authenticated with kubectl using kubelogin first:",
         .println "   kubectl --user oidc get pods -A",
         .println "2. Check if cache directory exists:",
         .println "   ls -la ~/.kube/cache/oidc-login/"],
       .returnedBeforeLoop) := by
  simp only [main, hc]

theorem main_id_token_empty (w : World) (now : Time) (outcomes : List RefreshOutcome)
    (tc : TokenCache) (hc : (readTokenFromCache w).2 = .ok tc) (h1 : tc.IDToken = []) :
    main w now outcomes =
      (configLines (w.getenv (bytes "DEX_FLOW")) ++ (readTokenFromCache w).1 ++
        [.println "Error: ID token is empty in cache"], .returnedBeforeLoop) := by
  simp only [main, hc, h1, if_true]

theorem main_refresh_token_empty (w : World) (now : Time) (outcomes : List RefreshOutcome)
    (tc : TokenCache) (hc : (readTokenFromCache w).2 = .ok tc) (h1 : tc.IDToken ≠ [])
    (h2 : tc.RefreshToken = []) :
    main w now outcomes =
      (configLines (w.getenv (bytes "DEX_FLOW")) ++ (readTokenFromCache w).1 ++
        [.println "Error: Refresh token is empty in cache",
         .println "Note: Some OIDC configurations may not provide refresh tokens"],
       .returnedBeforeLoop) := by
  simp only [main, hc, h1, h2, if_true, if_false]

/-- With a valid cache `main` prints the initial token and enters the loop with
`cycle = 1` and the token built from the cached pair. -/
theorem main_enters_loop (w : World) (now : Time) (outcomes : List RefreshOutcome)
    (tc : TokenCache) (hc : (readTokenFromCache w).2 = .ok tc) (h1 : tc.IDToken ≠ [])
    (h2 : tc.RefreshToken ≠ []) :
    ∃ before after,
      (main w now outcomes).1 = before ++
        (refreshLoop w (mkConfig (w.getenv (bytes "DEX_FLOW")))
          { cycle := 1,
            token := { AccessToken := tc.IDToken, TokenType := [],
                       RefreshToken := tc.RefreshToken, Expiry := timeAdd now (30 * second),
                       idTokenExtra := none } } outcomes).1 ++ after ∧
      .printf "%s:\n" [.str (bytes "Initial Token Information")] ∈ before ∧
      (main w now outcomes).2 ≠ .returnedBeforeLoop := by
  simp only [main, hc, h1, h2, if_false]
  split
  · rename_i events st heq
    refine ⟨configLines (w.getenv (bytes "DEX_FLOW")) ++ (readTokenFromCache w).1 ++
      validationLines w now tc ++
      printTokenInfo w.unmarshalClaims now (.str (bytes "Initial Token Information"))
        { AccessToken := tc.IDToken, TokenType := [], RefreshToken := tc.RefreshToken,
          Expiry := timeAdd now (30 * second), idTokenExtra := none }, [], ?_, ?_, by simp⟩
    · rw [heq, List.append_nil]
    · simp [printTokenInfo]
  · rename_i events st heq
    refine ⟨configLines (w.getenv (bytes "DEX_FLOW")) ++ (readTokenFromCache w).1 ++
      validationLines w now tc ++
      printTokenInfo w.unmarshalClaims now (.str (bytes "Initial Token Information"))
        { AccessToken := tc.IDToken, TokenType := [], RefreshToken := tc.RefreshToken,
          Expiry := timeAdd now (30 * second), idTokenExtra := none },
      [.println "Token refresh loop completed."], ?_, ?_, by simp⟩
    · rw [heq]
    · simp [printTokenInfo]

/-- C7. Validation in `main`. The run returns before the loop exactly when the
cache load fails or one of the two cached tokens is the empty string. In that
case no call of the token endpoint is made, whatever the endpoint would have
answered, no token information is printed (no initial token is built), and the
explanation of the failure is printed. Otherwise, with both tokens non-empty,
the initial token information is printed and the loop is entered (warnings do not
stop the run): the first cycle calls the endpoint with the token built from the
cached pair. -/
theorem main_validation (w : World) (now : Time) (outcomes : List RefreshOutcome) :
    ((main w now outcomes).2 = .returnedBeforeLoop ↔
      ((∃ err, (readTokenFromCache w).2 = .error err) ∨
        ∃ tc, (readTokenFromCache w).2 = .ok tc ∧ (tc.IDToken = [] ∨ tc.RefreshToken = []))) ∧
    ((main w now outcomes).2 = .returnedBeforeLoop →
      ∀ e ∈ (main w now outcomes).1, e.isRefresh = false ∧ e.isTokenInfoHeader = false) ∧
    (∀ err, (readTokenFromCache w).2 = .error err →
      .printf "Failed to read token cache: %v\n" [.cacheError err] ∈ (main w now outcomes).1) ∧
    (∀ tc, (readTokenFromCache w).2 = .ok tc → tc.IDToken = [] →
      .println "Error: ID token is empty in cache" ∈ (main w now outcomes).1) ∧
    (∀ tc, (readTokenFromCache w).2 = .ok tc → tc.IDToken ≠ [] → tc.RefreshToken = [] →
      .println "Error: Refresh token is empty in cache" ∈ (main w now outcomes).1) ∧
    (∀ tc, (readTokenFromCache w).2 = .ok tc → tc.IDToken ≠ [] → tc.RefreshToken ≠ [] →
      .printf "%s:\n" [.str (bytes "Initial Token Information")] ∈ (main w now outcomes).1 ∧
      ∀ o os, outcomes = o :: os →
        .refresh (mkConfig (w.getenv (bytes "DEX_FLOW")))
          { AccessToken := tc.IDToken, TokenType := [], RefreshToken := tc.RefreshToken,
            Expiry := timeAdd now (30 * second), idTokenExtra := none } ∈
          (main w now outcomes).1) := by
  have hquiet : ∀ expl : List Event,
      (∀ e ∈ expl, e.isRefresh = false ∧ e.isTokenInfoHeader = false) →
      ∀ e ∈ configLines (w.getenv (bytes "DEX_FLOW")) ++ (readTokenFromCache w).1 ++ expl,
        e.isRefresh = false ∧ e.isTokenInfoHeader = false := by
    intro expl hexpl e he
    simp only [List.mem_append] at he
    rcases he with (he | he) | he
    · exact configLines_quiet _ e he
    · exact readTokenFromCache_quiet w e he
    · exact hexpl e he
  refine ⟨?_, ?_, ?_, ?_, ?_, ?_⟩
  · cases hc : (readTokenFromCache w).2 with
    | error err =>
      rw [main_cache_error w now outcomes err hc]
      simp
    | ok tc =>
      by_cases h1 : tc.IDToken = []
      · rw [main_id_token_empty w now outcomes tc hc h1]
        simp [h1]
      · by_cases h2 : tc.RefreshToken = []
        · rw [main_refresh_token_empty w now outcomes tc hc h1 h2]
          simp [h2]
        · obtain ⟨_, _, _, _, hne⟩ := main_enters_loop w now outcomes tc hc h1 h2
          simp [hne, h1, h2]
  · intro hret
    cases hc : (readTokenFromCache w).2 with
    | error err =>
      rw [main_cache_error w now outcomes err hc]
      apply hquiet
      intro e he
      simp only [List.mem_cons, List.mem_singleton, List.not_mem_nil, or_false] at he
      rcases he with rfl | rfl | rfl | rfl | rfl | rfl <;>
        exact ⟨rfl, by simp [Event.isTokenInfoHeader]⟩
    | ok tc =>
      by_cases h1 : tc.IDToken = []
      · rw [main_id_token_empty w now outcomes tc hc h1]
        apply hquiet
        intro e he
        simp only [List.mem_singleton] at he
        subst he
        exact ⟨rfl, by simp [Event.isTokenInfoHeader]⟩
      · by_cases h2 : tc.RefreshToken = []
        · rw [main_refresh_token_empty w now outcomes tc hc h1 h2]
          apply hquiet
          intro e he
          simp only [List.mem_cons, List.mem_singleton, List.not_mem_nil, or_false] at he
          rcases he with rfl | rfl <;> exact ⟨rfl, by simp [Event.isTokenInfoHeader]⟩
        · obtain ⟨_, _, _, _, hne⟩ := main_enters_loop w now outcomes tc hc h1 h2
          exact absurd hret hne
  · intro err hc
    rw [main_cache_error w now outcomes err hc]
    simp
  · intro tc hc h1
    rw [main_id_token_empty w now outcomes tc hc h1]
    simp
  · intro tc hc h1 h2
    rw [main_refresh_token_empty w now outcomes tc hc h1 h2]
    simp
  · intro tc hc h1 h2
    obtain ⟨before, after, hev, hhead, _⟩ := main_enters_loop w now outcomes tc hc h1 h2
    rw [hev]
    refine ⟨by simp [hhead], ?_⟩
    intro o os hos
    rw [hos]
    have := refreshLoop_mem_refresh w (mkConfig (w.getenv (bytes "DEX_FLOW")))
      { cycle := 1,
        token := { AccessToken := tc.IDToken, TokenType := [], RefreshToken := tc.RefreshToken,
                   Expiry := timeAdd now (30 * second), idTokenExtra := none } } o os
    simp [this]

theorem scanCacheFiles_skip (w : World) (cacheDir file : GoString) (files : List GoString)
    (h : loadEntry w cacheDir file = none) :
    scanCacheFiles w cacheDir (file :: files) =
      (.printf "Checking file: %s\n" [.str file] :: (scanCacheFiles w cacheDir files).1,
        (scanCacheFiles w cacheDir files).2) := by
  unfold loadEntry at h
  conv_lhs => unfold scanCacheFiles
  cases hr : w.readFile (w.filepathJoin [cacheDir, file]) with
  | error e => rfl
  | ok data =>
    rw [hr] at h
    cases hu : w.unmarshalTokenCache data with
    | error e => simp only [hu]
    | ok tc => simp [hu] at h

theorem scanCacheFiles_load (w : World) (cacheDir file : GoString) (files : List GoString)
    (tc : TokenCache) (h : loadEntry w cacheDir file = some tc) :
    scanCacheFiles w cacheDir (file :: files) =
      ([.printf "Checking file: %s\n" [.str file],
        .printf "Successfully loaded tokens from: %s\n" [.str file]], .ok tc) := by
  unfold loadEntry at h
  conv_lhs => unfold scanCacheFiles
  cases hr : w.readFile (w.filepathJoin [cacheDir, file]) with
  | error e => rw [hr] at h; simp at h
  | ok data =>
    rw [hr] at h
    cases hu : w.unmarshalTokenCache data with
    | error e => simp [hu] at h
    | ok tc1 =>
      simp only [hu, Option.some.injEq] at h
      simp only [hu, h]

theorem scanCacheFiles_none (w : World) (cacheDir : GoString) (files : List GoString)
    (h : ∀ f ∈ files, loadEntry w cacheDir f = none) :
    scanCacheFiles w cacheDir files =
      (files.map (fun f => .printf "Checking file: %s\n" [.str f]), .error .noValidFile) := by
  induction files with
  | nil => rfl
  | cons f fs ih =>
    rw [scanCacheFiles_skip w cacheDir f fs (h f (by simp)),
      ih (fun g hg => h g (by simp [hg]))]
    rfl

theorem scanCacheFiles_first (w : World) (cacheDir file : GoString) (pre post : List GoString)
    (tc : TokenCache) (hpre : ∀ f ∈ pre, loadEntry w cacheDir f = none)
    (h : loadEntry w cacheDir file = some tc) :
    scanCacheFiles w cacheDir (pre ++ file :: post) =
      ((pre ++ [file]).map (fun f => .printf "Checking file: %s\n" [.str f]) ++
        [.printf "Successfully loaded tokens from: %s\n" [.str file]], .ok tc) := by
  induction pre with
  | nil => rw [List.nil_append, scanCacheFiles_load w cacheDir file post tc h]; rfl
  | cons f fs ih =>
    rw [List.cons_append, scanCacheFiles_skip w cacheDir f _ (hpre f (by simp)),
      ih (fun g hg => hpre g (by simp [hg]))]
    rfl

theorem scanCacheFiles_error_iff (w : World) (cacheDir : GoString) (files : List GoString) :
    (∃ err, (scanCacheFiles w cacheDir files).2 = .error err) ↔
      ∀ f ∈ files, loadEntry w cacheDir f = none := by
  induction files with
  | nil => simp [scanCacheFiles]
  | cons f fs ih =>
    cases hl : loadEntry w cacheDir f with
    | none =>
      rw [scanCacheFiles_skip w cacheDir f fs hl]
      simp only [List.mem_cons, forall_eq_or_imp, hl, true_and]
      exact ih
    | some tc =>
      rw [scanCacheFiles_load w cacheDir f fs tc hl]
      simp [hl]

theorem readTokenFromCache_of_files (w : World) (home : GoString) (files : List GoString)
    (hh : w.userHomeDir = .ok home) (hd : w.readDir (cachePath w home) = .ok files) :
    readTokenFromCache w =
      ([.println "Looking for kubelogin token cache...",
        .printf "Searching cache directory: %s\n" [.str (cachePath w home)]] ++
        (scanCacheFiles w (cachePath w home) files).1,
       (scanCacheFiles w (cachePath w home) files).2) := by
  unfold cachePath at hd ⊢
  simp only [readTokenFromCache, hh, hd]

theorem readTokenFromCache_no_home (w : World) (e : GoString) (hh : w.userHomeDir = .error e) :
    (readTokenFromCache w).2 = .error (.homeDir e) := by
  simp only [readTokenFromCache, hh]

theorem readTokenFromCache_no_dir (w : World) (home e : GoString)
    (hh : w.userHomeDir = .ok home) (hd : w.readDir (cachePath w home) = .error e) :
    (readTokenFromCache w).2 = .error (.readCacheDir e) := by
  unfold cachePath at hd
  simp only [readTokenFromCache, hh, hd]

/-- C5. `readTokenFromCache`, over the directory entries in the order
`os.ReadDir` returns them. Among entries `pre ++ file :: post` where no entry of
`pre` both reads and parses and `file` does, the function checks the entries of
`pre` and `file`, in order, and nothing after `file`, and returns the token pair
of `file`. It fails exactly when the directory cannot be read (its path cannot
be resolved, or listing it fails) or no entry both reads and parses; the error
then names which of the three it was. -/
theorem readTokenFromCache_spec (w : World) :
    (∀ home pre file post tc, w.userHomeDir = .ok home →
      w.readDir (cachePath w home) = .ok (pre ++ file :: post) →
      (∀ f ∈ pre, loadEntry w (cachePath w home) f = none) →
      loadEntry w (cachePath w home) file = some tc →
      readTokenFromCache w =
        ([.println "Looking for kubelogin token cache...",
          .printf "Searching cache directory: %s\n" [.str (cachePath w home)]] ++
          ((pre ++ [file]).map (fun f => .printf "Checking file: %s\n" [.str f]) ++
            [.printf "Successfully loaded tokens from: %s\n" [.str file]]),
         .ok tc)) ∧
    ((∃ err, (readTokenFromCache w).2 = .error err) ↔
      ((∃ e, w.userHomeDir = .error e) ∨
        ∃ home, w.userHomeDir = .ok home ∧
          ((∃ e, w.readDir (cachePath w home) = .error e) ∨
            ∃ files, w.readDir (cachePath w home) = .ok files ∧
              ∀ f ∈ files, loadEntry w (cachePath w home) f = none))) ∧
    (∀ e, w.userHomeDir = .error e → (readTokenFromCache w).2 = .error (.homeDir e)) ∧
    (∀ home e, w.userHomeDir = .ok home → w.readDir (cachePath w home) = .error e →
      (readTokenFromCache w).2 = .error (.readCacheDir e)) ∧
    (∀ home files, w.userHomeDir = .ok home → w.readDir (cachePath w home) = .ok files →
      (∀ f ∈ files, loadEntry w (cachePath w home) f = none) →
      (readTokenFromCache w).2 = .error .noValidFile) := by
  refine ⟨?_, ?_, ?_, ?_, ?_⟩
  · intro home pre file post tc hh hd hpre hfile
    rw [readTokenFromCache_of_files w home _ hh hd,
      scanCacheFiles_first w (cachePath w home) file pre post tc hpre hfile]
  · cases hh : w.userHomeDir with
    | error e =>
      rw [readTokenFromCache_no_home w e hh]
      simp
    | ok home =>
      cases hd : w.readDir (cachePath w home) with
      | error e =>
        rw [readTokenFromCache_no_dir w home e hh hd]
        simp [hd]
      | ok files =>
        rw [readTokenFromCache_of_files w home files hh hd]
        simp only [scanCacheFiles_error_iff, reduceCtorEq, exists_false, false_or,
          Except.ok.injEq, exists_eq_left', hd]
  · intro e hh
    exact readTokenFromCache_no_home w e hh
  · intro home e hh hd
    exact readTokenFromCache_no_dir w home e hh hd
  · intro home files hh hd hnone
    rw [readTokenFromCache_of_files w home files hh hd,
      scanCacheFiles_none w (cachePath w home) files hnone]

theorem decodeJWT_fractionalToken :
    decodeJWT sampleUnmarshal fractionalToken.RefreshToken =
      .ok [(bytes "exp", .number (2001 / 2))] := by
  have hsplit : stringsSplit dot fractionalToken.RefreshToken =
      [bytes "h", bytes "eyJleHAiOjEwMDAuNX0", bytes "s"] := by decide
  have hdec : decodeString (padPayload (bytes "eyJleHAiOjEwMDAuNX0")) =
      .ok (bytes "\x7b\"exp\":1000.5\x7d") := by decide
  have hum : sampleUnmarshal (bytes "\x7b\"exp\":1000.5\x7d") =
      .ok [(bytes "exp", .number (2001 / 2))] := by
    unfold sampleUnmarshal
    rw [if_pos rfl]
  simp only [decodeJWT, hsplit, hdec, hum]

theorem float64ToInt64_fractional : float64ToInt64 (2001 / 2) = 1000 := by
  unfold float64ToInt64
  rw [if_pos (by norm_num), Int.floor_eq_iff]
  norm_num

theorem decodeJWT_ok_isJWT {γ : Type} (unmarshal : GoString → Except GoString γ)
    (token : GoString) (claims : γ) (h : decodeJWT unmarshal token = .ok claims) :
    isJWT token = true := by
  unfold decodeJWT at h
  unfold isJWT
  split at h
  · rename_i heq
    simp [heq]
  · simp at h

theorem claimLines_format (claims : Claims) (e : Event) (he : e ∈ claimLines claims) :
    e.hasFormat "    %s: %v\n" = true ∨ e.hasFormat "    %s: %v (%s)\n" = true := by
  simp only [claimLines, List.mem_flatMap] at he
  obtain ⟨kv, _, hkv⟩ := he
  unfold claimLine at hkv
  split at hkv
  · simp at hkv; subst hkv; left; simp [Event.hasFormat]
  · split at hkv
    · split at hkv
      · simp at hkv; subst hkv; right; simp [Event.hasFormat]
      · simp at hkv
    · split at hkv
      · simp at hkv; subst hkv; left; simp [Event.hasFormat]
      · simp at hkv

/-- The two status lines of `printTokenInfo` come from the branch on
`time.Now().After(expiry)` of the refresh-token block and from nowhere else. -/
theorem printTokenInfo_status_mem (unmarshal : GoString → Except GoString Claims) (now : Time)
    (label : Arg) (token : Token) (claims : Claims) (exp : ℚ)
    (hdec : decodeJWT unmarshal token.RefreshToken = .ok claims)
    (hexp : claimsGet claims (bytes "exp") = some (.number exp))
    (ev : Event) (f : String) (hf : f = "    Status: EXPIRED\n" ∨ f = "    Valid for: %v\n")
    (hfmt : ev.hasFormat f = true) :
    ev ∈ printTokenInfo unmarshal now label token ↔
      ev ∈ (if timeAfter now (timeUnix (float64ToInt64 exp)) then
              [Event.printf "    Status: EXPIRED\n" []]
            else [Event.printf "    Valid for: %v\n"
              [.duration (durationRound (timeUntil now (timeUnix (float64ToInt64 exp))) second)]]) := by
  have hjwt := decodeJWT_ok_isJWT unmarshal token.RefreshToken claims hdec
  have hother : ∀ g : String, g ≠ "    Status: EXPIRED\n" → g ≠ "    Valid for: %v\n" →
      ∀ args, ev ≠ .printf g args := by
    intro g h1 h2 args heq
    rw [heq] at hfmt
    simp only [Event.hasFormat, decide_eq_true_eq] at hfmt
    rcases hf with hf | hf
    · exact h1 (hfmt.trans hf)
    · exact h2 (hfmt.trans hf)
  have hprintln : ∀ t, ev ≠ .println t := by
    intro t heq
    rw [heq] at hfmt
    simp [Event.hasFormat] at hfmt
  have hclaims : ∀ c : Claims, ev ∉ claimLines c := by
    intro c hc
    rcases claimLines_format c ev hc with h | h
    · cases ev with
      | printf g args =>
        simp only [Event.hasFormat, decide_eq_true_eq] at h
        exact hother g (by rw [h]; decide) (by rw [h]; decide) args rfl
      | _ => simp [Event.hasFormat] at h
    · cases ev with
      | printf g args =>
        simp only [Event.hasFormat, decide_eq_true_eq] at h
        exact hother g (by rw [h]; decide) (by rw [h]; decide) args rfl
      | _ => simp [Event.hasFormat] at h
  have hrt : refreshTokenJWTLines unmarshal now token.RefreshToken =
      [.printf "    Format: JWT\n" [],
       .printf "    Expires: %s\n" [.rfc3339 (timeUnix (float64ToInt64 exp))]] ++
      (if timeAfter now (timeUnix (float64ToInt64 exp)) then
          [Event.printf "    Status: EXPIRED\n" []]
        else [Event.printf "    Valid for: %v\n"
          [.duration (durationRound (timeUntil now (timeUnix (float64ToInt64 exp))) second)]]) ++
      (match asFloat64 (claimsGet claims (bytes "iat")) with
        | some iat =>
          [.printf "    Issued: %s\n" [.rfc3339 (timeUnix (float64ToInt64 iat))],
           .printf "    Age: %v\n"
            [.duration (durationRound (timeSince now (timeUnix (float64ToInt64 iat))) second)]]
        | none => []) := by
    simp only [refreshTokenJWTLines, hdec, hexp, asFloat64, List.append_assoc,
      List.singleton_append, List.cons_append, List.nil_append]
  constructor
  · intro hmem
    unfold printTokenInfo at hmem
    rw [if_pos hjwt, hrt] at hmem
    simp only [List.mem_append, List.mem_cons, List.mem_singleton, List.not_mem_nil,
      or_false] at hmem
    rcases hmem with (((h | h) | h) | h) | h
    · rcases h with h | h | h | h | h | h | h | h <;>
        exact absurd h (hother _ (by decide) (by decide) _)
    · rcases h with ((h | h) | h) | h
      · exact absurd h (hother _ (by decide) (by decide) _)
      · exact absurd h (hother _ (by decide) (by decide) _)
      · exact h
      · split at h
        · simp only [List.mem_cons, List.mem_singleton, List.not_mem_nil, or_false] at h
          rcases h with h | h <;> exact absurd h (hother _ (by decide) (by decide) _)
        · simp at h
    · split at h
      · simp only [List.mem_cons] at h
        rcases h with h | h
        · exact absurd h (hother _ (by decide) (by decide) _)
        · exact absurd h (hclaims _)
      · simp at h
    · split at h
      · split at h
        · split at h
          · simp only [List.mem_cons] at h
            rcases h with h | h
            · exact absurd h (hother _ (by decide) (by decide) _)
            · exact absurd h (hclaims _)
          · simp at h
        · simp at h
      · simp at h
    · exact absurd h (hprintln _)
  · intro hmem
    unfold printTokenInfo
    rw [if_pos hjwt, hrt]
    simp only [List.mem_append]
    exact Or.inl (Or.inl (Or.inl (Or.inr (Or.inl (Or.inr hmem)))))

/-- `d.Round(time.Second)` for a non-negative duration: it is not negative, it is
positive from one second on, and unless it overflows it is the multiple of a
second nearest to `d`. -/
theorem durationRound_second (d : Duration) (h0 : 0 ≤ d) (hmax : d ≤ maxDuration) :
    0 ≤ durationRound d second ∧ (second ≤ d → 0 < durationRound d second) ∧
    (d ≤ maxDuration - second →
      durationRound d second % second = 0 ∧
      -second ≤ 2 * (durationRound d second - d) ∧ 2 * (durationRound d second - d) ≤ second) := by
  have hm : Int.tmod d 1000000000 = d % 1000000000 := Int.tmod_eq_emod h0 (by norm_num)
  unfold durationRound second lessThanHalf wrapInt64 maxDuration Duration at *
  simp only [hm]
  clear hm
  rw [if_neg (show ¬ (1000000000 : Int) ≤ 0 by norm_num), if_neg (show ¬ d < 0 by omega)]
  by_cases hlt : (d % 1000000000 % 2 ^ 64 + d % 1000000000 % 2 ^ 64) % 2 ^ 64 <
      1000000000 % 2 ^ 64
  · rw [if_pos (by simpa using hlt)]
    refine ⟨by omega, by omega, fun _ => ⟨by omega, by omega, by omega⟩⟩
  · rw [if_neg (by simpa using hlt)]
    by_cases hw : d < (d + 1000000000 - d % 1000000000 + 2 ^ 63) % 2 ^ 64 - 2 ^ 63
    · rw [if_pos hw]
      refine ⟨by omega, by omega, fun hle => ?_⟩
      have hr := Int.emod_nonneg d (show (1000000000 : Int) ≠ 0 by norm_num)
      have hr2 := Int.emod_lt_of_pos d (show (0 : Int) < 1000000000 by norm_num)
      have hx : (d + 1000000000 - d % 1000000000 + 2 ^ 63) % 2 ^ 64 =
          d + 1000000000 - d % 1000000000 + 2 ^ 63 :=
        Int.emod_eq_of_lt (by omega) (by omega)
      rw [hx]
      refine ⟨by omega, by omega, by omega⟩
    · rw [if_neg hw]
      refine ⟨by omega, by omega, fun hle => ?_⟩
      exfalso
      have hr := Int.emod_nonneg d (show (1000000000 : Int) ≠ 0 by norm_num)
      have hr2 := Int.emod_lt_of_pos d (show (0 : Int) < 1000000000 by norm_num)
      have hx : (d + 1000000000 - d % 1000000000 + 2 ^ 63) % 2 ^ 64 =
          d + 1000000000 - d % 1000000000 + 2 ^ 63 :=
        Int.emod_eq_of_lt (by omega) (by omega)
      rw [hx] at hw
      omega

theorem timeSub_nonneg (t u : Time) (h : u ≤ t) :
    0 ≤ timeSub t u ∧ timeSub t u ≤ maxDuration ∧
    (t - u ≤ maxDuration → timeSub t u = t - u) ∧ (second ≤ t - u → second ≤ timeSub t u) := by
  unfold timeSub minDuration maxDuration second Duration Time at *
  split
  · omega
  · split <;> omega

/-- The conversion `int64(f)` moves `f` by less than one. -/
theorem float64ToInt64_bounds (f : ℚ) :
    f - 1 < (float64ToInt64 f : ℚ) ∧ (float64ToInt64 f : ℚ) < f + 1 := by
  unfold float64ToInt64
  split
  · exact ⟨Int.sub_one_lt_floor f, lt_of_le_of_lt (Int.floor_le f) (by linarith)⟩
  · exact ⟨lt_of_lt_of_le (by linarith) (Int.le_ceil f), Int.ceil_lt_add_one f⟩

/-- C8, as stated, fails on a fractional `exp`: the refresh token of
`fractionalToken` decodes with `exp = 1000.5`, the clock reads 1000.25 s, which
is not after 1000.5 s, and yet `printTokenInfo` prints `Status: EXPIRED` and no
`Valid for:` line, because `int64(exp)` is 1000. -/
theorem printTokenInfo_fractional_exp_counterexample :
    decodeJWT sampleUnmarshal fractionalToken.RefreshToken =
      .ok [(bytes "exp", .number (2001 / 2))] ∧
    claimsGet [(bytes "exp", .number (2001 / 2))] (bytes "exp") = some (.number (2001 / 2)) ∧
    ¬ ((2001 / 2 : ℚ) * 1000000000 < ((1000250000000 : Int) : ℚ)) ∧
    Event.printf "    Status: EXPIRED\n" [] ∈
      printTokenInfo sampleUnmarshal 1000250000000 (.str (bytes "Token")) fractionalToken ∧
    ∀ d, Event.printf "    Valid for: %v\n" [.duration d] ∉
      printTokenInfo sampleUnmarshal 1000250000000 (.str (bytes "Token")) fractionalToken := by
  have hget : claimsGet [(bytes "exp", .number (2001 / 2))] (bytes "exp") =
      some (.number (2001 / 2)) := by simp [claimsGet]
  have hafter : timeAfter 1000250000000 (timeUnix (float64ToInt64 (2001 / 2))) = true := by
    rw [float64ToInt64_fractional]
    decide
  refine ⟨decodeJWT_fractionalToken, hget, by norm_num, ?_, ?_⟩
  · rw [printTokenInfo_status_mem sampleUnmarshal 1000250000000 _ fractionalToken _ _
      decodeJWT_fractionalToken hget _ "    Status: EXPIRED\n" (Or.inl rfl)
      (by simp [Event.hasFormat]), if_pos hafter]
    simp
  · intro d
    rw [printTokenInfo_status_mem sampleUnmarshal 1000250000000 _ fractionalToken _ _
      decodeJWT_fractionalToken hget _ "    Valid for: %v\n" (Or.inr rfl)
      (by simp [Event.hasFormat]), if_pos hafter]
    simp

/-- C8, amended. Expiry status in `printTokenInfo` when the clock reads `now`
(nanoseconds since the epoch), for a refresh token that decodes with a numeric
`exp` claim in the range where `int64(exp)` and `time.Unix` are exact. With
`int64(exp)` the claim truncated to whole seconds: when `now` is after
`int64(exp)` seconds the printer prints `Status: EXPIRED` and no `Valid for:`
line; otherwise it prints no `Status: EXPIRED` line and exactly one `Valid for:`
duration, which is not negative and is `int64(exp) - now` rounded to the nearest
second (capped at the largest `Duration`). In particular an `exp` of at most
`now - 10s` is marked `EXPIRED`, and an `exp` of at least `now + 100s` prints a
positive duration. -/
theorem printTokenInfo_expiry_status (unmarshal : GoString → Except GoString Claims)
    (now : Time) (label : Arg) (token : Token) (claims : Claims) (exp : ℚ)
    (hdec : decodeJWT unmarshal token.RefreshToken = .ok claims)
    (hexp : claimsGet claims (bytes "exp") = some (.number exp))
    (_hfit : -(2 : ℚ) ^ 62 ≤ exp ∧ exp ≤ 2 ^ 62) :
    (float64ToInt64 exp * second < now →
      Event.printf "    Status: EXPIRED\n" [] ∈ printTokenInfo unmarshal now label token ∧
      ∀ d, Event.printf "    Valid for: %v\n" [.duration d] ∉
        printTokenInfo unmarshal now label token) ∧
    (now ≤ float64ToInt64 exp * second →
      Event.printf "    Status: EXPIRED\n" [] ∉ printTokenInfo unmarshal now label token ∧
      (∀ d, Event.printf "    Valid for: %v\n" [.duration d] ∈
          printTokenInfo unmarshal now label token ↔
        d = durationRound (timeSub (float64ToInt64 exp * second) now) second) ∧
      (0 : Int) ≤ durationRound (timeSub (float64ToInt64 exp * second) now) second ∧
      (float64ToInt64 exp * second - now ≤ maxDuration - second →
        durationRound (timeSub (float64ToInt64 exp * second) now) second % second = 0 ∧
        -second ≤ 2 * (durationRound (timeSub (float64ToInt64 exp * second) now) second -
          (float64ToInt64 exp * second - now)) ∧
        2 * (durationRound (timeSub (float64ToInt64 exp * second) now) second -
          (float64ToInt64 exp * second - now)) ≤ second)) ∧
    (exp * 1000000000 ≤ ((now - 10 * second : Int) : ℚ) →
      Event.printf "    Status: EXPIRED\n" [] ∈ printTokenInfo unmarshal now label token) ∧
    (((now + 100 * second : Int) : ℚ) ≤ exp * 1000000000 →
      ∃ d : Int, 0 < d ∧ Event.printf "    Valid for: %v\n" [.duration d] ∈
        printTokenInfo unmarshal now label token) := by
  have hE := printTokenInfo_status_mem unmarshal now label token claims exp hdec hexp
  have hb := float64ToInt64_bounds exp
  have hexpired : float64ToInt64 exp * second < now →
      Event.printf "    Status: EXPIRED\n" [] ∈ printTokenInfo unmarshal now label token := by
    intro hlt
    have hafter : timeAfter now (timeUnix (float64ToInt64 exp)) = true := by
      simpa [timeAfter, timeUnix] using hlt
    rw [hE _ "    Status: EXPIRED\n" (Or.inl rfl) (by simp [Event.hasFormat]), if_pos hafter]
    simp
  have hvalid : now ≤ float64ToInt64 exp * second → ∀ d,
      (Event.printf "    Valid for: %v\n" [.duration d] ∈
          printTokenInfo unmarshal now label token ↔
        d = durationRound (timeSub (float64ToInt64 exp * second) now) second) := by
    intro hle d
    have hafter : ¬ timeAfter now (timeUnix (float64ToInt64 exp)) = true := by
      simpa [timeAfter, timeUnix] using hle
    rw [hE _ "    Valid for: %v\n" (Or.inr rfl) (by simp [Event.hasFormat]), if_neg hafter]
    simp [timeUntil, timeUnix]
  refine ⟨?_, ?_, ?_, ?_⟩
  · intro hlt
    refine ⟨hexpired hlt, ?_⟩
    intro d
    have hafter : timeAfter now (timeUnix (float64ToInt64 exp)) = true := by
      simpa [timeAfter, timeUnix] using hlt
    rw [hE _ "    Valid for: %v\n" (Or.inr rfl) (by simp [Event.hasFormat]), if_pos hafter]
    simp
  · intro hle
    have hafter : ¬ timeAfter now (timeUnix (float64ToInt64 exp)) = true := by
      simpa [timeAfter, timeUnix] using hle
    have hs := timeSub_nonneg (float64ToInt64 exp * second) now hle
    have hr := durationRound_second (timeSub (float64ToInt64 exp * second) now) hs.1 hs.2.1
    refine ⟨?_, hvalid hle, hr.1, ?_⟩
    · rw [hE _ "    Status: EXPIRED\n" (Or.inl rfl) (by simp [Event.hasFormat]), if_neg hafter]
      simp
    · intro hfits
      have heq : timeSub (float64ToInt64 exp * second) now = float64ToInt64 exp * second - now := by
        apply hs.2.2.1
        unfold maxDuration second Duration Time at *
        omega
      have := hr.2.2 (by rw [heq]; exact hfits)
      rw [heq] at this ⊢
      exact this
  · intro h10
    apply hexpired
    have h1 : ((float64ToInt64 exp * second : Int) : ℚ) < ((now : Int) : ℚ) := by
      have : ((now - 10 * second : Int) : ℚ) = (now : ℚ) - 10 * 1000000000 := by
        simp only [second]
        push_cast
        ring
      rw [this] at h10
      have : ((float64ToInt64 exp * second : Int) : ℚ) = (float64ToInt64 exp : ℚ) * 1000000000 := by
        simp only [second]
        push_cast
        ring
      rw [this]
      nlinarith [hb.2]
    exact_mod_cast h1
  · intro h100
    have h1 : ((now + 99 * second : Int) : ℚ) < ((float64ToInt64 exp * second : Int) : ℚ) := by
      have e1 : ((now + 100 * second : Int) : ℚ) = (now : ℚ) + 100 * 1000000000 := by
        simp only [second]
        push_cast
        ring
      have e2 : ((now + 99 * second : Int) : ℚ) = (now : ℚ) + 99 * 1000000000 := by
        simp only [second]
        push_cast
        ring
      have e3 : ((float64ToInt64 exp * second : Int) : ℚ) =
          (float64ToInt64 exp : ℚ) * 1000000000 := by
        simp only [second]
        push_cast
        ring
      rw [e1] at h100
      rw [e2, e3]
      nlinarith [hb.1]
    have h2 : now + 99 * second < float64ToInt64 exp * second := by exact_mod_cast h1
    have hle : now ≤ float64ToInt64 exp * second := by
      unfold second Time Duration at *
      omega
    have hs := timeSub_nonneg (float64ToInt64 exp * second) now hle
    have hsec : second ≤ timeSub (float64ToInt64 exp * second) now := by
      apply hs.2.2.2
      unfold second Time Duration at *
      omega
    have hr := durationRound_second (timeSub (float64ToInt64 exp * second) now) hs.1 hs.2.1
    exact ⟨_, hr.2.1 hsec, (hvalid hle _).mpr rfl⟩

theorem decodeJWT_wholeToken :
    decodeJWT sampleUnmarshal wholeToken.RefreshToken = .ok [(bytes "exp", .number 2000)] := by
  have hsplit : stringsSplit dot wholeToken.RefreshToken =
      [bytes "h", bytes "eyJleHAiOjIwMDB9", bytes "s"] := by decide
  have hdec : decodeString (padPayload (bytes "eyJleHAiOjIwMDB9")) =
      .ok (bytes "\x7b\"exp\":2000\x7d") := by decide
  have hum : sampleUnmarshal (bytes "\x7b\"exp\":2000\x7d") =
      .ok [(bytes "exp", .number 2000)] := by
    unfold sampleUnmarshal
    rw [if_neg (by decide), if_pos rfl]
  simp only [decodeJWT, hsplit, hdec, hum]

/-- C8, amended, at a token with `exp = 2000` when the clock reads 2010 s. -/
theorem printTokenInfo_expiry_status_witness :
    decodeJWT sampleUnmarshal wholeToken.RefreshToken = .ok [(bytes "exp", .number 2000)] ∧
    claimsGet [(bytes "exp", .number 2000)] (bytes "exp") = some (.number 2000) ∧
    (-(2 : ℚ) ^ 62 ≤ 2000 ∧ (2000 : ℚ) ≤ 2 ^ 62) ∧
    Event.printf "    Status: EXPIRED\n" [] ∈
      printTokenInfo sampleUnmarshal (2010 * second) (.str (bytes "Token")) wholeToken :=
  ⟨decodeJWT_wholeToken, by simp [claimsGet], by norm_num,
    (printTokenInfo_expiry_status sampleUnmarshal (2010 * second) (.str (bytes "Token"))
      wholeToken [(bytes "exp", .number 2000)] 2000 decodeJWT_wholeToken
      (by simp [claimsGet]) (by norm_num)).2.2.1 (by norm_num [second])⟩

/-! ### Base64: decoding what the encoder wrote -/

theorem lor_eq_add (a b k : Nat) (ha : a % 2 ^ k = 0) (hb : b < 2 ^ k) : a ||| b = a + b := by
  have h := Nat.mul_add_lt_is_or hb (a / 2 ^ k)
  have e : 2 ^ k * (a / 2 ^ k) = a := by
    have := Nat.div_add_mod a (2 ^ k)
    omega
  rw [e] at h
  exact h.symm

theorem sextet_eq (v k : Nat) : v >>> k &&& 0x3F = v / 2 ^ k % 64 := by
  rw [Nat.shiftRight_eq_div_pow]
  exact Nat.and_pow_two_sub_one_eq_mod _ 6

theorem encodeWord_eq (b0 b1 b2 : Nat) (h1 : b1 < 256) (h2 : b2 < 256) :
    b0 <<< 16 ||| b1 <<< 8 ||| b2 = b0 * 65536 + b1 * 256 + b2 := by
  rw [Nat.shiftLeft_eq, Nat.shiftLeft_eq]
  rw [lor_eq_add (b0 * 2 ^ 16) (b1 * 2 ^ 8) 16 (by omega) (by omega)]
  rw [lor_eq_add _ b2 8 (by omega) (by omega)]

theorem decodeWord_eq (x0 x1 x2 x3 : Nat) (h1 : x1 < 64) (h2 : x2 < 64) (h3 : x3 < 64) :
    x0 <<< 18 ||| x1 <<< 12 ||| x2 <<< 6 ||| x3 = x0 * 262144 + x1 * 4096 + x2 * 64 + x3 := by
  rw [Nat.shiftLeft_eq, Nat.shiftLeft_eq, Nat.shiftLeft_eq]
  rw [lor_eq_add (x0 * 2 ^ 18) (x1 * 2 ^ 12) 18 (by omega) (by omega)]
  rw [lor_eq_add _ (x2 * 2 ^ 6) 12 (by omega) (by omega)]
  rw [lor_eq_add _ x3 6 (by omega) (by omega)]

theorem decodeMap_encodeChar (x : Nat) (hx : x < 64) : decodeMap (encodeChar x) = x := by
  have h : ∀ y : Fin 64, decodeMap (encodeChar y.val) = y.val := by decide
  exact h ⟨x, hx⟩

theorem encodeChar_ne_dot (x : Nat) (hx : x < 64) : encodeChar x ≠ dot := by
  have h : ∀ y : Fin 64, encodeChar y.val ≠ dot := by decide
  exact h ⟨x, hx⟩

theorem decodeLoop_encodeChar (x : Nat) (hx : x < 64) (rest : GoString) (si j : Nat)
    (dbuf : List Nat) (dst : List Byte) :
    decodeLoop (encodeChar x :: rest) si j dbuf dst =
      if j = 3 then decodeLoop rest (si + 1) 0 [] (dst ++ quantumBytes (dbuf ++ [x]) 4)
      else decodeLoop rest (si + 1) (j + 1) (dbuf ++ [x]) dst := by
  conv_lhs => unfold decodeLoop
  rw [decodeMap_encodeChar x hx, if_pos (by omega)]

theorem decodeLoop_quad (x0 x1 x2 x3 : Nat) (h0 : x0 < 64) (h1 : x1 < 64) (h2 : x2 < 64)
    (h3 : x3 < 64) (rest : GoString) (si : Nat) (dst : List Byte) :
    decodeLoop (encodeChar x0 :: encodeChar x1 :: encodeChar x2 :: encodeChar x3 :: rest)
        si 0 [] dst =
      decodeLoop rest (si + 4) 0 [] (dst ++ quantumBytes [x0, x1, x2, x3] 4) := by
  rw [decodeLoop_encodeChar x0 h0, if_neg (by omega), decodeLoop_encodeChar x1 h1,
    if_neg (by omega), decodeLoop_encodeChar x2 h2, if_neg (by omega),
    decodeLoop_encodeChar x3 h3, if_pos (by omega)]
  rfl

theorem mkByte_eq (n : Nat) (b : Byte) (h : n % 256 = b.val) : mkByte n = b := by
  apply Fin.ext
  simp only [mkByte, Fin.ofNat]
  omega

theorem and63_eq (v : Nat) : v &&& 0x3F = v % 64 := Nat.and_pow_two_sub_one_eq_mod v 6

theorem quantumBytes_full (b0 b1 b2 : Byte) :
    quantumBytes
      [(b0.val <<< 16 ||| b1.val <<< 8 ||| b2.val) >>> 18 &&& 0x3F,
       (b0.val <<< 16 ||| b1.val <<< 8 ||| b2.val) >>> 12 &&& 0x3F,
       (b0.val <<< 16 ||| b1.val <<< 8 ||| b2.val) >>> 6 &&& 0x3F,
       (b0.val <<< 16 ||| b1.val <<< 8 ||| b2.val) &&& 0x3F] 4 = [b0, b1, b2] := by
  have h0 := b0.isLt
  have h1 := b1.isLt
  have h2 := b2.isLt
  rw [encodeWord_eq b0.val b1.val b2.val h1 h2, sextet_eq, sextet_eq, sextet_eq, and63_eq]
  unfold quantumBytes
  simp only [List.getD_cons_zero, List.getD_cons_succ]
  rw [decodeWord_eq _ _ _ _ (Nat.mod_lt _ (by norm_num)) (Nat.mod_lt _ (by norm_num))
    (Nat.mod_lt _ (by norm_num))]
  simp only [Nat.shiftRight_eq_div_pow, List.map_cons, List.map_nil]
  rw [mkByte_eq _ b0 (by omega), mkByte_eq _ b1 (by omega), mkByte_eq _ b2 (by omega)]
  rfl

theorem quantumBytes_two (b0 b1 : Byte) :
    quantumBytes
      [(b0.val <<< 16 ||| b1.val <<< 8) >>> 18 &&& 0x3F,
       (b0.val <<< 16 ||| b1.val <<< 8) >>> 12 &&& 0x3F,
       (b0.val <<< 16 ||| b1.val <<< 8) >>> 6 &&& 0x3F] 3 = [b0, b1] := by
  have h0 := b0.isLt
  have h1 := b1.isLt
  have hw : b0.val <<< 16 ||| b1.val <<< 8 = b0.val * 65536 + b1.val * 256 := by
    have := encodeWord_eq b0.val b1.val 0 h1 (by norm_num)
    simpa using this
  rw [hw, sextet_eq, sextet_eq, sextet_eq]
  unfold quantumBytes
  simp only [List.getD_cons_zero, List.getD_cons_succ, List.getD_nil]
  rw [decodeWord_eq _ _ _ _ (Nat.mod_lt _ (by norm_num)) (Nat.mod_lt _ (by norm_num))
    (by norm_num)]
  simp only [Nat.shiftRight_eq_div_pow, List.map_cons, List.map_nil]
  rw [mkByte_eq _ b0 (by omega), mkByte_eq _ b1 (by omega)]
  rfl

theorem quantumBytes_one (b0 : Byte) :
    quantumBytes [(b0.val <<< 16) >>> 18 &&& 0x3F, (b0.val <<< 16) >>> 12 &&& 0x3F] 2 = [b0] := by
  have h0 := b0.isLt
  rw [Nat.shiftLeft_eq, sextet_eq, sextet_eq]
  unfold quantumBytes
  simp only [List.getD_cons_zero, List.getD_cons_succ, List.getD_nil]
  rw [decodeWord_eq _ _ _ _ (Nat.mod_lt _ (by norm_num)) (by norm_num) (by norm_num)]
  simp only [Nat.shiftRight_eq_div_pow, List.map_cons, List.map_nil]
  rw [mkByte_eq _ b0 (by omega)]
  rfl

theorem sextet_lt (v k : Nat) : v >>> k &&& 0x3F < 64 := by
  rw [sextet_eq]
  exact Nat.mod_lt _ (by norm_num)

theorem and63_lt (v : Nat) : v &&& 0x3F < 64 := by
  rw [and63_eq]
  exact Nat.mod_lt _ (by norm_num)

theorem byThrees {P : List Byte → Prop} (h0 : P []) (h1 : ∀ a, P [a]) (h2 : ∀ a b, P [a, b])
    (h3 : ∀ a b c l, P l → P (a :: b :: c :: l)) : ∀ l, P l
  | [] => h0
  | [a] => h1 a
  | [a, b] => h2 a b
  | a :: b :: c :: l => h3 a b c l (byThrees h0 h1 h2 h3 l)

theorem decodeLoop_pad_two (si : Nat) (dbuf : List Nat) (dst : List Byte) :
    decodeLoop [padChar, padChar] si 2 dbuf dst = .ok (dst ++ quantumBytes dbuf 2) := by
  unfold decodeLoop
  rw [if_neg (by simp [decodeMap_padChar]), if_neg padChar_not_newline, if_neg (by simp),
    if_neg (by omega), if_pos rfl]
  have hs : skipNewlines [padChar] (si + 1) = ([padChar], si + 1) := by
    simp [skipNewlines, padChar, newline, carriageReturn]
  rw [hs]
  simp [finishPadding, skipNewlines]

theorem decodeLoop_pad_one (si : Nat) (dbuf : List Nat) (dst : List Byte) :
    decodeLoop [padChar] si 3 dbuf dst = .ok (dst ++ quantumBytes dbuf 3) := by
  unfold decodeLoop
  rw [if_neg (by simp [decodeMap_padChar]), if_neg padChar_not_newline, if_neg (by simp),
    if_neg (by omega), if_neg (by omega)]
  simp [finishPadding, skipNewlines]

/-- The decoder returns the bytes the padded encoder was given. -/
theorem decodeLoop_encodeToString (bs : List Byte) :
    ∀ (si : Nat) (dst : List Byte),
      decodeLoop (encodeToString true bs) si 0 [] dst = .ok (dst ++ bs) := by
  induction bs using byThrees with
  | h0 => intro si dst; simp [encodeToString, decodeLoop]
  | h1 a =>
    intro si dst
    simp only [encodeToString, if_true, List.cons_append, List.nil_append]
    rw [decodeLoop_encodeChar _ (sextet_lt _ _), if_neg (by omega),
      decodeLoop_encodeChar _ (sextet_lt _ _), if_neg (by omega), decodeLoop_pad_two]
    simp only [List.nil_append, List.cons_append]
    rw [quantumBytes_one]
  | h2 a b =>
    intro si dst
    simp only [encodeToString, if_true, List.cons_append, List.nil_append]
    rw [decodeLoop_encodeChar _ (sextet_lt _ _), if_neg (by omega),
      decodeLoop_encodeChar _ (sextet_lt _ _), if_neg (by omega),
      decodeLoop_encodeChar _ (sextet_lt _ _), if_neg (by omega), decodeLoop_pad_one]
    simp only [List.nil_append, List.cons_append]
    rw [quantumBytes_two]
  | h3 a b c l ih =>
    intro si dst
    simp only [encodeToString]
    rw [decodeLoop_quad _ _ _ _ (sextet_lt _ _) (sextet_lt _ _) (sextet_lt _ _) (and63_lt _),
      quantumBytes_full, ih]
    simp

theorem padPayload_cons4 (a b c d : Byte) (rest : GoString) :
    padPayload (a :: b :: c :: d :: rest) = a :: b :: c :: d :: padPayload rest := by
  unfold padPayload
  have h : (a :: b :: c :: d :: rest).length % 4 = rest.length % 4 := by
    simp only [List.length_cons]
    omega
  rw [h]
  split <;> rfl

/-- The padding step of `decodeJWT` completes the unpadded encoding to the padded
one and leaves the padded one as it is. -/
theorem padPayload_encodeToString (padded : Bool) (bs : List Byte) :
    padPayload (encodeToString padded bs) = encodeToString true bs := by
  induction bs using byThrees with
  | h0 => simp [encodeToString, padPayload]
  | h1 a => cases padded <;> simp [encodeToString, padPayload, stringsRepeat, List.replicate]
  | h2 a b => cases padded <;> simp [encodeToString, padPayload, stringsRepeat, List.replicate]
  | h3 a b c l ih =>
    simp only [encodeToString]
    rw [padPayload_cons4, ih]

theorem dot_not_mem_encodeToString (padded : Bool) (bs : List Byte) :
    dot ∉ encodeToString padded bs := by
  have hpad : dot ≠ padChar := by decide
  induction bs using byThrees with
  | h0 => simp [encodeToString]
  | h1 a =>
    cases padded <;>
      simp [encodeToString, hpad, (encodeChar_ne_dot _ (sextet_lt _ _)).symm]
  | h2 a b =>
    cases padded <;>
      simp [encodeToString, hpad, (encodeChar_ne_dot _ (sextet_lt _ _)).symm]
  | h3 a b c l ih =>
    simp only [encodeToString, List.mem_cons, not_or]
    exact ⟨(encodeChar_ne_dot _ (sextet_lt _ _)).symm, (encodeChar_ne_dot _ (sextet_lt _ _)).symm,
      (encodeChar_ne_dot _ (sextet_lt _ _)).symm, (encodeChar_ne_dot _ (and63_lt _)).symm, ih⟩

/-- On a token whose payload segment is the base64url encoding of `data`, padded
or not, `decodeJWT` is `json.Unmarshal` on `data`. -/
theorem decodeJWT_encoded {γ : Type} (unmarshal : GoString → Except GoString γ)
    (h s : GoString) (padded : Bool) (data : List Byte) (hh : dot ∉ h) (hs : dot ∉ s) :
    decodeJWT unmarshal (h ++ dot :: (encodeToString padded data ++ dot :: s)) =
      match unmarshal data with
      | .error msg => .error (.unmarshalClaims msg)
      | .ok claims => .ok claims := by
  unfold decodeJWT
  rw [stringsSplit_three dot h _ s hh (dot_not_mem_encodeToString padded data) hs]
  simp only [padPayload_encodeToString, decodeString, decodeLoop_encodeToString, List.nil_append]

/-! ### The scenarios of the specification, evaluated -/

/-- The error text of the specification takes the "refresh token consumed or
expired" branch, also when `invalid_client` occurs in it. -/
theorem errorBranch_scenario :
    errorBranch (bytes "oauth2: \"invalid_request\" \"Refresh token has expired\"") =
      .refreshTokenConsumed ∧
    errorBranch (bytes "invalid_client: invalid_request: Refresh token rejected") =
      .refreshTokenConsumed ∧
    errorBranch (bytes "oauth2: \"invalid_client\" \"bad secret\"") = .invalidClient ∧
    errorBranch (bytes "dial tcp: connection refused") = .general := by
  decide

/-- Among three files of which only the second parses, the reader returns the
pair of the second. -/
theorem readTokenFromCache_scenario :
    (readTokenFromCache cacheWorld).2 =
      .ok { IDToken := bytes "id-1", RefreshToken := bytes "rt-1" } ∧
    (readTokenFromCache emptyWorld).2 = .error (.homeDir []) := by
  decide

/-! ### JSON: decoding what the encoder wrote -/

theorem digitChar_val (d : Nat) (hd : d < 10) : (digitChar d).val = 48 + d := by
  simp only [digitChar, Fin.ofNat]
  omega

theorem isDigit_digitChar (d : Nat) (hd : d < 10) : isDigit (digitChar d) = true := by
  have := digitChar_val d hd
  simp only [isDigit, decide_eq_true_eq]
  omega

theorem lexDigits_digitChar (d : Nat) (hd : d < 10) (cs : GoString) (acc count : Nat) :
    lexDigits (digitChar d :: cs) acc count = lexDigits cs (acc * 10 + d) (count + 1) := by
  conv_lhs => unfold lexDigits
  rw [if_pos (isDigit_digitChar d hd), digitChar_val d hd]
  congr 2
  omega

theorem lexDigits_natDigitsAux (fuel : Nat) :
    ∀ (n : Nat) (acc : GoString), n < fuel →
      ∃ k, 1 ≤ k ∧ ∀ (rest : GoString) (a c : Nat),
        lexDigits (natDigitsAux fuel n acc ++ rest) a c =
          lexDigits (acc ++ rest) (a * 10 ^ k + n) (c + k) := by
  induction fuel with
  | zero => intro n acc h; omega
  | succ fuel ih =>
    intro n acc hn
    unfold natDigitsAux
    by_cases h10 : n < 10
    · rw [if_pos h10]
      refine ⟨1, le_refl 1, ?_⟩
      intro rest a c
      rw [List.cons_append, lexDigits_digitChar n h10]
      simp
    · rw [if_neg h10]
      obtain ⟨k, hk, hlex⟩ := ih (n / 10) (digitChar (n % 10) :: acc) (by omega)
      refine ⟨k + 1, by omega, ?_⟩
      intro rest a c
      rw [hlex, List.cons_append, lexDigits_digitChar (n % 10) (by omega)]
      have e : (a * 10 ^ k + n / 10) * 10 + n % 10 = a * 10 ^ (k + 1) + n := by
        rw [pow_succ]
        have := Nat.div_add_mod n 10
        ring_nf
        omega
      rw [e]
      congr 1

/-- What ends a number: the end of the input, or a byte that is no digit, `.`,
`e` or `E`. -/
theorem lexDigits_stop (c : Byte) (cs : GoString) (acc count : Nat) (h : isDigit c = false) :
    lexDigits (c :: cs) acc count = (acc, count, c :: cs) := by
  unfold lexDigits
  simp [h]

theorem lexDigits_natDigits (n : Nat) (rest : GoString)
    (hrest : ∀ c cs, rest = c :: cs → isDigit c = false) :
    ∃ k, lexDigits (natDigits n ++ rest) 0 0 = (n, k + 1, rest) := by
  obtain ⟨k, hk, hlex⟩ := lexDigits_natDigitsAux (n + 1) n [] (by omega)
  refine ⟨k - 1, ?_⟩
  unfold natDigits
  rw [hlex, List.nil_append]
  have hk1 : 0 + k = k - 1 + 1 := by omega
  cases rest with
  | nil => simp [lexDigits, hk1]
  | cons c cs =>
    rw [lexDigits_stop c cs _ _ (hrest c cs rfl)]
    simp [hk1]

theorem natDigitsAux_head (fuel : Nat) :
    ∀ (n : Nat) (acc : GoString), 0 < n → n < fuel →
      ∃ d cs, 1 ≤ d ∧ d < 10 ∧ natDigitsAux fuel n acc = digitChar d :: cs := by
  induction fuel with
  | zero => intro n acc _ h; omega
  | succ fuel ih =>
    intro n acc hpos hn
    unfold natDigitsAux
    by_cases h10 : n < 10
    · rw [if_pos h10]
      exact ⟨n, acc, hpos, h10, rfl⟩
    · rw [if_neg h10]
      exact ih (n / 10) _ (by omega) (by omega)

theorem lexInteger_natDigits (n : Nat) (rest : GoString)
    (hrest : ∀ c cs, rest = c :: cs → isDigit c = false) :
    lexInteger (natDigits n ++ rest) = some (n, rest) := by
  by_cases h0 : n = 0
  · subst h0
    have : natDigits 0 = [48] := by decide
    rw [this]
    simp [lexInteger]
  · obtain ⟨d, cs, hd1, hd10, hhead⟩ := natDigitsAux_head (n + 1) n [] (by omega) (by omega)
    obtain ⟨k, hk⟩ := lexDigits_natDigits n rest hrest
    unfold natDigits at hk ⊢
    rw [hhead] at hk ⊢
    rw [List.cons_append] at hk ⊢
    have hne : digitChar d ≠ 48 := by
      intro h
      have := digitChar_val d hd10
      rw [h] at this
      have h48 : ((48 : Byte) : Nat) = 48 := rfl
      omega
    simp only [lexInteger]
    rw [if_neg hne, if_pos (isDigit_digitChar d hd10), hk]

theorem natDigits_head_ne_minus (n : Nat) : (natDigits n).head? ≠ some 45 := by
  by_cases h0 : n = 0
  · subst h0
    decide
  · obtain ⟨d, cs, hd1, hd10, hhead⟩ := natDigitsAux_head (n + 1) n [] (by omega) (by omega)
    unfold natDigits
    rw [hhead]
    intro h
    simp only [List.head?_cons, Option.some.injEq] at h
    have := digitChar_val d hd10
    rw [h] at this
    have h45 : ((45 : Byte) : Nat) = 45 := rfl
    omega

theorem lexFraction_none (rest : GoString) (h : NumberEnd rest) :
    lexFraction rest = some (0, 0, rest) := by
  cases rest with
  | nil => rfl
  | cons c cs =>
    simp only [lexFraction]
    rw [if_neg (h c cs rfl).2.1]

theorem lexExponent_none (rest : GoString) (h : NumberEnd rest) :
    lexExponent rest = some (0, rest) := by
  cases rest with
  | nil => rfl
  | cons c cs =>
    simp only [lexExponent]
    rw [if_neg (by
      intro hc
      rcases hc with hc | hc
      · exact (h c cs rfl).2.2.1 hc
      · exact (h c cs rfl).2.2.2 hc)]

theorem lexExponent_minus (k : Nat) (rest : GoString) (h : NumberEnd rest) :
    lexExponent (101 :: 45 :: (natDigits k ++ rest)) = some (-(k : Int), rest) := by
  obtain ⟨j, hj⟩ := lexDigits_natDigits k rest (fun c cs hc => (h c cs hc).1)
  simp only [lexExponent, true_or, if_true, hj]

theorem numberValue_encoded (q : ℚ) (k : Nat) (hq : q.den = 2 ^ k) :
    numberValue (decide (q < 0)) (q.num.natAbs * 5 ^ k) 0 0 (-(k : Int)) = q := by
  have hsign : (if q < 0 then (-1 : ℚ) else 1) * ((q.num.natAbs : ℕ) : ℚ) = (q.num : ℚ) := by
    by_cases hneg : q < 0
    · have hnum : q.num < 0 := Rat.num_neg.mpr hneg
      rw [if_pos hneg]
      have : ((q.num.natAbs : ℕ) : ℤ) = -q.num := by
        rw [Int.natCast_natAbs, abs_of_neg hnum]
      have h2 : ((q.num.natAbs : ℕ) : ℚ) = -(q.num : ℚ) := by
        rw [← Int.cast_natCast, this, Int.cast_neg]
      rw [h2]
      ring
    · have hnum : 0 ≤ q.num := Rat.num_nonneg.mpr (not_lt.mp hneg)
      rw [if_neg hneg]
      have : ((q.num.natAbs : ℕ) : ℤ) = q.num := by
        rw [Int.natCast_natAbs, abs_of_nonneg hnum]
      have h2 : ((q.num.natAbs : ℕ) : ℚ) = (q.num : ℚ) := by
        rw [← Int.cast_natCast, this]
      rw [h2]
      ring
  have hden : (q.den : ℚ) = 2 ^ k := by exact_mod_cast hq
  have hqq : q = (q.num : ℚ) / (q.den : ℚ) := (Rat.num_div_den q).symm
  unfold numberValue
  simp only [decide_eq_true_eq, Nat.cast_mul, Nat.cast_pow, Nat.cast_ofNat, Nat.cast_zero,
    pow_zero, div_one, add_zero, zpow_neg, zpow_natCast]
  rw [← mul_assoc, hsign]
  conv_rhs => rw [hqq, hden]
  have h10 : (10 : ℚ) ^ k = 2 ^ k * 5 ^ k := by
    rw [← mul_pow]
    norm_num
  rw [h10]
  field_simp
  ring

theorem natDigits_cons (n : Nat) : ∃ c cs, natDigits n = c :: cs ∧ c ≠ 45 := by
  have h := natDigits_head_ne_minus n
  cases hn : natDigits n with
  | nil =>
    exfalso
    by_cases h0 : n = 0
    · subst h0
      have : natDigits 0 = [48] := by decide
      rw [this] at hn
      cases hn
    · obtain ⟨d, cs, _, _, hhead⟩ := natDigitsAux_head (n + 1) n [] (by omega) (by omega)
      unfold natDigits at hn
      rw [hhead] at hn
      cases hn
  | cons c cs =>
    rw [hn] at h
    exact ⟨c, cs, rfl, fun hc => h (by rw [hc]; rfl)⟩

/-- The number lexer reads an encoded number back, parts by parts. -/
theorem lexNumberParts_encodeNumber (q : ℚ) (rest : GoString) (hrest : NumberEnd rest) :
    lexNumberParts (encodeNumber q ++ rest) =
      some (decide (q < 0), q.num.natAbs * 5 ^ (bitLength q.den q.den - 1), 0, 0,
        -((bitLength q.den q.den - 1 : Nat) : Int), rest) := by
  generalize hk : bitLength q.den q.den - 1 = k
  generalize hN : q.num.natAbs * 5 ^ k = N
  have hX : ∃ X, ((if k = 0 then [] else [101, 45] ++ natDigits k) ++ rest = X) ∧
      (∀ c cs, X = c :: cs → isDigit c = false) ∧
      lexFraction X = some (0, 0, X) ∧ lexExponent X = some (-(k : Int), rest) := by
    by_cases hk0 : k = 0
    · subst hk0
      refine ⟨rest, by simp, fun c cs hc => (hrest c cs hc).1, lexFraction_none rest hrest, ?_⟩
      rw [lexExponent_none rest hrest]
      simp
    · refine ⟨101 :: 45 :: (natDigits k ++ rest), by simp [hk0], ?_, ?_,
        lexExponent_minus k rest hrest⟩
      · intro c cs hc
        cases hc
        decide
      · simp [lexFraction]
  obtain ⟨X, hXeq, hXstop, hXfrac, hXexp⟩ := hX
  have henc : encodeNumber q ++ rest = (if q < 0 then [45] else []) ++ (natDigits N ++ X) := by
    unfold encodeNumber
    rw [hk, hN, ← hXeq]
    simp only [List.append_assoc]
  rw [henc]
  obtain ⟨c, cs, hcons, hc45⟩ := natDigits_cons N
  have hint := lexInteger_natDigits N X hXstop
  by_cases hneg : q < 0
  · simp only [lexNumberParts, hneg, if_true, List.cons_append, List.nil_append, List.head?_cons,
      List.tail_cons, hint, hXfrac, hXexp, decide_True]
  · have hhead : (natDigits N ++ X).head? ≠ some 45 := by
      rw [hcons]
      intro h
      simp only [List.cons_append, List.head?_cons, Option.some.injEq] at h
      exact hc45 h
    simp only [lexNumberParts, hneg, if_false, List.nil_append, hhead, hint, hXfrac, hXexp,
      decide_False]

/-- The number lexer reads back the number the encoder wrote, when it is a
fraction of a power of two. -/
theorem lexNumber_encodeNumber (q : ℚ) (hq : q.den = 2 ^ (bitLength q.den q.den - 1))
    (rest : GoString) (hrest : NumberEnd rest) :
    lexNumber (encodeNumber q ++ rest) = some (q, rest) := by
  unfold lexNumber
  rw [lexNumberParts_encodeNumber q rest hrest]
  simp only [numberValue_encoded q _ hq]

theorem encodeStringBody_raw (pre post : GoString) (h : ∀ b ∈ pre, 0x80 ≤ b.val) :
    encodeStringBody (pre ++ post) = pre ++ encodeStringBody post := by
  induction pre with
  | nil => rfl
  | cons b bs ih =>
    have hb : 0x80 ≤ b.val := h b (by simp)
    have h34 : b ≠ 34 := by intro e; rw [e] at hb; exact absurd hb (by decide)
    have h92 : b ≠ 92 := by intro e; rw [e] at hb; exact absurd hb (by decide)
    rw [List.cons_append]
    conv_lhs => unfold encodeStringBody
    rw [if_neg h34, if_neg h92, if_neg (by omega), ih (fun c hc => h c (by simp [hc]))]
    rfl

theorem utf8Size_two (c b1 : Byte) (r : GoString) (hc : ¬ c.val < 0x80)
    (h2 : 0xC2 ≤ c.val ∧ c.val ≤ 0xDF) :
    utf8Size (c :: b1 :: r) = if isCont b1 then 2 else 0 := by
  simp only [utf8Size, if_neg hc, if_pos h2]

theorem utf8Size_three (c b1 b2 : Byte) (r : GoString) (hc : ¬ c.val < 0x80)
    (h2 : ¬ (0xC2 ≤ c.val ∧ c.val ≤ 0xDF)) (h3 : 0xE0 ≤ c.val ∧ c.val ≤ 0xEF) :
    utf8Size (c :: b1 :: b2 :: r) =
      if (if c.val = 0xE0 then 0xA0 else 0x80) ≤ b1.val ∧
          b1.val ≤ (if c.val = 0xED then 0x9F else 0xBF) ∧ isCont b2 then 3 else 0 := by
  simp only [utf8Size, if_neg hc, if_neg h2, if_pos h3]

theorem utf8Size_four (c b1 b2 b3 : Byte) (r : GoString) (hc : ¬ c.val < 0x80)
    (h2 : ¬ (0xC2 ≤ c.val ∧ c.val ≤ 0xDF)) (h3 : ¬ (0xE0 ≤ c.val ∧ c.val ≤ 0xEF))
    (h4 : 0xF0 ≤ c.val ∧ c.val ≤ 0xF4) :
    utf8Size (c :: b1 :: b2 :: b3 :: r) =
      if (if c.val = 0xF0 then 0x90 else 0x80) ≤ b1.val ∧
          b1.val ≤ (if c.val = 0xF4 then 0x8F else 0xBF) ∧ isCont b2 ∧ isCont b3 then 4
      else 0 := by
  simp only [utf8Size, if_neg hc, if_neg h2, if_neg h3, if_pos h4]

theorem isCont_ge (b : Byte) (h : isCont b = true) : 0x80 ≤ b.val := by
  simp only [isCont, decide_eq_true_eq] at h
  exact h.1

/-- A valid multi-byte encoding: its bytes are all at least `0x80`, and it is
recognised whatever follows it. -/
theorem utf8Size_multi (c : Byte) (cs : GoString) (hc : 0x80 ≤ c.val)
    (hn : utf8Size (c :: cs) ≠ 0) :
    ∃ pre post, c :: cs = pre ++ post ∧ pre.length = utf8Size (c :: cs) ∧
      (∀ b ∈ pre, 0x80 ≤ b.val) ∧ (∀ tail, utf8Size (pre ++ tail) = utf8Size (c :: cs)) := by
  have hc1 : ¬ c.val < 0x80 := by omega
  by_cases h2 : 0xC2 ≤ c.val ∧ c.val ≤ 0xDF
  · cases cs with
    | nil => simp [utf8Size, hc1, h2] at hn
    | cons b1 r =>
      rw [utf8Size_two c b1 r hc1 h2] at hn ⊢
      by_cases hb1 : isCont b1 = true
      · rw [if_pos hb1]
        refine ⟨[c, b1], r, rfl, rfl, ?_, ?_⟩
        · intro b hb
          simp only [List.mem_cons, List.mem_singleton, List.not_mem_nil, or_false] at hb
          rcases hb with rfl | rfl
          · exact hc
          · exact isCont_ge _ hb1
        · intro tail
          simp only [List.cons_append, List.nil_append]
          rw [utf8Size_two c b1 tail hc1 h2, if_pos hb1]
      · rw [if_neg hb1] at hn
        exact absurd rfl hn
  · by_cases h3 : 0xE0 ≤ c.val ∧ c.val ≤ 0xEF
    · match cs, hn with
      | [], hn => simp [utf8Size, hc1, h2, h3] at hn
      | [_], hn => simp [utf8Size, hc1, h2, h3] at hn
      | b1 :: b2 :: r, hn =>
        rw [utf8Size_three c b1 b2 r hc1 h2 h3] at hn ⊢
        by_cases hcond : (if c.val = 0xE0 then 0xA0 else 0x80) ≤ b1.val ∧
            b1.val ≤ (if c.val = 0xED then 0x9F else 0xBF) ∧ isCont b2 = true
        · rw [if_pos hcond]
          have hb1v : 0x80 ≤ b1.val := by
            have := hcond.1
            split at this <;> omega
          refine ⟨[c, b1, b2], r, rfl, rfl, ?_, ?_⟩
          · intro b hb
            simp only [List.mem_cons, List.mem_singleton, List.not_mem_nil, or_false] at hb
            rcases hb with rfl | rfl | rfl
            · exact hc
            · exact hb1v
            · exact isCont_ge _ hcond.2.2
          · intro tail
            simp only [List.cons_append, List.nil_append]
            rw [utf8Size_three c b1 b2 tail hc1 h2 h3, if_pos hcond]
        · rw [if_neg hcond] at hn
          exact absurd rfl hn
    · by_cases h4 : 0xF0 ≤ c.val ∧ c.val ≤ 0xF4
      · match cs, hn with
        | [], hn => simp [utf8Size, hc1, h2, h3, h4] at hn
        | [_], hn => simp [utf8Size, hc1, h2, h3, h4] at hn
        | [_, _], hn => simp [utf8Size, hc1, h2, h3, h4] at hn
        | b1 :: b2 :: b3 :: r, hn =>
          rw [utf8Size_four c b1 b2 b3 r hc1 h2 h3 h4] at hn ⊢
          by_cases hcond : (if c.val = 0xF0 then 0x90 else 0x80) ≤ b1.val ∧
              b1.val ≤ (if c.val = 0xF4 then 0x8F else 0xBF) ∧ isCont b2 = true ∧
              isCont b3 = true
          · rw [if_pos hcond]
            have hb1v : 0x80 ≤ b1.val := by
              have := hcond.1
              split at this <;> omega
            refine ⟨[c, b1, b2, b3], r, rfl, rfl, ?_, ?_⟩
            · intro b hb
              simp only [List.mem_cons, List.mem_singleton, List.not_mem_nil, or_false] at hb
              rcases hb with rfl | rfl | rfl | rfl
              · exact hc
              · exact hb1v
              · exact isCont_ge _ hcond.2.2.1
              · exact isCont_ge _ hcond.2.2.2
            · intro tail
              simp only [List.cons_append, List.nil_append]
              rw [utf8Size_four c b1 b2 b3 tail hc1 h2 h3 h4, if_pos hcond]
          · rw [if_neg hcond] at hn
            exact absurd rfl hn
      · simp [utf8Size, hc1, h2, h3, h4] at hn

theorem hexVal_hexDigit (x : Nat) (hx : x < 16) : hexVal (hexDigit x) = some x := by
  have h : ∀ y : Fin 16, hexVal (hexDigit y.val) = some y.val := by decide
  exact h ⟨x, hx⟩

theorem getu4_control (v : Nat) (hv : v < 0x20) (tail : GoString) :
    getu4 (92 :: 117 :: 48 :: 48 :: hexDigit (v / 16) :: hexDigit (v % 16) :: tail) = some v := by
  have h0 : hexVal 48 = some 0 := by decide
  simp only [getu4, and_self, if_true, h0, hexVal_hexDigit (v / 16) (by omega),
    hexVal_hexDigit (v % 16) (by omega)]
  congr 1
  omega

theorem lexString_quote (fuel : Nat) (acc rest : GoString) :
    lexString (fuel + 1) acc (34 :: rest) = some (acc, rest) := by
  simp [lexString]

theorem lexString_escape (fuel : Nat) (acc rest : GoString) (e b : Byte) (he : e ≠ 117)
    (hb : simpleEscape e = some b) :
    lexString (fuel + 1) acc (92 :: e :: rest) = lexString fuel (acc ++ [b]) rest := by
  conv_lhs => unfold lexString
  rw [if_neg (by decide), if_pos rfl]
  simp only [if_neg he, hb]

theorem lexString_control (fuel : Nat) (acc tail : GoString) (c : Byte) (hc : c.val < 0x20) :
    lexString (fuel + 1) acc
        (92 :: 117 :: 48 :: 48 :: hexDigit (c.val / 16) :: hexDigit (c.val % 16) :: tail) =
      lexString fuel (acc ++ [c]) tail := by
  conv_lhs => unfold lexString
  rw [if_neg (by decide), if_pos rfl]
  simp only [if_true, getu4_control c.val hc tail]
  rw [if_neg (by omega)]
  have happ : appendRune c.val = [c] := by
    unfold appendRune
    rw [if_pos (by omega)]
    congr 1
    apply Fin.ext
    simp only [Fin.ofNat]
    omega
  rw [happ]
  rfl

theorem lexString_ascii (fuel : Nat) (acc rest : GoString) (c : Byte) (h34 : c ≠ 34)
    (h92 : c ≠ 92) (hlo : ¬ c.val < 0x20) (hhi : c.val < 0x80) :
    lexString (fuel + 1) acc (c :: rest) = lexString fuel (acc ++ [c]) rest := by
  conv_lhs => unfold lexString
  rw [if_neg h34, if_neg h92, if_neg hlo, if_pos hhi]

theorem lexString_multi (fuel : Nat) (acc rest : GoString) (c : Byte) (hc : 0x80 ≤ c.val)
    (hn : utf8Size (c :: rest) ≠ 0) :
    lexString (fuel + 1) acc (c :: rest) =
      lexString fuel (acc ++ (c :: rest).take (utf8Size (c :: rest)))
        ((c :: rest).drop (utf8Size (c :: rest))) := by
  have h34 : c ≠ 34 := by intro e; rw [e] at hc; exact absurd hc (by decide)
  have h92 : c ≠ 92 := by intro e; rw [e] at hc; exact absurd hc (by decide)
  conv_lhs => unfold lexString
  rw [if_neg h34, if_neg h92, if_neg (by omega), if_neg (by omega), if_neg hn]

/-- The string lexer reads back the string the encoder wrote, when it is valid
UTF-8. -/
theorem lexString_encodeStringBody (s : GoString) (hs : ValidUTF8 s) :
    ∀ (fuel : Nat) (acc rest : GoString), (encodeStringBody s).length < fuel →
      lexString fuel acc (encodeStringBody s ++ 34 :: rest) = some (acc ++ s, rest) := by
  induction hs with
  | nil =>
    intro fuel acc rest hfuel
    obtain ⟨f, rfl⟩ : ∃ f, fuel = f + 1 := ⟨fuel - 1, by omega⟩
    simp only [encodeStringBody, List.nil_append, List.append_nil]
    exact lexString_quote f acc rest
  | rune s hn _ ih =>
    intro fuel acc rest hfuel
    obtain ⟨f, rfl⟩ : ∃ f, fuel = f + 1 := ⟨fuel - 1, by omega⟩
    cases s with
    | nil => simp [utf8Size] at hn
    | cons c cs =>
      by_cases hhi : c.val < 0x80
      · have hsz : utf8Size (c :: cs) = 1 := by simp [utf8Size, hhi]
        rw [hsz] at ih
        simp only [List.drop_succ_cons, List.drop_zero] at ih
        have hlen : (encodeStringBody cs).length < f := by
          have : (encodeStringBody (c :: cs)).length ≥ (encodeStringBody cs).length + 1 := by
            conv_lhs => unfold encodeStringBody
            rw [List.length_append]
            split
            · simp; omega
            · split
              · simp; omega
              · split <;> simp <;> omega
          omega
        have hfinal : acc ++ [c] ++ cs = acc ++ c :: cs := by simp
        conv_lhs => unfold encodeStringBody
        by_cases h34 : c = 34
        · rw [if_pos h34]
          simp only [List.cons_append, List.nil_append]
          rw [lexString_escape f acc _ 34 34 (by decide) (by decide), ih f _ rest hlen, h34]
          simp
        · rw [if_neg h34]
          by_cases h92 : c = 92
          · rw [if_pos h92]
            simp only [List.cons_append, List.nil_append]
            rw [lexString_escape f acc _ 92 92 (by decide) (by decide), ih f _ rest hlen, h92]
            simp
          · rw [if_neg h92]
            by_cases hlo : c.val < 0x20
            · rw [if_pos hlo]
              simp only [List.cons_append, List.nil_append]
              rw [lexString_control f acc _ c hlo, ih f _ rest hlen, hfinal]
            · rw [if_neg hlo]
              simp only [List.cons_append, List.nil_append]
              rw [lexString_ascii f acc _ c h34 h92 hlo hhi, ih f _ rest hlen, hfinal]
      · have hc : 0x80 ≤ c.val := by omega
        obtain ⟨pre, post, hsplit, hprelen, hpre, hsize⟩ := utf8Size_multi c cs hc hn
        have hdrop : (c :: cs).drop (utf8Size (c :: cs)) = post := by
          rw [← hprelen, hsplit]
          simp
        rw [hdrop] at ih
        have henc : encodeStringBody (c :: cs) = pre ++ encodeStringBody post := by
          rw [hsplit]
          exact encodeStringBody_raw pre post hpre
        have hpos : 0 < pre.length := by
          rw [hprelen]
          exact Nat.pos_of_ne_zero hn
        obtain ⟨d, ds, hd⟩ : ∃ d ds, pre = d :: ds := by
          cases pre with
          | nil => simp at hpos
          | cons d ds => exact ⟨d, ds, rfl⟩
        have hdc : d = c := by
          rw [hd, List.cons_append] at hsplit
          exact (List.cons.inj hsplit).1.symm
        rw [henc] at hfuel ⊢
        rw [List.length_append] at hfuel
        have hsz2 : utf8Size (pre ++ (encodeStringBody post ++ 34 :: rest)) = pre.length := by
          rw [hsize, hprelen]
        rw [List.append_assoc]
        have hform : pre ++ (encodeStringBody post ++ 34 :: rest) =
            c :: (ds ++ (encodeStringBody post ++ 34 :: rest)) := by
          rw [hd, hdc]
          rfl
        rw [hform] at hsz2 ⊢
        rw [lexString_multi f acc _ c hc (by rw [hsz2]; omega), hsz2, ← hform]
        simp only [List.take_left', List.drop_left']
        rw [ih f _ rest (by omega), hsplit]
        simp

theorem skipSpace_cons (c : Byte) (cs : GoString) (h : isSpace c = false) :
    skipSpace (c :: cs) = c :: cs := by
  simp [skipSpace, h]

theorem lexKey_encodeString (k : GoString) (hk : ValidUTF8 k) (rest : GoString) :
    lexKey (encodeString k ++ 58 :: rest) = some (k, rest) := by
  unfold lexKey encodeString
  rw [List.cons_append, skipSpace_cons 34 _ (by decide)]
  simp only [if_true, List.append_assoc, List.singleton_append]
  rw [lexString_encodeStringBody k hk _ [] (58 :: rest) (by simp; omega)]
  simp only [List.nil_append]
  rw [skipSpace_cons 58 _ (by decide)]
  simp

theorem decodeValue_literal (fuel : Nat) (stack : List Frame) (rest : GoString) :
    decodeValue (fuel + 1) .value stack (bytes "null" ++ rest) =
      decodeValue fuel (.after .null) stack rest ∧
    decodeValue (fuel + 1) .value stack (bytes "true" ++ rest) =
      decodeValue fuel (.after (.bool true)) stack rest ∧
    decodeValue (fuel + 1) .value stack (bytes "false" ++ rest) =
      decodeValue fuel (.after (.bool false)) stack rest := by
  have hn : bytes "null" = [110, 117, 108, 108] := by decide
  have ht : bytes "true" = [116, 114, 117, 101] := by decide
  have hf : bytes "false" = [102, 97, 108, 115, 101] := by decide
  refine ⟨?_, ?_, ?_⟩
  · conv_lhs => unfold decodeValue
    rw [hn, List.cons_append, skipSpace_cons 110 _ (by decide)]
    simp [show isDigit (110 : Byte) = false by decide, ht, hf]
  · conv_lhs => unfold decodeValue
    rw [ht, List.cons_append, skipSpace_cons 116 _ (by decide)]
    simp [show isDigit (116 : Byte) = false by decide]
  · conv_lhs => unfold decodeValue
    rw [hf, List.cons_append, skipSpace_cons 102 _ (by decide)]
    simp [show isDigit (102 : Byte) = false by decide, ht]

theorem decodeValue_string (fuel : Nat) (stack : List Frame) (s : GoString) (hs : ValidUTF8 s)
    (rest : GoString) :
    decodeValue (fuel + 1) .value stack (encodeString s ++ rest) =
      decodeValue fuel (.after (.string s)) stack rest := by
  conv_lhs => unfold decodeValue
  unfold encodeString
  rw [List.cons_append, skipSpace_cons 34 _ (by decide)]
  simp only [List.append_assoc, List.singleton_append]
  rw [if_neg (by decide), if_neg (by decide), if_pos trivial,
    lexString_encodeStringBody s hs _ [] rest (by simp; omega)]
  simp

theorem natDigits_head_digit (n : Nat) : ∃ d cs, d < 10 ∧ natDigits n = digitChar d :: cs := by
  by_cases h0 : n = 0
  · subst h0
    exact ⟨0, [], by omega, rfl⟩
  · obtain ⟨d, cs, _, hd10, hhead⟩ := natDigitsAux_head (n + 1) n [] (by omega) (by omega)
    exact ⟨d, cs, hd10, hhead⟩

theorem encodeNumber_head (q : ℚ) :
    ∃ c cs, encodeNumber q = c :: cs ∧ (c = 45 ∨ isDigit c = true) := by
  unfold encodeNumber
  by_cases hq : q < 0
  · rw [if_pos hq]
    exact ⟨45, _, rfl, Or.inl rfl⟩
  · rw [if_neg hq]
    obtain ⟨d, cs, hd, hn⟩ := natDigits_head_digit (q.num.natAbs * 5 ^ (bitLength q.den q.den - 1))
    rw [hn]
    exact ⟨digitChar d, _, rfl, Or.inr (isDigit_digitChar d hd)⟩

set_option maxRecDepth 100000 in
theorem numberHead_class : ∀ c : Byte, (c = 45 ∨ isDigit c = true) →
    isSpace c = false ∧ c ≠ 123 ∧ c ≠ 91 ∧ c ≠ 34 ∧ c ≠ 93 ∧ c ≠ 125 := by
  decide

theorem decodeValue_number (fuel : Nat) (stack : List Frame) (q : ℚ) (hq : IsFloat64 q)
    (rest : GoString) (hrest : NumberEnd rest) :
    decodeValue (fuel + 1) .value stack (encodeNumber q ++ rest) =
      decodeValue fuel (.after (.number q)) stack rest := by
  have hl := lexNumber_encodeNumber q hq.1 rest hrest
  obtain ⟨c, cs, hc, hhead⟩ := encodeNumber_head q
  obtain ⟨hsp, h1, h2, h3, _, _⟩ := numberHead_class c hhead
  rw [hc, List.cons_append] at hl ⊢
  conv_lhs => unfold decodeValue
  rw [skipSpace_cons c _ hsp]
  simp only [if_neg h1, if_neg h2, if_neg h3, if_pos hhead, hl, hq.2]

theorem decodeValue_emptyArray (fuel : Nat) (stack : List Frame) (rest : GoString)
    (hdepth : stack.length + 1 ≤ maxNestingDepth) :
    decodeValue (fuel + 1) .value stack (91 :: 93 :: rest) =
      decodeValue fuel (.after (.array [])) stack rest := by
  conv_lhs => unfold decodeValue
  rw [skipSpace_cons 91 _ (by decide)]
  simp only [if_neg (show ¬ (91 : Byte) = 123 by decide), if_pos, if_neg (show ¬ maxNestingDepth < stack.length + 1 by omega)]
  rw [skipSpace_cons 93 _ (by decide)]
  simp

theorem decodeValue_openArray (fuel : Nat) (stack : List Frame) (d : Byte) (rest : GoString)
    (hdepth : stack.length + 1 ≤ maxNestingDepth) (hsp : isSpace d = false) (hd : d ≠ 93) :
    decodeValue (fuel + 1) .value stack (91 :: d :: rest) =
      decodeValue fuel .value (.arr [] :: stack) (d :: rest) := by
  conv_lhs => unfold decodeValue
  rw [skipSpace_cons 91 _ (by decide)]
  simp only [if_neg (show ¬ (91 : Byte) = 123 by decide), if_pos, if_neg (show ¬ maxNestingDepth < stack.length + 1 by omega)]
  rw [skipSpace_cons d _ hsp]
  simp [hd]

theorem decodeValue_emptyObject (fuel : Nat) (stack : List Frame) (rest : GoString)
    (hdepth : stack.length + 1 ≤ maxNestingDepth) :
    decodeValue (fuel + 1) .value stack (123 :: 125 :: rest) =
      decodeValue fuel (.after (.object [])) stack rest := by
  conv_lhs => unfold decodeValue
  rw [skipSpace_cons 123 _ (by decide)]
  simp only [if_pos, if_neg (show ¬ maxNestingDepth < stack.length + 1 by omega)]
  rw [skipSpace_cons 125 _ (by decide)]
  simp

theorem decodeValue_openObject (fuel : Nat) (stack : List Frame) (k : GoString)
    (hk : ValidUTF8 k) (rest : GoString) (hdepth : stack.length + 1 ≤ maxNestingDepth) :
    decodeValue (fuel + 1) .value stack (123 :: (encodeString k ++ 58 :: rest)) =
      decodeValue fuel .value (.obj [] k :: stack) rest := by
  have hkey := lexKey_encodeString k hk rest
  conv_lhs => unfold decodeValue
  rw [skipSpace_cons 123 _ (by decide)]
  simp only [if_pos, if_neg (show ¬ maxNestingDepth < stack.length + 1 by omega)]
  unfold encodeString at hkey ⊢
  rw [List.cons_append] at hkey ⊢
  rw [skipSpace_cons 34 _ (by decide)]
  simp only [if_neg (show ¬ (34 : Byte) = 125 by decide), hkey]

theorem decodeValue_afterElem (fuel : Nat) (stack : List Frame) (elems : List JSONValue)
    (v : JSONValue) (rest : GoString) :
    decodeValue (fuel + 1) (.after v) (.arr elems :: stack) (44 :: rest) =
      decodeValue fuel .value (.arr (elems ++ [v]) :: stack) rest ∧
    decodeValue (fuel + 1) (.after v) (.arr elems :: stack) (93 :: rest) =
      decodeValue fuel (.after (.array (elems ++ [v]))) stack rest := by
  constructor
  · conv_lhs => unfold decodeValue
    rw [skipSpace_cons 44 _ (by decide)]
    simp
  · conv_lhs => unfold decodeValue
    rw [skipSpace_cons 93 _ (by decide)]
    simp

theorem decodeValue_afterMember (fuel : Nat) (stack : List Frame) (members : Claims)
    (key : GoString) (v : JSONValue) (rest : GoString) :
    (∀ k, ValidUTF8 k → ∀ rest1,
      decodeValue (fuel + 1) (.after v) (.obj members key :: stack)
          (44 :: (encodeString k ++ 58 :: rest1)) =
        decodeValue fuel .value (.obj (claimsSet members key v) k :: stack) rest1) ∧
    decodeValue (fuel + 1) (.after v) (.obj members key :: stack) (125 :: rest) =
      decodeValue fuel (.after (.object (claimsSet members key v))) stack rest := by
  constructor
  · intro k hk rest1
    conv_lhs => unfold decodeValue
    rw [skipSpace_cons 44 _ (by decide)]
    simp [lexKey_encodeString k hk rest1]
  · conv_lhs => unfold decodeValue
    rw [skipSpace_cons 125 _ (by decide)]
    simp

theorem claimsSet_fresh (members : Claims) (key : GoString) (v : JSONValue)
    (h : key ∉ members.map Prod.fst) : claimsSet members key v = members ++ [(key, v)] := by
  induction members with
  | nil => rfl
  | cons kv members ih =>
    obtain ⟨k, w⟩ := kv
    simp only [List.map_cons, List.mem_cons, not_or] at h
    simp only [claimsSet, List.cons_append]
    rw [if_neg (fun hk => h.1 hk.symm), ih h.2]

theorem numberEnd_cons (c : Byte) (cs : GoString)
    (h : isDigit c = false ∧ c ≠ 46 ∧ c ≠ 101 ∧ c ≠ 69) : NumberEnd (c :: cs) := by
  intro c1 cs1 heq
  simp only [List.cons.injEq] at heq
  rw [← heq.1]
  exact h

theorem numberEnd_nil : NumberEnd [] := by
  intro c cs h
  cases h

theorem numberEnd_encodeElems (xs : List JSONValue) (rest : GoString) :
    NumberEnd (encodeElems false xs ++ rest) := by
  cases xs with
  | nil =>
    simp only [encodeElems, List.singleton_append]
    exact numberEnd_cons 93 _ (by decide)
  | cons x xs =>
    simp only [encodeElems, List.cons_append, Bool.false_eq_true, if_false, List.nil_append]
    exact numberEnd_cons 44 _ (by decide)

theorem numberEnd_encodeMembers (kvs : List (GoString × JSONValue)) (rest : GoString) :
    NumberEnd (encodeMembers false kvs ++ rest) := by
  cases kvs with
  | nil =>
    simp only [encodeMembers, List.singleton_append]
    exact numberEnd_cons 125 _ (by decide)
  | cons kv kvs =>
    obtain ⟨k, v⟩ := kv
    simp only [encodeMembers, List.cons_append, Bool.false_eq_true, if_false, List.nil_append]
    exact numberEnd_cons 44 _ (by decide)

theorem jsonEncode_head (v : JSONValue) :
    ∃ d r, jsonEncode v = d :: r ∧ isSpace d = false ∧ d ≠ 93 := by
  cases v with
  | null => exact ⟨110, [117, 108, 108], by simp only [jsonEncode]; decide, by decide, by decide⟩
  | bool b =>
    cases b
    · exact ⟨102, [97, 108, 115, 101], by simp only [jsonEncode]; decide, by decide, by decide⟩
    · exact ⟨116, [114, 117, 101], by simp only [jsonEncode]; decide, by decide, by decide⟩
  | number q =>
    obtain ⟨c, cs, hc, hhead⟩ := encodeNumber_head q
    obtain ⟨hsp, _, _, _, h93, _⟩ := numberHead_class c hhead
    exact ⟨c, cs, by simp only [jsonEncode]; exact hc, hsp, h93⟩
  | string s =>
    exact ⟨34, encodeStringBody s ++ [34], by simp only [jsonEncode, encodeString],
      by decide, by decide⟩
  | array xs => exact ⟨91, encodeElems true xs, by simp only [jsonEncode], by decide, by decide⟩
  | object kvs =>
    exact ⟨123, encodeMembers true kvs, by simp only [jsonEncode], by decide, by decide⟩

theorem wellFormedMembers_nodup (kvs : List (GoString × JSONValue))
    (h : WellFormedMembers kvs) : (kvs.map Prod.fst).Nodup := by
  induction kvs with
  | nil => exact List.nodup_nil
  | cons kv kvs ih =>
    obtain ⟨k, v⟩ := kv
    simp only [WellFormedMembers] at h
    simp only [List.map_cons, List.nodup_cons]
    exact ⟨h.2.1, ih h.2.2.2⟩

mutual
/-- The decoder reads back the value the encoder wrote: on the text of a well
formed value `v` that fits the nesting limit, with more fuel than input, it
arrives after `v`, at the input behind the text, with more fuel than input
left. -/
theorem decodeValue_jsonEncode : ∀ (v : JSONValue) (stack : List Frame) (rest : GoString)
    (fuel : Nat), WellFormed v → NumberEnd rest →
    stack.length + nesting v ≤ maxNestingDepth → (jsonEncode v ++ rest).length < fuel →
    ∃ fuel1, rest.length < fuel1 ∧
      decodeValue fuel .value stack (jsonEncode v ++ rest) =
        decodeValue fuel1 (.after v) stack rest
  | .null, stack, rest, fuel, _, _, _, hfuel => by
    obtain ⟨f, rfl⟩ : ∃ f, fuel = f + 1 := ⟨fuel - 1, by omega⟩
    have hlen : (bytes "null").length = 4 := by decide
    simp only [jsonEncode, List.length_append, hlen] at hfuel ⊢
    exact ⟨f, by omega, (decodeValue_literal f stack rest).1⟩
  | .bool true, stack, rest, fuel, _, _, _, hfuel => by
    obtain ⟨f, rfl⟩ : ∃ f, fuel = f + 1 := ⟨fuel - 1, by omega⟩
    have hlen : (bytes "true").length = 4 := by decide
    simp only [jsonEncode, if_true, List.length_append, hlen] at hfuel ⊢
    exact ⟨f, by omega, (decodeValue_literal f stack rest).2.1⟩
  | .bool false, stack, rest, fuel, _, _, _, hfuel => by
    obtain ⟨f, rfl⟩ : ∃ f, fuel = f + 1 := ⟨fuel - 1, by omega⟩
    have hlen : (bytes "false").length = 5 := by decide
    simp only [jsonEncode, Bool.false_eq_true, if_false, List.length_append, hlen] at hfuel ⊢
    exact ⟨f, by omega, (decodeValue_literal f stack rest).2.2⟩
  | .number q, stack, rest, fuel, hwf, hrest, _, hfuel => by
    obtain ⟨f, rfl⟩ : ∃ f, fuel = f + 1 := ⟨fuel - 1, by omega⟩
    simp only [WellFormed] at hwf
    obtain ⟨c, cs, hc, _⟩ := encodeNumber_head q
    simp only [jsonEncode, List.length_append] at hfuel ⊢
    have hpos : 0 < (encodeNumber q).length := by rw [hc]; simp
    exact ⟨f, by omega, decodeValue_number f stack q hwf rest hrest⟩
  | .string s, stack, rest, fuel, hwf, _, _, hfuel => by
    obtain ⟨f, rfl⟩ : ∃ f, fuel = f + 1 := ⟨fuel - 1, by omega⟩
    simp only [WellFormed] at hwf
    simp only [jsonEncode, List.length_append] at hfuel ⊢
    have hpos : 0 < (encodeString s).length := by simp [encodeString]
    exact ⟨f, by omega, decodeValue_string f stack s hwf rest⟩
  | .array [], stack, rest, fuel, _, _, hdepth, hfuel => by
    obtain ⟨f, rfl⟩ : ∃ f, fuel = f + 1 := ⟨fuel - 1, by omega⟩
    simp only [nesting, nestingElems] at hdepth
    simp only [jsonEncode, encodeElems, List.cons_append, List.nil_append,
      List.length_cons] at hfuel ⊢
    exact ⟨f, by omega, decodeValue_emptyArray f stack rest (by omega)⟩
  | .array (x :: xs), stack, rest, fuel, hwf, _, hdepth, hfuel => by
    obtain ⟨f, rfl⟩ : ∃ f, fuel = f + 1 := ⟨fuel - 1, by omega⟩
    simp only [WellFormed, WellFormedElems] at hwf
    simp only [nesting, nestingElems] at hdepth
    simp only [jsonEncode, encodeElems, if_true, List.cons_append, List.nil_append,
      List.append_assoc, List.length_cons] at hfuel ⊢
    have hstep : decodeValue (f + 1) .value stack
          (91 :: (jsonEncode x ++ (encodeElems false xs ++ rest))) =
        decodeValue f .value (.arr [] :: stack)
          (jsonEncode x ++ (encodeElems false xs ++ rest)) := by
      obtain ⟨d, r, hd, hsp, hne⟩ := jsonEncode_head x
      rw [hd, List.cons_append]
      exact decodeValue_openArray f stack d _ (by omega) hsp hne
    obtain ⟨f1, hf1, h1⟩ := decodeValue_jsonEncode x (.arr [] :: stack)
      (encodeElems false xs ++ rest) f hwf.1 (numberEnd_encodeElems xs rest)
      (by simp only [List.length_cons]; omega) (by omega)
    obtain ⟨f2, hf2, h2⟩ := decodeValue_encodeElems xs stack rest f1 [] x hwf.2
      (by omega) hf1
    exact ⟨f2, hf2, by rw [hstep, h1, h2]; rfl⟩
  | .object [], stack, rest, fuel, _, _, hdepth, hfuel => by
    obtain ⟨f, rfl⟩ : ∃ f, fuel = f + 1 := ⟨fuel - 1, by omega⟩
    simp only [nesting, nestingMembers] at hdepth
    simp only [jsonEncode, encodeMembers, List.cons_append, List.nil_append,
      List.length_cons] at hfuel ⊢
    exact ⟨f, by omega, decodeValue_emptyObject f stack rest (by omega)⟩
  | .object ((k, v) :: kvs), stack, rest, fuel, hwf, _, hdepth, hfuel => by
    obtain ⟨f, rfl⟩ : ∃ f, fuel = f + 1 := ⟨fuel - 1, by omega⟩
    simp only [WellFormed, WellFormedMembers] at hwf
    simp only [nesting, nestingMembers] at hdepth
    simp only [jsonEncode, encodeMembers, if_true, List.cons_append, List.nil_append,
      List.append_assoc, List.length_cons, List.length_append] at hfuel ⊢
    have hstep := decodeValue_openObject f stack k hwf.1
      (jsonEncode v ++ (encodeMembers false kvs ++ rest)) (by omega)
    obtain ⟨f1, hf1, h1⟩ := decodeValue_jsonEncode v (.obj [] k :: stack)
      (encodeMembers false kvs ++ rest) f hwf.2.2.1 (numberEnd_encodeMembers kvs rest)
      (by simp only [List.length_cons]; omega)
      (by simp only [List.length_append]; omega)
    obtain ⟨f2, hf2, h2⟩ := decodeValue_encodeMembers kvs stack rest f1 [] k v hwf.2.2.2
      (by
        simp only [List.map_nil, List.nil_append, List.nodup_cons]
        exact ⟨hwf.2.1, wellFormedMembers_nodup kvs hwf.2.2.2⟩)
      (by omega) hf1
    exact ⟨f2, hf2, by rw [hstep, h1, h2]; rfl⟩
/-- The same for the rest of an array, after the element `v`. -/
theorem decodeValue_encodeElems : ∀ (xs : List JSONValue) (stack : List Frame)
    (rest : GoString) (fuel : Nat) (elems : List JSONValue) (v : JSONValue),
    WellFormedElems xs → stack.length + 1 + nestingElems xs ≤ maxNestingDepth →
    (encodeElems false xs ++ rest).length < fuel →
    ∃ fuel1, rest.length < fuel1 ∧
      decodeValue fuel (.after v) (.arr elems :: stack) (encodeElems false xs ++ rest) =
        decodeValue fuel1 (.after (.array (elems ++ v :: xs))) stack rest
  | [], stack, rest, fuel, elems, v, _, _, hfuel => by
    obtain ⟨f, rfl⟩ : ∃ f, fuel = f + 1 := ⟨fuel - 1, by omega⟩
    simp only [encodeElems, List.cons_append, List.nil_append, List.length_cons] at hfuel ⊢
    exact ⟨f, by omega, (decodeValue_afterElem f stack elems v rest).2⟩
  | x :: xs, stack, rest, fuel, elems, v, hwf, hdepth, hfuel => by
    obtain ⟨f, rfl⟩ : ∃ f, fuel = f + 1 := ⟨fuel - 1, by omega⟩
    simp only [WellFormedElems] at hwf
    simp only [nestingElems] at hdepth
    simp only [encodeElems, Bool.false_eq_true, if_false, List.cons_append, List.nil_append,
      List.append_assoc, List.length_cons] at hfuel ⊢
    have hstep := (decodeValue_afterElem f stack elems v
      (jsonEncode x ++ (encodeElems false xs ++ rest))).1
    obtain ⟨f1, hf1, h1⟩ := decodeValue_jsonEncode x (.arr (elems ++ [v]) :: stack)
      (encodeElems false xs ++ rest) f hwf.1 (numberEnd_encodeElems xs rest)
      (by simp only [List.length_cons]; omega) (by omega)
    obtain ⟨f2, hf2, h2⟩ := decodeValue_encodeElems xs stack rest f1 (elems ++ [v]) x hwf.2
      (by omega) hf1
    exact ⟨f2, hf2, by rw [hstep, h1, h2]; simp⟩
/-- The same for the rest of an object, after the value `v` of the member `key`;
no key occurs twice. -/
theorem decodeValue_encodeMembers : ∀ (kvs : List (GoString × JSONValue))
    (stack : List Frame) (rest : GoString) (fuel : Nat) (members : Claims) (key : GoString)
    (v : JSONValue), WellFormedMembers kvs →
    (members.map Prod.fst ++ key :: kvs.map Prod.fst).Nodup →
    stack.length + 1 + nestingMembers kvs ≤ maxNestingDepth →
    (encodeMembers false kvs ++ rest).length < fuel →
    ∃ fuel1, rest.length < fuel1 ∧
      decodeValue fuel (.after v) (.obj members key :: stack)
          (encodeMembers false kvs ++ rest) =
        decodeValue fuel1 (.after (.object (members ++ (key, v) :: kvs))) stack rest
  | [], stack, rest, fuel, members, key, v, _, hnodup, _, hfuel => by
    obtain ⟨f, rfl⟩ : ∃ f, fuel = f + 1 := ⟨fuel - 1, by omega⟩
    simp only [encodeMembers, List.cons_append, List.nil_append, List.length_cons] at hfuel ⊢
    have hfresh : key ∉ members.map Prod.fst := by
      intro hmem
      have := (List.nodup_append.mp hnodup).2.2
      exact this hmem (List.mem_cons_self _ _)
    refine ⟨f, by omega, ?_⟩
    rw [(decodeValue_afterMember f stack members key v rest).2, claimsSet_fresh members key v hfresh]
  | (k, w) :: kvs, stack, rest, fuel, members, key, v, hwf, hnodup, hdepth, hfuel => by
    obtain ⟨f, rfl⟩ : ∃ f, fuel = f + 1 := ⟨fuel - 1, by omega⟩
    simp only [WellFormedMembers] at hwf
    simp only [nestingMembers] at hdepth
    simp only [encodeMembers, Bool.false_eq_true, if_false, List.cons_append, List.nil_append,
      List.append_assoc, List.length_cons, List.length_append] at hfuel ⊢
    have hfresh : key ∉ members.map Prod.fst := by
      intro hmem
      have := (List.nodup_append.mp hnodup).2.2
      exact this hmem (List.mem_cons_self _ _)
    have hstep := (decodeValue_afterMember f stack members key v rest).1 k hwf.1
      (jsonEncode w ++ (encodeMembers false kvs ++ rest))
    rw [claimsSet_fresh members key v hfresh] at hstep
    obtain ⟨f1, hf1, h1⟩ := decodeValue_jsonEncode w (.obj (members ++ [(key, v)]) k :: stack)
      (encodeMembers false kvs ++ rest) f hwf.2.2.1 (numberEnd_encodeMembers kvs rest)
      (by simp only [List.length_cons]; omega)
      (by simp only [List.length_append]; omega)
    obtain ⟨f2, hf2, h2⟩ := decodeValue_encodeMembers kvs stack rest f1
      (members ++ [(key, v)]) k w hwf.2.2.2
      (by
        simpa [List.map_append, List.append_assoc] using hnodup)
      (by omega) hf1
    exact ⟨f2, hf2, by rw [hstep, h1, h2]; simp⟩
end

/-- The JSON half of the round trip: `json.Unmarshal` returns the claim set `c`
on the JSON text of `c`, when `c` is well formed and fits the nesting limit. -/
theorem jsonUnmarshal_jsonEncode (c : Claims) (hwf : WellFormed (.object c))
    (hdepth : nesting (.object c) ≤ maxNestingDepth) :
    jsonUnmarshal (jsonEncode (.object c)) = .ok c := by
  obtain ⟨f, hf, h⟩ := decodeValue_jsonEncode (.object c) [] []
    ((jsonEncode (.object c)).length + 1) hwf numberEnd_nil
    (by simpa using hdepth) (by simp)
  obtain ⟨g, rfl⟩ : ∃ g, f = g + 1 := ⟨f - 1, by omega⟩
  rw [List.append_nil] at h
  unfold jsonUnmarshal
  rw [h]
  simp [decodeValue, skipSpace]

/-! ### C2: the round trip through `json.Unmarshal` -/

theorem validUTF8_ascii : ∀ s : GoString,
    s.all (fun b => decide (b.val < 0x80)) = true → ValidUTF8 s
  | [], _ => .nil
  | b :: bs, h => by
    simp only [List.all_cons, Bool.and_eq_true, decide_eq_true_eq] at h
    have hb : utf8Size (b :: bs) = 1 := by
      simp [utf8Size, h.1]
    refine .rune _ (by rw [hb]; decide) ?_
    rw [hb]
    exact validUTF8_ascii bs h.2

theorem rat_natCast_parts (n : Nat) :
    ((n : ℚ)).num.natAbs = n ∧ ((n : ℚ)).den = 1 := by
  rw [Rat.num_natCast, Rat.den_natCast]
  exact ⟨rfl, rfl⟩

theorem isFloat64_2000 : IsFloat64 2000 := by
  have h : roundPos 2000 1 = some (8796093022208000, -42) := by decide
  have hc : (2000 : ℚ) = ((2000 : ℕ) : ℚ) := by norm_num
  have hn : ((2000 : ℚ)).num.natAbs = 2000 := by rw [hc]; exact (rat_natCast_parts 2000).1
  have hd : ((2000 : ℚ)).den = 1 := by rw [hc]; exact (rat_natCast_parts 2000).2
  refine ⟨?_, ?_⟩
  · rw [hd]; decide
  · unfold roundFloat64
    rw [if_neg (by norm_num), hn, hd, h]
    norm_num

theorem roundFloat64_2pow53_add_one :
    roundFloat64 9007199254740993 = some 9007199254740992 := by
  have h : roundPos 9007199254740993 1 = some (4503599627370496, 1) := by decide
  have hc : (9007199254740993 : ℚ) = ((9007199254740993 : ℕ) : ℚ) := by norm_num
  have hn : ((9007199254740993 : ℚ)).num.natAbs = 9007199254740993 := by
    rw [hc]; exact (rat_natCast_parts 9007199254740993).1
  have hd : ((9007199254740993 : ℚ)).den = 1 := by
    rw [hc]; exact (rat_natCast_parts 9007199254740993).2
  unfold roundFloat64
  rw [if_neg (by norm_num), hn, hd, h]
  norm_num

theorem decodeValue_numberRounded (fuel : Nat) (stack : List Frame) (q f : ℚ)
    (hden : q.den = 2 ^ (bitLength q.den q.den - 1)) (hround : roundFloat64 q = some f)
    (rest : GoString) (hrest : NumberEnd rest) :
    decodeValue (fuel + 1) .value stack (encodeNumber q ++ rest) =
      decodeValue fuel (.after (.number f)) stack rest := by
  have hl := lexNumber_encodeNumber q hden rest hrest
  obtain ⟨c, cs, hc, hhead⟩ := encodeNumber_head q
  obtain ⟨hsp, h1, h2, h3, _, _⟩ := numberHead_class c hhead
  rw [hc, List.cons_append] at hl ⊢
  conv_lhs => unfold decodeValue
  rw [skipSpace_cons c _ hsp]
  simp only [if_neg h1, if_neg h2, if_neg h3, if_pos hhead, hl, hround]

theorem decodeValue_tooDeep (fuel : Nat) (stack : List Frame) (rest : GoString)
    (hdepth : maxNestingDepth < stack.length + 1) :
    decodeValue (fuel + 1) .value stack (91 :: rest) = none := by
  conv_lhs => unfold decodeValue
  rw [skipSpace_cons 91 _ (by decide)]
  simp only [if_neg (show ¬ (91 : Byte) = 123 by decide), if_pos, if_pos hdepth]

theorem jsonEncode_deepValue (n : Nat) :
    jsonEncode (deepValue (n + 1)) = 91 :: (jsonEncode (deepValue n) ++ [93]) := by
  simp [deepValue, jsonEncode, encodeElems]

theorem decodeValue_deepValue : ∀ (n : Nat) (fuel : Nat) (stack : List Frame) (rest : GoString),
    maxNestingDepth < stack.length + (n + 1) →
    decodeValue fuel .value stack (jsonEncode (deepValue (n + 1)) ++ rest) = none
  | _, 0, _, _, _ => by unfold decodeValue; rfl
  | 0, f + 1, stack, rest, h => by
    rw [jsonEncode_deepValue, List.cons_append]
    exact decodeValue_tooDeep f stack _ h
  | n + 1, f + 1, stack, rest, h => by
    rw [jsonEncode_deepValue, List.cons_append]
    by_cases hd : maxNestingDepth < stack.length + 1
    · exact decodeValue_tooDeep f stack _ hd
    · have ih := decodeValue_deepValue n f (.arr [] :: stack) ([93] ++ rest)
        (by simp only [List.length_cons]; omega)
      rw [jsonEncode_deepValue, List.cons_append] at ih ⊢
      rw [List.cons_append, decodeValue_openArray f stack 91 _ (by omega) (by decide) (by decide)]
      rw [List.append_assoc]
      exact ih

theorem jsonUnmarshal_deepValue (k : GoString) (hk : ValidUTF8 k) (n : Nat)
    (hn : maxNestingDepth < n + 2) :
    jsonUnmarshal (jsonEncode (.object [(k, deepValue (n + 1))])) =
      .error (bytes "json: invalid input") := by
  have henc : jsonEncode (.object [(k, deepValue (n + 1))]) =
      123 :: (encodeString k ++ 58 :: (jsonEncode (deepValue (n + 1)) ++ [125])) := by
    simp [jsonEncode, encodeMembers]
  unfold jsonUnmarshal
  rw [henc]
  by_cases hd : (0 : Nat) + 1 ≤ maxNestingDepth
  · rw [decodeValue_openObject _ [] k hk _ (by simpa using hd),
      decodeValue_deepValue n _ _ _ (by simp only [List.length_cons, List.length_nil]; omega)]
  · exfalso
    exact hd (by decide)

theorem jsonUnmarshal_rounded (k : GoString) (hk : ValidUTF8 k) (q f : ℚ)
    (hden : q.den = 2 ^ (bitLength q.den q.den - 1)) (hround : roundFloat64 q = some f) :
    jsonUnmarshal (jsonEncode (.object [(k, .number q)])) = .ok [(k, .number f)] := by
  have henc : jsonEncode (.object [(k, .number q)]) =
      123 :: (encodeString k ++ 58 :: (encodeNumber q ++ [125])) := by
    simp [jsonEncode, encodeMembers]
  unfold jsonUnmarshal
  rw [henc, List.length_cons, decodeValue_openObject _ [] k hk _ (by decide)]
  obtain ⟨c, cs, hc, _⟩ := encodeNumber_head q
  have hlen : (encodeString k ++ 58 :: (encodeNumber q ++ [125])).length =
      ((encodeString k).length + cs.length) + 1 + 1 + 1 := by
    rw [hc]; simp; omega
  rw [hlen, decodeValue_numberRounded _ _ q f hden hround [125] (numberEnd_cons 125 [] (by decide)),
    (decodeValue_afterMember _ [] [] k (.number f) []).2]
  simp [decodeValue, claimsSet, skipSpace]


theorem encodeNumber_natCast (n : Nat) :
    encodeNumber (n : ℚ) = natDigits n := by
  unfold encodeNumber
  rw [(rat_natCast_parts n).1, (rat_natCast_parts n).2]
  have hb : bitLength 1 1 - 1 = 0 := by decide
  rw [if_neg (by simp), hb]
  simp

theorem jsonEncode_member_natCast (k : GoString) (n : Nat) :
    jsonEncode (.object [(k, .number (n : ℚ))]) =
      123 :: (encodeString k ++ 58 :: (natDigits n ++ [125])) := by
  simp [jsonEncode, encodeMembers, encodeNumber_natCast]

theorem wellFormed_exp2000 : WellFormed (.object [(bytes "exp", .number 2000)]) := by
  simp only [WellFormed, WellFormedMembers, List.map_nil, List.not_mem_nil, not_false_eq_true,
    true_and, and_true]
  exact ⟨validUTF8_ascii (bytes "exp") (by decide), isFloat64_2000⟩

theorem nesting_exp2000 : nesting (.object [(bytes "exp", .number 2000)]) ≤ maxNestingDepth := by
  simp [nesting, nestingMembers, maxNestingDepth]

/-- C2 (amended). Round trip of `decodeJWT`, with `json.Unmarshal` modelled by
`jsonUnmarshal` and nothing assumed about it. Let `c` be a claim set that is
well formed: every number in it is a `float64` value, every key and string is
valid UTF-8, no object has a key twice; and let it nest at most
`maxNestingDepth` = 10000 arrays and objects, itself counted. For every header
and signature without a `.`, and for the padded and the unpadded base64url
encoding alike, `decodeJWT` applied to
`header.base64url(jsonEncode c).signature` succeeds and returns exactly `c`
(the members even in the order of `c`); so encoding the returned claims again
and decoding again returns the same claims. -/
theorem decodeJWT_jsonEncode_round_trip (c : Claims) (h s : GoString) (padded : Bool)
    (hh : dot ∉ h) (hs : dot ∉ s) (hwf : WellFormed (.object c))
    (hdepth : nesting (.object c) ≤ maxNestingDepth) :
    decodeJWT jsonUnmarshal
        (h ++ dot :: (encodeToString padded (jsonEncode (.object c)) ++ dot :: s)) = .ok c ∧
    ∀ c1, decodeJWT jsonUnmarshal
          (h ++ dot :: (encodeToString padded (jsonEncode (.object c)) ++ dot :: s)) = .ok c1 →
      decodeJWT jsonUnmarshal
          (h ++ dot :: (encodeToString padded (jsonEncode (.object c1)) ++ dot :: s)) =
        .ok c1 := by
  have hfirst : decodeJWT jsonUnmarshal
      (h ++ dot :: (encodeToString padded (jsonEncode (.object c)) ++ dot :: s)) = .ok c := by
    rw [decodeJWT_encoded jsonUnmarshal h s padded _ hh hs, jsonUnmarshal_jsonEncode c hwf hdepth]
  refine ⟨hfirst, ?_⟩
  intro c1 h1
  rw [hfirst] at h1
  cases h1
  exact hfirst

/-- C2 (amended), at the claim set `exp = 2000` with the header `h` and the
signature `s`; the third conjunct is the JSON text of the claim set. -/
theorem decodeJWT_jsonEncode_round_trip_witness :
    dot ∉ bytes "h" ∧ dot ∉ bytes "s" ∧
    jsonEncode (.object [(bytes "exp", .number 2000)]) = bytes "\x7b\"exp\":2000\x7d" ∧
    decodeJWT jsonUnmarshal
        (bytes "h" ++ dot ::
          (encodeToString false (jsonEncode (.object [(bytes "exp", .number 2000)])) ++
            dot :: bytes "s")) = .ok [(bytes "exp", .number 2000)] :=
  ⟨by decide, by decide,
    by
      rw [show (2000 : ℚ) = ((2000 : ℕ) : ℚ) by norm_num, jsonEncode_member_natCast]
      decide,
    (decodeJWT_jsonEncode_round_trip [(bytes "exp", .number 2000)] (bytes "h") (bytes "s") false
      (by decide) (by decide) wellFormed_exp2000 nesting_exp2000).1⟩

/-- C2 as stated fails, in two ways. The claim set with the one member
`n = 9007199254740993` (2^53 + 1, no `float64` value) has the JSON text of the
first conjunct; on its token `decodeJWT` succeeds, but returns
`n = 9007199254740992`, which is not the claim set encoded. The claim set with
the one member `a`, 10000 arrays nested in each other, is 10001 levels deep; on
its token `decodeJWT` fails in `json.Unmarshal`. -/
theorem decodeJWT_round_trip_counterexample :
    jsonEncode (.object [(bytes "n", .number 9007199254740993)]) =
      bytes "\x7b\"n\":9007199254740993\x7d" ∧
    decodeJWT jsonUnmarshal
        (bytes "h" ++ dot ::
          (encodeToString false (jsonEncode (.object [(bytes "n", .number 9007199254740993)])) ++
            dot :: bytes "s")) = .ok [(bytes "n", .number 9007199254740992)] ∧
    decodeJWT jsonUnmarshal
        (bytes "h" ++ dot ::
          (encodeToString false (jsonEncode (.object [(bytes "n", .number 9007199254740993)])) ++
            dot :: bytes "s")) ≠ .ok [(bytes "n", .number 9007199254740993)] ∧
    ∃ msg, decodeJWT jsonUnmarshal
        (bytes "h" ++ dot ::
          (encodeToString false (jsonEncode (.object [(bytes "a", deepValue 10000)])) ++
            dot :: bytes "s")) = .error (.unmarshalClaims msg) := by
  have hc : (9007199254740993 : ℚ) = ((9007199254740993 : ℕ) : ℚ) := by norm_num
  have hden : ((9007199254740993 : ℚ)).den =
      2 ^ (bitLength ((9007199254740993 : ℚ)).den ((9007199254740993 : ℚ)).den - 1) := by
    rw [hc, (rat_natCast_parts 9007199254740993).2]
    decide
  have hdec : decodeJWT jsonUnmarshal
      (bytes "h" ++ dot ::
        (encodeToString false (jsonEncode (.object [(bytes "n", .number 9007199254740993)])) ++
          dot :: bytes "s")) = .ok [(bytes "n", .number 9007199254740992)] := by
    rw [decodeJWT_encoded jsonUnmarshal _ _ false _ (by decide) (by decide),
      jsonUnmarshal_rounded (bytes "n") (validUTF8_ascii (bytes "n") (by decide)) _ _ hden
        roundFloat64_2pow53_add_one]
  refine ⟨?_, hdec, ?_, ?_⟩
  · rw [hc, jsonEncode_member_natCast]
    decide
  · rw [hdec]
    intro heq
    simp only [Except.ok.injEq, List.cons.injEq, Prod.mk.injEq, JSONValue.number.injEq,
      and_true, true_and] at heq
    norm_num at heq
  · refine ⟨bytes "json: invalid input", ?_⟩
    rw [decodeJWT_encoded jsonUnmarshal _ _ false _ (by decide) (by decide),
      show deepValue 10000 = deepValue (9999 + 1) from rfl,
      jsonUnmarshal_deepValue (bytes "a") (validUTF8_ascii (bytes "a") (by decide)) 9999 (by decide)]

end TestClient
